import Mathlib

/-!
Verification of the zoysii solver (a 4x4 grid puzzle solver written in Rust).

The development shallowly embeds the program's data model and operations:

* `Point`, `Transform`, `Sym` — grid coordinates and the 8 square symmetries
  (from `values.rs`);
* `Action`, `ActionSequence` — moves and the bit-packed move sequence
  (from `action.rs`);
* `Board` with `cell_num_diff`, `Board.action`, `Board.is_won`,
  `Board.is_lost` — the board mechanics (from `board.rs`);
* `MarkBoard`, `ActionBoard`, `actionBoardsList` — the symmetry-canonical
  shortcut cache (from `marks.rs`);
* `solve_board` — the breadth-first solver (from `solve.rs`).

Machine integers are modelled as `Nat` with explicit `% 2^w` where overflow
matters (`u8` cell arithmetic, the `u64` sequence word, the `u128` cell pack,
`u16` mark masks, `u32` row/column words).  Panicking assertions are modelled
as `Option` where a claim is about the failure behaviour.
-/

namespace Zoysii

/-- Board size: 4x4 (`values.rs`: `pub const N: usize = 4`). -/
def N : Nat := 4

/-- Grid coordinate, a `u8` index into the row-major 4x4 grid
(`values.rs`: `pub struct Point(u8)`).  Values `≥ 16` are "outside". -/
structure Point where
  val : Nat
deriving DecidableEq, Repr

/-- Constructor `Point::from(row, column)`: the whole `if` expression is cast
to `u8` in the source, hence the `% 256`. -/
def Point.fromRC (row column : Nat) : Point :=
  ⟨(if column < N then column + row * N else N * N) % 256⟩

/-- Accessor `Point::index`. -/
def Point.index (p : Point) : Nat := p.val

/-- Accessor `Point::row`. -/
def Point.row (p : Point) : Nat := p.index / N

/-- Accessor `Point::column`. -/
def Point.column (p : Point) : Nat := p.index % N

/-- Predicate `Point::inside`. -/
def Point.inside (p : Point) : Bool := p.index < N * N

/-- List of all 16 grid points (`Point::iter_all`). -/
def Point.iter_all : List Point := (List.range (N * N)).map (fun i => ⟨i⟩)

/-- Enumeration `Transform` from `values.rs`: mirror rows, and the three
rotations. -/
inductive Transform
  | Mirror
  | Deg90
  | Deg180
  | Deg270
deriving DecidableEq, Repr

/-- Symmetry element `Sym` from `values.rs`: a transform plus an optional
preceding mirror.  The pair `(Mirror, mirror := true)` acts as the identity. -/
structure Sym where
  transform : Transform
  mirror : Bool
deriving DecidableEq, Repr

/-- Inverse of a transform (`Transform::reverse`). -/
def Transform.reverse : Transform → Transform
  | .Mirror => .Mirror
  | .Deg90 => .Deg270
  | .Deg270 => .Deg90
  | .Deg180 => .Deg180

/-- Application of a single transform to a point (`Point::transform`). -/
def Point.transform (p : Point) (t : Transform) : Point :=
  match t with
  | .Mirror => Point.fromRC (N - 1 - p.row) p.column
  | .Deg90 => Point.fromRC (N - 1 - p.column) p.row
  | .Deg270 => Point.fromRC p.column (N - 1 - p.row)
  | .Deg180 => Point.fromRC (N - 1 - p.row) (N - 1 - p.column)

/-- Application of a symmetry element to a point (`Point::symmetry`):
optionally mirror first, then apply the transform; `(Mirror, true)` is the
identity special case. -/
def Point.symmetry (p : Point) (sym : Sym) : Point :=
  if sym.transform = .Mirror ∧ sym.mirror then p
  else (if sym.mirror then p.transform .Mirror else p).transform sym.transform

/-- Inverse application of a symmetry element (`Point::reverse_symmetry`):
apply the reversed transform, then optionally mirror. -/
def Point.reverse_symmetry (p : Point) (sym : Sym) : Point :=
  if sym.transform = .Mirror ∧ sym.mirror then p
  else
    let v := p.transform sym.transform.reverse
    if sym.mirror then v.transform .Mirror else v

/-- Move enumeration `Action` from `action.rs`. -/
inductive Action
  | UP
  | DOWN
  | LEFT
  | RIGHT
deriving DecidableEq, Repr

/-- The constant `ACTIONS` array from `action.rs`, in source order. -/
def ACTIONS : List Action := [.UP, .DOWN, .LEFT, .RIGHT]

/-- Rust `ACTIONS[i]` indexing (used with an index already masked below 4). -/
def actionsGet : Nat → Action
  | 0 => .UP
  | 1 => .DOWN
  | 2 => .LEFT
  | _ => .RIGHT

/-- Offsetting a point by a move (`impl ops::Add<Action> for Point`): the
unmatched guard cases (`UP` at row 0, `LEFT` at column 0) fall through to
`N`, which `Point::from` turns into an outside coordinate. -/
def Point.add (p : Point) (a : Action) : Point :=
  let row := p.row
  let col := p.column
  Point.fromRC
    (match a with
     | .LEFT | .RIGHT => row
     | .UP => if row > 0 then row - 1 else N
     | .DOWN => row + 1)
    (match a with
     | .UP | .DOWN => col
     | .LEFT => if col > 0 then col - 1 else N
     | .RIGHT => col + 1)

/-- Bit-packed move sequence (`action.rs`: `struct ActionSequence(u64)`,
6-bit length field in the low bits, 2 bits per move above it). -/
structure ActionSequence where
  val : Nat
deriving DecidableEq, Repr

/-- The capacity constant `ActionSequence::MAX_LENGTH = (64 - 6) / 2`. -/
def ActionSequence.MAX_LENGTH : Nat := (64 - 6) / 2

/-- Constructor `ActionSequence::new`. -/
def ActionSequence.new : ActionSequence := ⟨0⟩

/-- Length accessor (`(0x3F & self.0) as usize`). -/
def ActionSequence.length (s : ActionSequence) : Nat := 0x3F &&& s.val

/-- The 2-bit encoding of a move used by `ActionSequence::add`. -/
def Action.code : Action → Nat
  | .UP => 0
  | .DOWN => 1
  | .LEFT => 2
  | .RIGHT => 3

/-- Raw append expression of `ActionSequence::add` (the arithmetic performed
after the debug assertion): xor the length field from `len` to `len + 1` and
or the move code into its 2-bit slot, in a `u64` word. -/
def ActionSequence.addU (s : ActionSequence) (action : Action) : ActionSequence :=
  ⟨((s.val ^^^ (s.length ^^^ (s.length + 1))) ||| (action.code <<< (2 * s.length + 6))) % 2 ^ 64⟩

/-- Append (`ActionSequence::add`).  The source guards the append with
`debug_assert!(len + 1 <= Self::MAX_LENGTH)`; the violated assertion (a
panic) is modelled as `none`. -/
def ActionSequence.add (s : ActionSequence) (action : Action) : Option ActionSequence :=
  if s.length + 1 ≤ ActionSequence.MAX_LENGTH then some (s.addU action) else none

/-- Read-back (`ActionSequence::get`): decode the 2-bit slot of move `index`
through the `ACTIONS` array. -/
def ActionSequence.get (s : ActionSequence) (index : Nat) : Action :=
  actionsGet ((s.val >>> (index * 2 + 6)) &&& 0x03)

/-- Conversion `impl From<ActionSequence> for Vec<Action>`. -/
def ActionSequence.toList (s : ActionSequence) : List Action :=
  (List.range s.length).map s.get

/-- The `diff` rule (`board.rs`: `cell_num_diff`).  All operands are `u8`:
`high - low` cannot underflow and `low + 1` cannot overflow, but `high + low`
is a wrapping `u8` addition, hence the `% 256`. -/
def cell_num_diff (num origin : Nat) : Nat :=
  if num = origin then 0
  else
    let low := min num origin
    let high := max num origin
    if high > low + 1 then high - low else (high + low) % 256

/-- Cell read from a packed `u128` cell word (`Board::cell`, the `as u8`
truncation is the `% 256`). -/
def cellOf (cells : Nat) (p : Point) : Nat := (cells >>> (p.index * 8)) % 256

/-- Cell write into a packed `u128` cell word (`Board::set_cell`, the
xor-update of one byte). -/
def setCellOf (cells : Nat) (p : Point) (v : Nat) : Nat :=
  cells ^^^ ((cellOf cells p ^^^ v) <<< (p.index * 8))

/-- The board state (`board.rs`: `struct Board`): player position plus the
16 cell magnitudes packed 8 bits each into a `u128`. -/
structure Board where
  pos : Point
  cells : Nat
deriving DecidableEq, Repr

/-- Cell accessor `Board::cell`. -/
def Board.cell (b : Board) (p : Point) : Nat := cellOf b.cells p

/-- The `while pos.inside()` ray walk inside `Board::apply_action`, expressed
with fuel (the walk leaves the grid after at most 4 steps; `apply_action`
passes fuel 16).  State is the cell word plus the running `clears` count. -/
def walkLoop (origin : Nat) (a : Action) : Nat → Nat × Nat → Point → Nat × Nat
  | 0, st, _ => st
  | fuel + 1, (cells, clears), pos =>
    if pos.inside then
      let v := cellOf cells pos
      let st :=
        if v > 0 then
          let nv := cell_num_diff v origin
          (setCellOf cells pos nv, clears + (if nv = 0 then 1 else 0))
        else (cells, clears)
      walkLoop origin a fuel st (pos.add a)
    else (cells, clears)

/-- Side-effect part of a move (`Board::apply_action`): if the origin cell is
nonzero, walk the ray applying `cell_num_diff`, and zero out the origin when
at least one clear occurred.  Returns the updated board and the clear count. -/
def Board.apply_action (b : Board) (p : Point) (action : Action) : Board × Nat :=
  let origin := b.cell p
  if origin > 0 then
    let res := walkLoop origin action 16 (b.cells, 0) (p.add action)
    if res.2 > 0 then (⟨b.pos, setCellOf res.1 p 0⟩, res.2 + 1)
    else (⟨b.pos, res.1⟩, res.2)
  else (b, 0)

/-- Move application (`Board::action`): `None` when the offset position is
outside the grid, otherwise the board with the new position and the ray
effects applied from the old position. -/
def Board.action (b : Board) (action : Action) : Option Board :=
  let pos := b.pos.add action
  if pos.inside then some (Board.apply_action ⟨pos, b.cells⟩ b.pos action).1
  else none

/-- Win predicate `Board::is_won`: the packed cell word is zero. -/
def Board.is_won (b : Board) : Bool := b.cells == 0

/-- Row word `Board::row`: the `u32` truncation of the cell word shifted to
row `r`. -/
def Board.rowNum (b : Board) (r : Nat) : Nat := (b.cells >>> (r * N * 8)) % 2 ^ 32

/-- Column word `Board::col`: the four column cells packed into a `u32`
(the source folds with `reduce(|acc, e| acc | e)` over the nonempty list,
which equals a fold from 0). -/
def Board.colNum (b : Board) (c : Nat) : Nat :=
  ((List.range N).map (fun r => b.cell (Point.fromRC r c) <<< (r * 8))).foldl (· ||| ·) 0

/-- Dead-cell predicate `Board::dead_cell`: nonzero cell whose row word and
column word vanish outside its own byte.  Rust `!x` on `u32` is the xor with
`2^32 - 1`. -/
def Board.dead_cell (b : Board) (p : Point) : Bool :=
  b.cell p != 0 &&
    (b.rowNum p.row &&& ((2 ^ 32 - 1) ^^^ (0xFF <<< (p.column * 8)))) == 0 &&
    (b.colNum p.column &&& ((2 ^ 32 - 1) ^^^ (0xFF <<< (p.row * 8)))) == 0

/-- Loss predicate `Board::is_lost`: some grid point is a dead cell. -/
def Board.is_lost (b : Board) : Bool :=
  ((List.range N).flatMap (fun r => (List.range N).map (fun c => Point.fromRC r c))).any
    b.dead_cell

/-- List of all 8 symmetry elements, in the iteration order of
`MarkBoard::all_symmeries` (transforms outer, `mirror` in `[true, false]`
inner). -/
def allSyms : List Sym :=
  ([Transform.Mirror, .Deg90, .Deg180, .Deg270].map fun t =>
    [true, false].map fun m => Sym.mk t m).flatten

/-- Extraction of a `len`-bit field at offset `lo` (proof-layer helper for
the packed-word reasoning). -/
def extract (x lo len : Nat) : Nat := (x >>> lo) % 2 ^ len

/-- Conversion of a move list into a packed sequence by folding
`ActionSequence::add` from the empty sequence (the pattern of the solver and
of the `add_and_get_actions` test). -/
def ActionSequence.ofList (l : List Action) : Option ActionSequence :=
  l.foldlM ActionSequence.add ActionSequence.new

/-- Packing invariant of a well-formed sequence holding exactly the moves of
`l`: the word is bounded by the used fields, the length field reads
`l.length`, and every slot decodes to the corresponding move. -/
def SeqInv (s : ActionSequence) (l : List Action) : Prop :=
  s.val < 2 ^ (6 + 2 * l.length) ∧ s.length = l.length ∧
    ∀ i (h : i < l.length), s.get i = l.get ⟨i, h⟩

/-- Search for the first occurrence of a separator character. -/
def splitOnce (sep : Char) : List Char → Option (List Char × List Char)
  | [] => none
  | c :: rest =>
    if c = sep then some ([], rest)
    else
      match splitOnce sep rest with
      | none => none
      | some pr => some (c :: pr.1, pr.2)

/-- Rust `str::splitn(n, sep)` on a character list: at most `n` pieces, the
last piece keeping the remainder unsplit. -/
def splitn : Nat → Char → List Char → List (List Char)
  | 0, _, _ => []
  | 1, _, s => [s]
  | n + 2, sep, s =>
    match splitOnce sep s with
    | none => [s]
    | some pr => pr.1 :: splitn (n + 1) sep pr.2

/-- Digit loop of Rust `u8::from_str`: checked base-10 accumulation (the
checked multiply and checked add fail exactly when the value leaves
`0..=255`). -/
def parseDigits : List Char → Nat → Option Nat
  | [], acc => some acc
  | c :: rest, acc =>
    if '0' ≤ c ∧ c ≤ '9' then
      let v := acc * 10 + (c.toNat - 48)
      if v ≤ 255 then parseDigits rest v else none
    else none

/-- Rust `str::parse::<u8>`: an optional leading `+`, then at least one
decimal digit, with the checked `u8` range. -/
def parseU8 (s : List Char) : Option Nat :=
  let digits :=
    match s with
    | '+' :: rest => rest
    | _ => s
  match digits with
  | [] => none
  | _ => parseDigits digits 0

/-- The or-fold packing of the parsed numbers (the `reduce` over the
enumerated cells in `from_str`; the fold from zero coincides with `reduce`
on a nonempty list). -/
def packCellsOr (ds : List Nat) : Nat :=
  (ds.enum.map fun ic => ic.2 <<< (ic.1 * 8)).foldl (· ||| ·) 0

/-- Board parsing (`impl FromStr for Board`): split into at most `N` rows on
`'|'`, each into at most `N` tokens on `' '`, parse every token as a `u8`,
require `N * N` numbers, and or-pack them in row-major order with the player
at `(0,0)`.  `ParseBoardError` is `none`. -/
def Board.fromStr (s : List Char) : Option Board :=
  match (((splitn N '|' s).flatMap fun r => (splitn N ' ' r).map parseU8).mapM id :
      Option (List Nat)) with
  | none => none
  | some numbers =>
    if numbers.length = N * N then some ⟨Point.fromRC 0 0, packCellsOr numbers⟩
    else none

/-- Decimal rendering of a cell magnitude (`u8` `Display`; cells are below
256, so three digits suffice). -/
def natToDec (n : Nat) : List Char :=
  if n < 10 then [Char.ofNat (48 + n)]
  else if n < 100 then [Char.ofNat (48 + n / 10), Char.ofNat (48 + n % 10)]
  else [Char.ofNat (48 + n / 100), Char.ofNat (48 + n / 10 % 10), Char.ofNat (48 + n % 10)]

/-- Rendering of one row (`Display`: the row's cells interspersed with
single spaces). -/
def renderRow (b : Board) (r : Nat) : List Char :=
  (List.intersperse [' '] ((List.range N).map fun c =>
    natToDec (b.cell (Point.fromRC r c)))).flatten

/-- Board rendering (`impl fmt::Display for Board`): rows interspersed with
`'|'`. -/
def Board.render (b : Board) : List Char :=
  (List.intersperse ['|'] ((List.range N).map fun r => renderRow b r)).flatten

/-- Base-256 packing of a digit list (sum form of the row-major cell pack,
used to reason about `packCellsOr`). -/
def packSum (ds : List Nat) : Nat := ds.foldr (fun d acc => d + 256 * acc) 0

/-- The canonical text of a 16-cell board: decimal tokens joined by single
spaces, rows joined by pipes.  The well-formed texts of the round-trip claim
with canonical decimal tokens are exactly these. -/
def canonicalText (ds : List Nat) : List Char :=
  (List.intersperse ['|'] ((List.range N).map fun r =>
    (List.intersperse [' '] ((List.range N).map fun c =>
      natToDec (ds.getD (N * r + c) 0))).flatten)).flatten

/-- The 16-bit occupied-pattern (`marks.rs`: `struct MarkBoard(u16)`). -/
structure MarkBoard where
  val : Nat
deriving DecidableEq, Repr

/-- Bit test `MarkBoard::marked`. -/
def MarkBoard.marked (m : MarkBoard) (p : Point) : Bool :=
  ((m.val >>> p.index) &&& 0x1) != 0

/-- Bit set `MarkBoard::mark`. -/
def MarkBoard.mark (m : MarkBoard) (p : Point) : MarkBoard :=
  ⟨m.val ||| (1 <<< p.index)⟩

/-- Pattern of a board (`MarkBoard::from`): one bit per nonzero cell (the
`reduce` or-fold over the nonempty point list equals the fold from zero). -/
def MarkBoard.fromBoard (b : Board) : MarkBoard :=
  ⟨(Point.iter_all.map fun p => (if b.cell p ≠ 0 then 1 else 0) <<< p.index).foldl (· ||| ·) 0⟩

/-- Pattern transform (`MarkBoard::transform`): each marked bit moves to the
transformed coordinate. -/
def MarkBoard.transformM (m : MarkBoard) (sym : Transform) : MarkBoard :=
  ⟨(Point.iter_all.map fun p =>
    (if m.marked p then 1 else 0) <<< (p.transform sym).index).foldl (· ||| ·) 0⟩

/-- Pattern symmetry (`MarkBoard::symmetry`): optional mirror, then the
transform; `(Mirror, true)` is the identity special case. -/
def MarkBoard.symmetryM (m : MarkBoard) (sym : Sym) : MarkBoard :=
  if sym.transform = .Mirror ∧ sym.mirror then m
  else (if sym.mirror then m.transformM .Mirror else m).transformM sym.transform

/-- Modelled from the spec: `Action::reverse` is not under `src/` (only its
callers are); §3 fixes it as the fixed inverse `Up↔Down, Left↔Right`. -/
def Action.reverse : Action → Action
  | .UP => .DOWN
  | .DOWN => .UP
  | .LEFT => .RIGHT
  | .RIGHT => .LEFT

/-- Modelled from the spec: `Action::index` is not under `src/`; the 2-bit
move encoding (§2, §3) and the `ACTIONS`-array decoding of
`ActionBoard::action_by_pos` fix it as the position in `ACTIONS`. -/
def Action.index : Action → Nat
  | .UP => 0
  | .DOWN => 1
  | .LEFT => 2
  | .RIGHT => 3

/-- Shortcut table for one `(pattern, end)` pair (`marks.rs`:
`struct ActionBoard`): the target (named `endp`, `end` being reserved), the
2-bit move slots packed in a `u32`, and the set of covered start cells. -/
structure ActionBoard where
  endp : Point
  actions : Nat
  starts : MarkBoard
deriving DecidableEq, Repr

/-- One `filter_map` step of the reverse expansion in `ActionBoard::from`:
state is `(actions, starts, collected next frontier)`; a fresh in-grid
unmarked cell records the reverse move and joins the next frontier. -/
def abStep (marks : MarkBoard) (st : Nat × MarkBoard × List Point)
    (pr : Action × Point) : Nat × MarkBoard × List Point :=
  let point := pr.2.add pr.1
  if point.inside = true ∧ marks.marked point = false ∧ st.2.1.marked point = false then
    (st.1 ||| (pr.1.reverse.index <<< (point.index * 2)), st.2.1.mark point,
      st.2.2 ++ [point])
  else st

/-- One frontier round of `ActionBoard::from`: the
`cartesian_product(ACTIONS, points)` fold, in iteration order (moves outer,
frontier points inner). -/
def abRound (marks : MarkBoard) (actions : Nat) (starts : MarkBoard)
    (points : List Point) : Nat × MarkBoard × List Point :=
  (ACTIONS.flatMap fun a => points.map fun p => (a, p)).foldl (abStep marks)
    (actions, starts, [])

/-- The `while points.len() > 0` loop of `ActionBoard::from`, with fuel. -/
def abLoop (marks : MarkBoard) : Nat → Nat → MarkBoard → List Point → Nat × MarkBoard
  | 0, actions, starts, _ => (actions, starts)
  | fuel + 1, actions, starts, points =>
    if points.isEmpty then (actions, starts)
    else
      let res := abRound marks actions starts points
      abLoop marks fuel res.1 res.2.1 res.2.2

/-- Construction `ActionBoard::from` (the loop runs with fuel 17: every
productive round marks at least one of the at most 15 unmarked non-end
cells, so the frontier is always empty within 16 rounds; the
`assert!(marks.marked(end))` precondition appears as a hypothesis of the
claims). -/
def ActionBoard.fromM (marks : MarkBoard) (endp : Point) : ActionBoard :=
  let res := abLoop marks 17 0 ⟨0⟩ [endp]
  ⟨endp, res.1, res.2⟩

/-- Lookup `ActionBoard::action_by_pos`: decode the 2-bit slot through
`ACTIONS` for covered start cells. -/
def ActionBoard.action_by_pos (ab : ActionBoard) (pos : Point) : Option Action :=
  if ab.starts.marked pos then
    some (actionsGet ((ab.actions >>> (pos.index * 2)) &&& 0x3))
  else none

/-- Eligible end coordinates of a pattern: marked cells adjacent to an
in-grid unmarked cell (the `filter` in the `ACTION_BOARDS` construction). -/
def validEnds (marks : MarkBoard) : List Point :=
  Point.iter_all.filter fun p =>
    marks.marked p && ACTIONS.any fun a => (p.add a).inside && !marks.marked (p.add a)

/-- The per-pattern table: every eligible end paired with its shortcut
board. -/
def buildABM (marks : MarkBoard) : List (Point × ActionBoard) :=
  (validEnds marks).map fun e => (e, ActionBoard.fromM marks e)

/-- One iteration of the `ACTION_BOARDS` initialization: keep the pattern if
unseen, and insert it and its 8 symmetric images into the seen set.  The
`HashSet` is modelled as a list with membership, the `HashMap` as an
association list. -/
def cacheStep (st : List (MarkBoard × List (Point × ActionBoard)) × List MarkBoard)
    (i : Nat) : List (MarkBoard × List (Point × ActionBoard)) × List MarkBoard :=
  let marks : MarkBoard := ⟨i⟩
  if marks ∈ st.2 then st
  else
    (st.1 ++ [(marks, buildABM marks)],
      (st.2 ++ [marks]) ++ allSyms.map fun sym => marks.symmetryM sym)

/-- First component of the `ACTION_BOARDS` fold state (the key-table map). -/
def keysOf : List (MarkBoard × List (Point × ActionBoard)) × List MarkBoard →
    List (MarkBoard × List (Point × ActionBoard))
  | (k, _) => k

/-- Second component of the `ACTION_BOARDS` fold state (the seen set). -/
def seenOf : List (MarkBoard × List (Point × ActionBoard)) × List MarkBoard →
    List MarkBoard
  | (_, s) => s

/-- The lazily built `ACTION_BOARDS` cache: all patterns except the
all-occupied one (`0..((1 << 16) - 1)`), folded through `cacheStep`. -/
def actionBoardsList : List (MarkBoard × List (Point × ActionBoard)) :=
  keysOf ((List.range ((1 <<< 16) - 1)).foldl cacheStep ([], []))

/-- The symmetry search of `MarkBoard::action_board_map`: the `reduce` to
the numerically smallest symmetric image, keeping the earliest symmetry on
ties (folding over the full list from the head is the same as `reduce`,
since the first comparison of the head with itself is a no-op). -/
def canonicalPair (m : MarkBoard) : Sym × MarkBoard :=
  (allSyms.map fun sym => (sym, m.symmetryM sym)).foldl
    (fun acc cur => if cur.2.val < acc.2.val then cur else acc)
    (Sym.mk .Mirror true, m.symmetryM (Sym.mk .Mirror true))

/-- Lookup `MarkBoard::action_board_map`: canonicalize, then consult the
cache.  The source `unwrap`s the lookup; the cannot-happen missing-key case
is given the empty table (see `C6_canonical_key_present`). -/
def MarkBoard.action_board_map (m : MarkBoard) : Sym × List (Point × ActionBoard) :=
  let pr := canonicalPair m
  (pr.1, (actionBoardsList.lookup pr.2).getD [])

/-- Direction conjugation by a transform (helper for the spec-modelled
`Action::reverse_symmetry`): the linear action of each transform on the four
unit directions. -/
def Action.dirTransform (a : Action) (t : Transform) : Action :=
  match t, a with
  | .Mirror, .UP => .DOWN
  | .Mirror, .DOWN => .UP
  | .Mirror, .LEFT => .LEFT
  | .Mirror, .RIGHT => .RIGHT
  | .Deg90, .UP => .LEFT
  | .Deg90, .DOWN => .RIGHT
  | .Deg90, .LEFT => .DOWN
  | .Deg90, .RIGHT => .UP
  | .Deg270, .UP => .RIGHT
  | .Deg270, .DOWN => .LEFT
  | .Deg270, .LEFT => .UP
  | .Deg270, .RIGHT => .DOWN
  | .Deg180, .UP => .DOWN
  | .Deg180, .DOWN => .UP
  | .Deg180, .LEFT => .RIGHT
  | .Deg180, .RIGHT => .LEFT

/-- Modelled from the spec: `Action::reverse_symmetry` is not under `src/`.
Sections 3 and 4.2 (step 4) fix it as mapping a move found in canonical
space back out through the symmetry's inverse action on directions,
mirroring the shape of `Point::reverse_symmetry` (reversed transform, then
the optional mirror); validated by `action_conjugation`. -/
def Action.reverse_symmetry (a : Action) (sym : Sym) : Action :=
  if sym.transform = .Mirror ∧ sym.mirror then a
  else
    let v := a.dirTransform sym.transform.reverse
    if sym.mirror then v.dirTransform .Mirror else v

/-- Forward direction conjugation (proof-layer counterpart of
`Action.reverse_symmetry`, mirroring `Point.symmetry`). -/
def Action.symAct (a : Action) (sym : Sym) : Action :=
  if sym.transform = .Mirror ∧ sym.mirror then a
  else (if sym.mirror then a.dirTransform .Mirror else a).dirTransform sym.transform

/-- Query `MarkBoard::action_towards`: canonicalize, look up the end's
table, read the move for the position, and conjugate it back out. -/
def MarkBoard.action_towards (m : MarkBoard) (pos endp : Point) : Option Action :=
  let pr := m.action_board_map
  ((pr.2.lookup (endp.symmetry pr.1)).bind fun b =>
    b.action_by_pos (pos.symmetry pr.1)).map fun action => action.reverse_symmetry pr.1

/-- Query `MarkBoard::find_all_ends_for`: every cached end whose reachable
set covers the canonicalized position, mapped back out of canonical space. -/
def MarkBoard.find_all_ends_for (m : MarkBoard) (pos : Point) : List Point :=
  let pr := m.action_board_map
  pr.2.filterMap fun eb =>
    if eb.2.starts.marked (pos.symmetry pr.1) then some (eb.1.reverse_symmetry pr.1)
    else none

/-- Search node (`solve.rs`: `struct SolveStep`). -/
structure SolveStep where
  board : Board
  seq : ActionSequence
  zero_path_end : Option Point
deriving DecidableEq, Repr

/-- Branch choice (`solve.rs`: `enum Choice`). -/
inductive Choice
  | Free (action : Action)
  | ZeroPath (endp : Point)
deriving DecidableEq, Repr

/-- Modelled from the spec: `Board::at_zero` is not under `src/`; §4.3 reads
it as "the player's current cell is zero". -/
def Board.at_zero (b : Board) : Bool := b.cell b.pos == 0

/-- Modelled from the spec: `Board::at_point` is not under `src/`; §4.3's
arrival check "the player has now arrived at `end`". -/
def Board.at_point (b : Board) (p : Point) : Bool := b.pos == p

/-- Modelled from the spec: `Board::zero_walk_endings` is not under `src/`;
§4.3 offers "one branch per distinct reachable end coordinate (from
`find_all_ends_for`)" on the pattern of the board. -/
def Board.zero_walk_endings (b : Board) : List Point :=
  (MarkBoard.fromBoard b).find_all_ends_for b.pos

/-- Modelled from the spec: `Board::move_towards` is not under `src/`; §4.3:
"use `action_towards` to get the single next Move; apply it to the
Board". -/
def Board.move_towards (b : Board) (endp : Point) : Option (Action × Board) :=
  ((MarkBoard.fromBoard b).action_towards b.pos endp).bind fun action =>
    (b.action action).map fun board => (action, board)

/-- Branch offer (`SolveStep::next_choices`): all four moves from a nonzero
cell; from a zero cell, the pending end if one is set, else one `ZeroPath`
branch per reachable end. -/
def SolveStep.next_choices (step : SolveStep) : List Choice :=
  if step.board.at_zero then
    match step.zero_path_end with
    | some endp => [Choice.ZeroPath endp]
    | none => step.board.zero_walk_endings.map Choice.ZeroPath
  else ACTIONS.map Choice.Free

/-- Expansion of one step (the `flat_map_iter`/`filter_map` body of
`solve_board`).  Inside the solver's budget the appended length stays below
`MAX_LENGTH`, so the `debug_assert` of `add` holds and the raw word update
`addU` is the appended value (established by the solver invariants). -/
def expandStep (step : SolveStep) : List SolveStep :=
  step.next_choices.filterMap fun choice =>
    match choice with
    | .Free action => (step.board.action action).map fun board =>
        SolveStep.mk board (step.seq.addU action) none
    | .ZeroPath endp => (step.board.move_towards endp).map fun ab =>
        SolveStep.mk ab.2 (step.seq.addU ab.1)
          (if ab.2.at_point endp then none else some endp)

/-- The solver loop of `solve_board`: expand the frontier, drop visited and
lost boards, return the first winning step's sequence, else merge the round's
source boards into the visited set and continue.  The rayon fork-join is a
pure map over the frontier, embedded in frontier order; the `HashSet` of
visited boards is a list with membership. -/
def solveLoop : List SolveStep → List Board → Nat → Option ActionSequence
  | _, _, 0 => none
  | steps, visited, m + 1 =>
    if steps.isEmpty then none
    else
      let next_steps := (steps.flatMap expandStep).filter fun step =>
        !visited.contains step.board && !step.board.is_lost
      match next_steps.find? fun step => step.board.is_won with
      | some sol => some sol.seq
      | none => solveLoop next_steps (visited ++ steps.map SolveStep.board) m

/-- Entry point `solve_board`: the empty solution for an already-won board,
else the search bounded by `max_moves` rounds.  (The source's
`assert!(max_moves <= ActionSequence::MAX_LENGTH)` is the hypothesis of the
claims about this function.) -/
def solve_board (board : Board) (max_moves : Nat) : Option (List Action) :=
  if board.is_won then some []
  else (solveLoop [⟨board, .new, none⟩] [] max_moves).map ActionSequence.toList

/-- Sequential application of a move list through `Board::action`. -/
def applyMoves (b : Board) : List Action → Option Board
  | [] => some b
  | a :: l => (b.action a).bind fun b2 => applyMoves b2 l

/-- A move list wins from a board when applying it reaches a won board. -/
def WinsFrom (b : Board) (l : List Action) : Prop :=
  ∃ b2, applyMoves b l = some b2 ∧ b2.is_won = true

/-- A zero-walk to `endp`: a nonempty move list stepping from unmarked
in-grid cells and arriving at `endp` with its final move. -/
def isZeroWalk (marks : MarkBoard) (endp : Point) : Point → List Action → Prop
  | _, [] => False
  | p, [a] => p.inside = true ∧ marks.marked p = false ∧ p.add a = endp
  | p, a :: rest => p.inside = true ∧ marks.marked p = false ∧
      isZeroWalk marks endp (p.add a) rest

/-- The position is within `k` zero-walk steps of the end. -/
def ReachIn (marks : MarkBoard) (endp : Point) (k : Nat) (p : Point) : Prop :=
  ∃ l, l.length ≤ k ∧ isZeroWalk marks endp p l

/-- Decoded 2-bit table move at a point. -/
def tableMove (A : Nat) (p : Point) : Action :=
  actionsGet (extract A (p.index * 2) 2)

/-- The position's shortest zero-walk to the end has length exactly `j`. -/
def ExactReach (marks : MarkBoard) (endp : Point) (j : Nat) (p : Point) : Prop :=
  ReachIn marks endp j p ∧ ¬ReachIn marks endp (j - 1) p

/-- Correctness of one recorded table slot: the point lies in some exact
layer `j`, and its recorded move either reaches the end directly (`j = 1`)
or steps to a recorded point of layer `j - 1`. -/
def TableOk (marks : MarkBoard) (endp : Point) (A : Nat) (S : MarkBoard) (p : Point) : Prop :=
  ∃ j, 1 ≤ j ∧ ExactReach marks endp j p ∧
    ((j = 1 ∧ p.add (tableMove A p) = endp) ∨
      (2 ≤ j ∧ ExactReach marks endp (j - 1) (p.add (tableMove A p)) ∧
        S.marked (p.add (tableMove A p)) = true))

/-- Loop invariant of the reverse breadth-first expansion in
`ActionBoard::from` after `k` rounds: `S` holds exactly the layers `1..k`,
`F` is exactly layer `k` (the end itself at `k = 0`), unwritten slots are
zero, and every written slot is a correct shortest first move. -/
def AbInv (marks : MarkBoard) (endp : Point) (k : Nat) (A : Nat) (S : MarkBoard)
    (F : List Point) : Prop :=
  A < 2 ^ 32 ∧ S.val < 2 ^ 16 ∧
    (∀ p : Point, S.marked p = true → p.inside = true ∧ marks.marked p = false) ∧
    (∀ p : Point, S.marked p = true ↔ ∃ j, 1 ≤ j ∧ j ≤ k ∧ ExactReach marks endp j p) ∧
    (∀ p : Point, p ∈ F ↔ (if k = 0 then p = endp else ExactReach marks endp k p)) ∧
    (∀ p : Point, S.marked p = false → extract A (p.index * 2) 2 = 0) ∧
    (∀ p : Point, S.marked p = true → TableOk marks endp A S p)

/-- Number of marked grid points of a pattern. -/
def countMarked (S : MarkBoard) : Nat := (Point.iter_all.filter S.marked).length

/-- Invariant of the fold inside one round over the `(move, point)` pairs:
`S1` extends `S` exactly by the collected fresh points, written slots are
preserved, unwritten slots stay zero, and every fresh point records the
reverse of a move leading back to a frontier point. -/
def RoundInv (marks : MarkBoard) (F : List Point) (A : Nat) (S : MarkBoard)
    (st : Nat × MarkBoard × List Point) : Prop :=
  st.1 < 2 ^ 32 ∧ st.2.1.val < 2 ^ 16 ∧
    (∀ p : Point, S.marked p = true → st.2.1.marked p = true) ∧
    (∀ p : Point, st.2.1.marked p = true → S.marked p = true ∨ p ∈ st.2.2) ∧
    (∀ p ∈ st.2.2, st.2.1.marked p = true ∧ S.marked p = false ∧ p.inside = true ∧
      marks.marked p = false) ∧
    (∀ p : Point, st.2.1.marked p = false → extract st.1 (p.index * 2) 2 = 0) ∧
    (∀ p : Point, S.marked p = true →
      extract st.1 (p.index * 2) 2 = extract A (p.index * 2) 2) ∧
    (∀ p ∈ st.2.2, ∃ a point, point ∈ F ∧ p = point.add a ∧
      tableMove st.1 p = a.reverse)

/-- Soundness of a full shortcut table: recorded cells are exactly the
unmarked cells with a zero-walk to the end, and every recorded slot is a
correct shortest first move. -/
def AbGood (marks : MarkBoard) (endp : Point) (A : Nat) (S : MarkBoard) : Prop :=
  A < 2 ^ 32 ∧ S.val < 2 ^ 16 ∧
    (∀ p : Point, S.marked p = true → p.inside = true ∧ marks.marked p = false) ∧
    (∀ p : Point, S.marked p = true ↔ ∃ j, 1 ≤ j ∧ ExactReach marks endp j p) ∧
    (∀ p : Point, S.marked p = true → TableOk marks endp A S p)

/-- A move list that follows the table readings from a position to the
table's end. -/
def followsTable (ab : ActionBoard) : Point → List Action → Prop
  | _, [] => False
  | p, [a] => ab.action_by_pos p = some a ∧ p.add a = ab.endp
  | p, a :: rest => ab.action_by_pos p = some a ∧ followsTable ab (p.add a) rest

/-- Soundness bookkeeping of a search node at depth `k`: its board is the
result of `k` real moves from the start board and its packed sequence holds
exactly those moves. -/
def StepSoundAt (b0 : Board) (k : Nat) (s : SolveStep) : Prop :=
  ∃ l : List Action, l.length = k ∧ applyMoves b0 l = some s.board ∧ SeqInv s.seq l

/-- A move list realizing a chain of `move_towards` calls to `endp`: each
step is the move the table dictates, intermediate boards keep the cells,
stay on zero cells and are not yet at the end, and the last step arrives. -/
def followsMT (e : Point) : Board → List Action → Prop
  | _, [] => False
  | b, [a] => b.move_towards e = some (a, ⟨e, b.cells⟩)
  | b, a :: rest =>
      b.move_towards e = some (a, ⟨b.pos.add a, b.cells⟩) ∧
      (⟨b.pos.add a, b.cells⟩ : Board).at_point e = false ∧
      (⟨b.pos.add a, b.cells⟩ : Board).at_zero = true ∧
      followsMT e ⟨b.pos.add a, b.cells⟩ rest

/-- A move list the solver can realize from a search node: every move is
offered by `expandStep` with the matching board and raw sequence update,
ending on a won board. -/
def GoodSuffix : SolveStep → List Action → Prop
  | s, [] => s.board.is_won = true
  | s, a :: l => ∃ s2 : SolveStep, s2 ∈ expandStep s ∧
      s.board.action a = some s2.board ∧ s2.seq = s.seq.addU a ∧ GoodSuffix s2 l

/- ===================== THEOREMS ===================== -/

/-- Bit of a value packed below a `2^w`-scaled high part. -/
theorem testBit_add_mul (w d a j : Nat) (hd : d < 2 ^ w) :
    (d + 2 ^ w * a).testBit j = if j < w then d.testBit j else a.testBit (j - w) := by
  rcases Nat.lt_or_ge j w with hj | hj
  · rw [if_pos hj, Nat.testBit_to_div_mod, Nat.testBit_to_div_mod]
    have hsplit : 2 ^ w = 2 ^ j * 2 ^ (w - j) := by
      rw [← pow_add]; congr 1; omega
    have hdiv : (d + 2 ^ w * a) / 2 ^ j = d / 2 ^ j + 2 ^ (w - j) * a := by
      rw [hsplit, mul_assoc, Nat.add_mul_div_left _ _ (Nat.pos_pow_of_pos j (by norm_num))]
    rw [hdiv]
    have heven : (2 ^ (w - j) * a) % 2 = 0 := by
      have h2 : 2 ^ (w - j) = 2 * 2 ^ (w - j - 1) := by
        rw [← pow_succ']; congr 1; omega
      rw [h2, mul_assoc, Nat.mul_mod_right]
    have hmod : (d / 2 ^ j + 2 ^ (w - j) * a) % 2 = d / 2 ^ j % 2 := by omega
    rw [hmod]
  · rw [if_neg (by omega), Nat.testBit_to_div_mod, Nat.testBit_to_div_mod]
    have hsplit : 2 ^ j = 2 ^ w * 2 ^ (j - w) := by
      rw [← pow_add]; congr 1; omega
    have hdiv : (d + 2 ^ w * a) / 2 ^ j = a / 2 ^ (j - w) := by
      rw [hsplit, ← Nat.div_div_eq_div_mul, Nat.add_mul_div_left _ _
        (Nat.pos_pow_of_pos w (by norm_num)), Nat.div_eq_of_lt hd]
      simp
    rw [hdiv]

/-- Low part of a packed pair. -/
theorem mod_add_mul (w d a : Nat) (hd : d < 2 ^ w) : (d + 2 ^ w * a) % 2 ^ w = d := by
  rw [Nat.add_mul_mod_self_left, Nat.mod_eq_of_lt hd]

/-- High part of a packed pair. -/
theorem div_add_mul (w d a : Nat) (hd : d < 2 ^ w) : (d + 2 ^ w * a) / 2 ^ w = a := by
  rw [Nat.add_mul_div_left _ _ (Nat.pos_pow_of_pos w (by norm_num)), Nat.div_eq_of_lt hd]
  simp

/-- Bitwise and distributes over `w`-aligned packed pairs. -/
theorem land_add_mul (w d a e b : Nat) (hd : d < 2 ^ w) (he : e < 2 ^ w) :
    (d + 2 ^ w * a) &&& (e + 2 ^ w * b) = (d &&& e) + 2 ^ w * (a &&& b) := by
  apply Nat.eq_of_testBit_eq
  intro j
  have hde : d &&& e < 2 ^ w := lt_of_le_of_lt (Nat.and_le_left) hd
  rw [Nat.testBit_land, testBit_add_mul w d a j hd, testBit_add_mul w e b j he,
    testBit_add_mul w (d &&& e) (a &&& b) j hde]
  rcases Nat.lt_or_ge j w with hj | hj
  · simp [hj, Nat.testBit_land]
  · simp [Nat.not_lt.mpr hj, Nat.testBit_land]

/-- Bitwise xor distributes over `w`-aligned packed pairs. -/
theorem xor_add_mul (w d a e b : Nat) (hd : d < 2 ^ w) (he : e < 2 ^ w) :
    (d + 2 ^ w * a) ^^^ (e + 2 ^ w * b) = (d ^^^ e) + 2 ^ w * (a ^^^ b) := by
  apply Nat.eq_of_testBit_eq
  intro j
  have hde : d ^^^ e < 2 ^ w := Nat.xor_lt_two_pow hd he
  rw [Nat.testBit_xor, testBit_add_mul w d a j hd, testBit_add_mul w e b j he,
    testBit_add_mul w (d ^^^ e) (a ^^^ b) j hde]
  rcases Nat.lt_or_ge j w with hj | hj
  · simp [hj, Nat.testBit_xor]
  · simp [Nat.not_lt.mpr hj, Nat.testBit_xor]

/-- Bitwise or distributes over `w`-aligned packed pairs. -/
theorem lor_add_mul (w d a e b : Nat) (hd : d < 2 ^ w) (he : e < 2 ^ w) :
    (d + 2 ^ w * a) ||| (e + 2 ^ w * b) = (d ||| e) + 2 ^ w * (a ||| b) := by
  apply Nat.eq_of_testBit_eq
  intro j
  have hde : d ||| e < 2 ^ w := Nat.bitwise_lt hd he
  rw [Nat.testBit_lor, testBit_add_mul w d a j hd, testBit_add_mul w e b j he,
    testBit_add_mul w (d ||| e) (a ||| b) j hde]
  rcases Nat.lt_or_ge j w with hj | hj
  · simp [hj, Nat.testBit_lor]
  · simp [Nat.not_lt.mpr hj, Nat.testBit_lor]

/-- Or with a low value is addition. -/
theorem lor_eq_add_of_lt (w d a : Nat) (hd : d < 2 ^ w) : d ||| 2 ^ w * a = d + 2 ^ w * a := by
  have h0 : d = d + 2 ^ w * 0 := by simp
  have h1 : 2 ^ w * a = 0 + 2 ^ w * a := by simp
  calc d ||| 2 ^ w * a = (d + 2 ^ w * 0) ||| (0 + 2 ^ w * a) := by rw [← h0, ← h1]
    _ = (d ||| 0) + 2 ^ w * (0 ||| a) := lor_add_mul w d 0 0 a hd (Nat.pos_pow_of_pos w (by norm_num))
    _ = d + 2 ^ w * a := by simp

theorem testBit_extract (x lo len j : Nat) :
    (extract x lo len).testBit j = (decide (j < len) && x.testBit (lo + j)) := by
  unfold extract
  rw [Nat.testBit_mod_two_pow, Nat.testBit_shiftRight]

theorem extract_lt (x lo len : Nat) : extract x lo len < 2 ^ len :=
  Nat.mod_lt _ (Nat.pos_pow_of_pos len (by norm_num))

theorem eq_of_testBit_lt {len a b : Nat} (ha : a < 2 ^ len) (hb : b < 2 ^ len)
    (h : ∀ j, j < len → a.testBit j = b.testBit j) : a = b := by
  apply Nat.eq_of_testBit_eq
  intro j
  rcases Nat.lt_or_ge j len with hj | hj
  · exact h j hj
  · have hpow : (2 : Nat) ^ len ≤ 2 ^ j := Nat.pow_le_pow_right (by norm_num) hj
    rw [Nat.testBit_eq_false_of_lt (lt_of_lt_of_le ha hpow),
      Nat.testBit_eq_false_of_lt (lt_of_lt_of_le hb hpow)]

theorem extract_xor (x y lo len : Nat) :
    extract (x ^^^ y) lo len = extract x lo len ^^^ extract y lo len := by
  refine eq_of_testBit_lt (extract_lt _ _ _)
    (Nat.xor_lt_two_pow (extract_lt _ _ _) (extract_lt _ _ _)) (fun j hj => ?_)
  rw [Nat.testBit_xor, testBit_extract, testBit_extract, testBit_extract, Nat.testBit_xor]
  simp [hj]

theorem extract_lor (x y lo len : Nat) :
    extract (x ||| y) lo len = extract x lo len ||| extract y lo len := by
  refine eq_of_testBit_lt (extract_lt _ _ _)
    (Nat.bitwise_lt (extract_lt _ _ _) (extract_lt _ _ _)) (fun j hj => ?_)
  rw [Nat.testBit_lor, testBit_extract, testBit_extract, testBit_extract, Nat.testBit_lor]
  simp [hj]

theorem extract_land (x y lo len : Nat) :
    extract (x &&& y) lo len = extract x lo len &&& extract y lo len := by
  refine eq_of_testBit_lt (extract_lt _ _ _)
    (lt_of_le_of_lt Nat.and_le_left (extract_lt _ _ _)) (fun j hj => ?_)
  rw [Nat.testBit_land, testBit_extract, testBit_extract, testBit_extract, Nat.testBit_land]
  simp [hj]

theorem extract_of_lt {d k : Nat} (lo len : Nat) (hd : d < 2 ^ k) (hk : k ≤ lo) :
    extract d lo len = 0 := by
  unfold extract
  rw [Nat.shiftRight_eq_div_pow,
    Nat.div_eq_of_lt (lt_of_lt_of_le hd (Nat.pow_le_pow_right (by norm_num) hk)), Nat.zero_mod]

theorem extract_shiftLeft_low (d s lo len : Nat) (h : lo + len ≤ s) :
    extract (d <<< s) lo len = 0 := by
  refine eq_of_testBit_lt (extract_lt _ _ _) (Nat.pos_pow_of_pos len (by norm_num))
    (fun j hj => ?_)
  rw [testBit_extract, Nat.testBit_shiftLeft, Nat.zero_testBit]
  have : ¬ s ≤ lo + j := by omega
  simp [this]

theorem extract_shiftLeft_ge (d s lo len : Nat) (h : s ≤ lo) :
    extract (d <<< s) lo len = extract d (lo - s) len := by
  refine eq_of_testBit_lt (extract_lt _ _ _) (extract_lt _ _ _) (fun j hj => ?_)
  rw [testBit_extract, testBit_extract, Nat.testBit_shiftLeft]
  have h1 : s ≤ lo + j := by omega
  have h2 : lo + j - s = lo - s + j := by omega
  simp [h1, h2]

theorem extract_mod_high (x m lo len : Nat) (h : lo + len ≤ m) :
    extract (x % 2 ^ m) lo len = extract x lo len := by
  refine eq_of_testBit_lt (extract_lt _ _ _) (extract_lt _ _ _) (fun j hj => ?_)
  rw [testBit_extract, testBit_extract, Nat.testBit_mod_two_pow]
  have : lo + j < m := by omega
  simp [this, hj]

theorem extract_extract (x lo1 len1 lo2 len2 : Nat) (h : lo2 + len2 ≤ len1) :
    extract (extract x lo1 len1) lo2 len2 = extract x (lo1 + lo2) len2 := by
  refine eq_of_testBit_lt (extract_lt _ _ _) (extract_lt _ _ _) (fun j hj => ?_)
  rw [testBit_extract, testBit_extract, testBit_extract]
  have : lo2 + j < len1 := by omega
  have hadd : lo1 + (lo2 + j) = lo1 + lo2 + j := by omega
  simp [this, hj, hadd]

theorem extract_div (x s lo len : Nat) :
    extract (x / 2 ^ s) lo len = extract x (s + lo) len := by
  unfold extract
  rw [Nat.shiftRight_eq_div_pow, Nat.shiftRight_eq_div_pow, Nat.div_div_eq_div_mul, ← pow_add]

theorem extract_zero_lo (x len : Nat) : extract x 0 len = x % 2 ^ len := by
  unfold extract
  rfl

theorem extract_high_zero {x : Nat} (m lo len : Nat) (hx : x < 2 ^ m) (h : m ≤ lo) :
    extract x lo len = 0 := extract_of_lt lo len hx h

/-- A value below `2^(w*k)` is zero exactly when all its `w`-bit digits are. -/
theorem eq_zero_iff_digits_zero (w : Nat) :
    ∀ k x, x < 2 ^ (w * k) → (x = 0 ↔ ∀ i, i < k → extract x (w * i) w = 0) := by
  intro k
  induction k with
  | zero =>
    intro x hx
    simp at hx
    subst hx
    simp [extract]
  | succ k ih =>
    intro x hx
    constructor
    · rintro rfl
      intro i _
      simp [extract]
    · intro h
      have h0 : x % 2 ^ w = 0 := by
        have := h 0 (Nat.succ_pos k)
        rwa [Nat.mul_zero, extract_zero_lo] at this
      have hdivlt : x / 2 ^ w < 2 ^ (w * k) := by
        apply Nat.div_lt_of_lt_mul
        rw [← pow_add]
        have : w + w * k = w * (k + 1) := by ring
        rwa [this]
      have hdiv : x / 2 ^ w = 0 := by
        rw [ih (x / 2 ^ w) hdivlt]
        intro i hi
        rw [extract_div]
        have : w + w * i = w * (i + 1) := by ring
        rw [this]
        exact h (i + 1) (by omega)
      have hx0 := Nat.div_add_mod x (2 ^ w)
      rw [hdiv, h0, Nat.mul_zero, Nat.zero_add] at hx0
      exact hx0.symm

/-- Points of the grid are exactly the members of `Point.iter_all`. -/
theorem Point.inside_iff_mem_iter_all (p : Point) :
    p.inside = true ↔ p ∈ Point.iter_all := by
  constructor
  · intro h
    have hv : p.val < 16 := by
      simpa [Point.inside, Point.index, N] using h
    exact List.mem_map.mpr ⟨p.val, List.mem_range.mpr hv, rfl⟩
  · intro h
    rcases List.mem_map.mp h with ⟨i, hi, rfl⟩
    simpa [Point.inside, Point.index, N] using List.mem_range.mp hi

/-- Decidable core of C10 over the explicit point and symmetry lists. -/
theorem point_symmetry_roundtrip_core :
    ∀ p ∈ Point.iter_all, ∀ s ∈ allSyms,
      (p.symmetry s).inside = true ∧ (p.symmetry s).reverse_symmetry s = p := by
  decide

/-- C10: for every in-grid point `p` and each of the 8 symmetry elements
`s`, `p.symmetry s` is again in-grid and `reverse_symmetry s` undoes
`symmetry s`, so mapping into canonical space and back is lossless. -/
theorem C10_symmetry_roundtrip (p : Point) (s : Sym) (hp : p.inside = true)
    (hs : s ∈ allSyms) :
    (p.symmetry s).inside = true ∧ (p.symmetry s).reverse_symmetry s = p :=
  point_symmetry_roundtrip_core p (Point.inside_iff_mem_iter_all p |>.mp hp) s hs

/-- Witness for C10 at the concrete point `(1,2)` and the `Deg90` symmetry. -/
theorem C10_witness :
    (Point.mk 6).inside = true ∧ Sym.mk .Deg90 true ∈ allSyms ∧
      ((Point.mk 6).symmetry (Sym.mk .Deg90 true)).inside = true ∧
      ((Point.mk 6).symmetry (Sym.mk .Deg90 true)).reverse_symmetry
          (Sym.mk .Deg90 true) = Point.mk 6 :=
  ⟨by decide, by decide,
    C10_symmetry_roundtrip (Point.mk 6) (Sym.mk .Deg90 true) (by decide) (by decide)⟩

/-- C2 counterexample: the claim's formula says consecutive magnitudes yield
`high + low`, but at `num = 129, origin = 128` the `u8` addition wraps: the
code yields `1`, not `257`. -/
theorem C2_counterexample :
    cell_num_diff 129 128 = 1 ∧ cell_num_diff 129 128 ≠ 129 + 128 := by
  decide

/-- C2 (amended): for magnitudes below 256 the diff rule returns 0 on equal
values, `high - low` on separated values, and the `u8`-wrapped sum
`(high + low) % 256` on consecutive values (the unwrapped sum only when it
fits in a cell); the result is always a valid cell magnitude. -/
theorem C2_amended (a b : Nat) (ha : a < 256) (hb : b < 256) :
    cell_num_diff a b ≤ 255 ∧
      (a = b → cell_num_diff a b = 0) ∧
      (max a b > min a b + 1 → cell_num_diff a b = max a b - min a b) ∧
      (a ≠ b → max a b ≤ min a b + 1 →
        cell_num_diff a b = (max a b + min a b) % 256) ∧
      (a ≠ b → max a b ≤ min a b + 1 → max a b + min a b ≤ 255 →
        cell_num_diff a b = max a b + min a b) := by
  by_cases hab : a = b
  · subst hab
    simp [cell_num_diff]
  · have hminmax : min a b + (max a b - min a b) = max a b := by omega
    by_cases hsep : max a b > min a b + 1
    · have hd : cell_num_diff a b = max a b - min a b := by
        unfold cell_num_diff
        rw [if_neg hab, if_pos hsep]
      refine ⟨by omega, fun h => absurd h hab, fun _ => hd, ?_, ?_⟩ <;>
        (intro _ hle; omega)
    · have hd : cell_num_diff a b = (max a b + min a b) % 256 := by
        unfold cell_num_diff
        rw [if_neg hab, if_neg hsep]
      have hlt : (max a b + min a b) % 256 < 256 := Nat.mod_lt _ (by omega)
      refine ⟨by omega, fun h => absurd h hab, fun h => absurd h hsep,
        fun _ _ => hd, fun _ _ hfit => ?_⟩
      rw [hd, Nat.mod_eq_of_lt (by omega)]

/-- Witness for C2 (amended) at `a = 129, b = 128` (the wrapping pair). -/
theorem C2_amended_witness :
    (129 < 256 ∧ 128 < 256) ∧
      (cell_num_diff 129 128 ≤ 255 ∧
        ((129 : Nat) = 128 → cell_num_diff 129 128 = 0) ∧
        (max 129 128 > min 129 128 + 1 →
          cell_num_diff 129 128 = max 129 128 - min 129 128) ∧
        ((129 : Nat) ≠ 128 → max 129 128 ≤ min 129 128 + 1 →
          cell_num_diff 129 128 = (max 129 128 + min 129 128) % 256) ∧
        ((129 : Nat) ≠ 128 → max 129 128 ≤ min 129 128 + 1 →
          max 129 128 + min 129 128 ≤ 255 →
          cell_num_diff 129 128 = max 129 128 + min 129 128)) :=
  ⟨⟨by decide, by decide⟩, C2_amended 129 128 (by decide) (by decide)⟩

/-- Decidable core of C4: which offsets leave the grid, for every grid point
and move. -/
theorem point_add_outside_core :
    ∀ p ∈ Point.iter_all,
      ((¬(p.add .UP).inside = true ↔ p.row = 0) ∧
        (¬(p.add .DOWN).inside = true ↔ p.row = 3) ∧
        (¬(p.add .LEFT).inside = true ↔ p.column = 0) ∧
        (¬(p.add .RIGHT).inside = true ↔ p.column = 3)) := by
  decide

/-- C4: for a well-formed board (position inside the grid), `Board::action`
returns `None` exactly when the offset position leaves the grid (`Up` at row
0, `Down` at row 3, `Left` at column 0, `Right` at column 3), and otherwise
returns a board whose position is the offset coordinate. -/
theorem C4_action_none_iff (b : Board) (a : Action) (hp : b.pos.inside = true) :
    (b.action a = none ↔
      ((a = .UP ∧ b.pos.row = 0) ∨ (a = .DOWN ∧ b.pos.row = 3) ∨
        (a = .LEFT ∧ b.pos.column = 0) ∨ (a = .RIGHT ∧ b.pos.column = 3))) ∧
      ∀ b', b.action a = some b' → b'.pos = b.pos.add a := by
  have hmem := Point.inside_iff_mem_iter_all b.pos |>.mp hp
  have hcore := point_add_outside_core b.pos hmem
  constructor
  · unfold Board.action
    by_cases h : (b.pos.add a).inside = true
    · simp only [h, if_true]
      constructor
      · intro hcontra; exact absurd hcontra (by simp)
      · intro hcases
        exfalso
        rcases hcases with ⟨rfl, hr⟩ | ⟨rfl, hr⟩ | ⟨rfl, hr⟩ | ⟨rfl, hr⟩
        · exact (hcore.1.mpr hr) h
        · exact (hcore.2.1.mpr hr) h
        · exact (hcore.2.2.1.mpr hr) h
        · exact (hcore.2.2.2.mpr hr) h
    · simp only [Bool.not_eq_true] at h
      simp only [h, Bool.false_eq_true, if_false, true_iff]
      have h' : ¬(b.pos.add a).inside = true := by simp [h]
      cases a with
      | UP => exact Or.inl ⟨rfl, hcore.1.mp h'⟩
      | DOWN => exact Or.inr (Or.inl ⟨rfl, hcore.2.1.mp h'⟩)
      | LEFT => exact Or.inr (Or.inr (Or.inl ⟨rfl, hcore.2.2.1.mp h'⟩))
      | RIGHT => exact Or.inr (Or.inr (Or.inr ⟨rfl, hcore.2.2.2.mp h'⟩))
  · intro b' hsome
    unfold Board.action at hsome
    by_cases h : (b.pos.add a).inside = true
    · simp only [h, if_true, Option.some.injEq] at hsome
      subst hsome
      unfold Board.apply_action
      by_cases ho : (Board.mk (b.pos.add a) b.cells).cell b.pos > 0
      · simp only [ho, if_true]
        by_cases hc :
            (walkLoop ((Board.mk (b.pos.add a) b.cells).cell b.pos) a 16
              ((Board.mk (b.pos.add a) b.cells).cells, 0) (b.pos.add a)).2 > 0 <;>
          simp [hc]
      · simp [ho]
    · simp [h] at hsome

/-- Witness for C4 at a concrete board (position `(1,1)`, one nonzero cell). -/
theorem C4_witness :
    (Point.mk 5).inside = true ∧
      ((Board.mk ⟨5⟩ 7).action .UP = none ↔
        ((Action.UP = .UP ∧ (Point.mk 5).row = 0) ∨
          (Action.UP = .DOWN ∧ (Point.mk 5).row = 3) ∨
          (Action.UP = .LEFT ∧ (Point.mk 5).column = 0) ∨
          (Action.UP = .RIGHT ∧ (Point.mk 5).column = 3))) ∧
      ∀ b', (Board.mk ⟨5⟩ 7).action .UP = some b' → b'.pos = (Point.mk 5).add .UP :=
  ⟨by decide, C4_action_none_iff (Board.mk ⟨5⟩ 7) .UP (by decide)⟩

/-- The length field is the low 6 bits of the word. -/
theorem ActionSequence.length_eq_mod (s : ActionSequence) : s.length = s.val % 64 := by
  unfold ActionSequence.length
  rw [Nat.land_comm]
  have h : (0x3F : Nat) = 2 ^ 6 - 1 := by norm_num
  rw [h, Nat.and_pow_two_sub_one_eq_mod]

/-- The slot read of `get` is a 2-bit field extraction. -/
theorem ActionSequence.get_eq_extract (s : ActionSequence) (i : Nat) :
    s.get i = actionsGet (extract s.val (i * 2 + 6) 2) := by
  unfold ActionSequence.get extract
  have h : (0x03 : Nat) = 2 ^ 2 - 1 := by norm_num
  rw [h, Nat.and_pow_two_sub_one_eq_mod]

/-- Decoding the 2-bit code of a move recovers the move. -/
theorem actionsGet_code (a : Action) : actionsGet a.code = a := by
  cases a <;> rfl

/-- The empty sequence satisfies the packing invariant for the empty list. -/
theorem SeqInv_new : SeqInv ActionSequence.new [] := by
  refine ⟨by norm_num [ActionSequence.new], by decide, ?_⟩
  intro i h
  simp at h

/-- Appending a move through the raw `addU` word update extends the packing
invariant by one slot. -/
theorem SeqInv_addU (s : ActionSequence) (a : Action) (l : List Action)
    (h : SeqInv s l) (hlen : l.length ≤ 28) : SeqInv (s.addU a) (l ++ [a]) := by
  obtain ⟨hbound, hlenf, hget⟩ := h
  set L := l.length with hL
  have hcode : a.code < 4 := by cases a <;> decide
  have hm64 : s.length ^^^ (s.length + 1) < 64 := by
    have h1 : s.length < 2 ^ 6 := by rw [hlenf]; omega
    have h2 : s.length + 1 < 2 ^ 6 := by rw [hlenf]; omega
    have := Nat.xor_lt_two_pow h1 h2
    simpa using this
  have hX : s.val ^^^ (s.length ^^^ (s.length + 1)) < 2 ^ (6 + 2 * L) := by
    apply Nat.xor_lt_two_pow hbound
    calc s.length ^^^ (s.length + 1) < 64 := hm64
      _ = 2 ^ 6 := by norm_num
      _ ≤ 2 ^ (6 + 2 * L) := Nat.pow_le_pow_right (by norm_num) (by omega)
  set X := s.val ^^^ (s.length ^^^ (s.length + 1)) with hXdef
  have hshift : a.code <<< (2 * s.length + 6) = 2 ^ (6 + 2 * L) * a.code := by
    rw [Nat.shiftLeft_eq, hlenf, Nat.mul_comm]
    congr 2
    omega
  have hXY : X ||| a.code <<< (2 * s.length + 6) = X + 2 ^ (6 + 2 * L) * a.code := by
    rw [hshift]
    exact lor_eq_add_of_lt (6 + 2 * L) X a.code hX
  have hbound' : X + 2 ^ (6 + 2 * L) * a.code < 2 ^ (6 + 2 * (L + 1)) := by
    have h1 : 2 ^ (6 + 2 * L) * a.code ≤ 2 ^ (6 + 2 * L) * 3 :=
      Nat.mul_le_mul_left _ (by omega)
    have h3 : 2 ^ (6 + 2 * (L + 1)) = 2 ^ (6 + 2 * L) * 4 := by
      have hexp : 6 + 2 * (L + 1) = 6 + 2 * L + 2 := by omega
      rw [hexp, pow_add 2 (6 + 2 * L) 2]
      norm_num
    omega
  have hb64 : X + 2 ^ (6 + 2 * L) * a.code < 2 ^ 64 := by
    calc X + 2 ^ (6 + 2 * L) * a.code < 2 ^ (6 + 2 * (L + 1)) := hbound'
      _ ≤ 2 ^ 64 := Nat.pow_le_pow_right (by norm_num) (by omega)
  have hval : (s.addU a).val = X + 2 ^ (6 + 2 * L) * a.code := by
    show ((s.val ^^^ (s.length ^^^ (s.length + 1))) |||
      a.code <<< (2 * s.length + 6)) % 2 ^ 64 = _
    rw [← hXdef, hXY, Nat.mod_eq_of_lt hb64]
  have hXmod : X % 64 = L + 1 := by
    have hx0 : X % 64 = extract X 0 6 := by
      rw [extract_zero_lo]
      norm_num
    rw [hx0, hXdef, extract_xor, extract_zero_lo, extract_zero_lo]
    have hm' : (s.length ^^^ (s.length + 1)) % 2 ^ 6 = s.length ^^^ (s.length + 1) :=
      Nat.mod_eq_of_lt (by simpa using hm64)
    have hv' : s.val % 2 ^ 6 = s.length := by
      rw [ActionSequence.length_eq_mod]
      norm_num
    rw [hm', hv', ← Nat.xor_assoc, Nat.xor_self, Nat.zero_xor, hlenf]
  refine ⟨by rw [hval]; simpa using hbound', ?_, ?_⟩
  · rw [ActionSequence.length_eq_mod, hval]
    have hsplit : 2 ^ (6 + 2 * L) * a.code = 64 * (2 ^ (2 * L) * a.code) := by
      rw [pow_add, mul_assoc]
      norm_num
    rw [hsplit, Nat.add_mul_mod_self_left, hXmod]
    simp
  · intro i hi
    have hi2 : i < l.length + 1 := by simpa using hi
    rw [ActionSequence.get_eq_extract, hval]
    have hfit : i * 2 + 6 + 2 ≤ 64 := by omega
    rcases Nat.lt_or_ge i L with hiL | hiL
    · have hslot : extract (X + 2 ^ (6 + 2 * L) * a.code) (i * 2 + 6) 2 =
          extract s.val (i * 2 + 6) 2 := by
        rw [← hXY, extract_lor, extract_shiftLeft_low _ _ _ _ (by omega),
          Nat.or_zero, hXdef, extract_xor,
          extract_of_lt _ _ (show s.length ^^^ (s.length + 1) < 2 ^ 6 by simpa using hm64)
            (by omega), Nat.xor_zero]
      rw [hslot, ← ActionSequence.get_eq_extract]
      have := hget i hiL
      rw [this]
      have hgetapp : (l ++ [a]).get ⟨i, hi⟩ = l.get ⟨i, hiL⟩ := by
        simp [List.get_eq_getElem, List.getElem_append_left, hiL]
      rw [hgetapp]
    · have hiL' : i = L := by omega
      subst hiL'
      have hslot : extract (X + 2 ^ (6 + 2 * L) * a.code) (L * 2 + 6) 2 = a.code := by
        rw [← hXY, extract_lor,
          extract_high_zero _ _ _ hX (by omega), Nat.zero_or, hshift, Nat.mul_comm,
          ← Nat.shiftLeft_eq, extract_shiftLeft_ge _ _ _ _ (by omega)]
        have hz : L * 2 + 6 - (6 + 2 * L) = 0 := by omega
        rw [hz, extract_zero_lo, Nat.mod_eq_of_lt (by omega)]
      rw [hslot, actionsGet_code]
      have hlast : (l ++ [a]).get ⟨L, hi⟩ = a := by
        simp [List.get_eq_getElem, hL]
      rw [hlast]

/-- Folding `add` over a move list extends any well-packed prefix. -/
theorem ofList_go (rest : List Action) : ∀ (pre : List Action) (s : ActionSequence),
    SeqInv s pre → pre.length + rest.length ≤ 29 →
    ∃ t, List.foldlM ActionSequence.add s rest = some t ∧ SeqInv t (pre ++ rest) := by
  induction rest with
  | nil =>
    intro pre s hs _
    exact ⟨s, by simp, by simpa using hs⟩
  | cons a rest ih =>
    intro pre s hs hbudget
    simp only [List.length_cons] at hbudget
    have hadd : s.add a = some (s.addU a) := by
      unfold ActionSequence.add
      rw [if_pos]
      rw [hs.2.1]
      show pre.length + 1 ≤ (64 - 6) / 2
      omega
    have hinv : SeqInv (s.addU a) (pre ++ [a]) := SeqInv_addU s a pre hs (by omega)
    obtain ⟨t, hfold, hinv'⟩ := ih (pre ++ [a]) (s.addU a) hinv
      (by simp; omega)
    refine ⟨t, ?_, ?_⟩
    · rw [List.foldlM_cons, hadd]
      simpa using hfold
    · rwa [List.append_assoc, List.singleton_append] at hinv'

/-- C7: `MAX_LENGTH` is 29, and folding `ActionSequence::add` over any list
of at most 29 moves succeeds and produces a sequence whose `length` is the
list length and whose `get i` returns the i-th appended move, in order. -/
theorem C7_sequence_roundtrip :
    ActionSequence.MAX_LENGTH = 29 ∧
      ∀ l : List Action, l.length ≤ 29 →
        ∃ s, ActionSequence.ofList l = some s ∧ s.length = l.length ∧
          ∀ i (h : i < l.length), s.get i = l.get ⟨i, h⟩ := by
  refine ⟨by decide, fun l hl => ?_⟩
  obtain ⟨t, hfold, hinv⟩ := ofList_go l [] ActionSequence.new SeqInv_new (by simpa using hl)
  exact ⟨t, hfold, by simpa using hinv.2.1, by simpa using hinv.2.2⟩

/-- Witness for C7 at the concrete move list `[DOWN, RIGHT, UP]`. -/
theorem C7_witness :
    ([Action.DOWN, .RIGHT, .UP].length ≤ 29) ∧
      ∃ s, ActionSequence.ofList [Action.DOWN, .RIGHT, .UP] = some s ∧
        s.length = [Action.DOWN, .RIGHT, .UP].length ∧
        ∀ i (h : i < [Action.DOWN, .RIGHT, .UP].length),
          s.get i = [Action.DOWN, .RIGHT, .UP].get ⟨i, h⟩ :=
  ⟨by decide, C7_sequence_roundtrip.2 [Action.DOWN, .RIGHT, .UP] (by decide)⟩

/-- C8: appending to a sequence whose length field already equals
`MAX_LENGTH` aborts at the violated `debug_assert` precondition (modelled as
`none`) instead of producing any (possibly corrupted) sequence value. -/
theorem C8_add_fails_fast (s : ActionSequence) (a : Action)
    (h : s.length = ActionSequence.MAX_LENGTH) : s.add a = none := by
  unfold ActionSequence.add
  rw [h]
  norm_num [ActionSequence.MAX_LENGTH]

/-- Witness for C8 at the concrete full sequence with word `29`. -/
theorem C8_witness :
    (ActionSequence.mk 29).length = ActionSequence.MAX_LENGTH ∧
      (ActionSequence.mk 29).add .UP = none :=
  ⟨by decide, C8_add_fails_fast _ _ (by decide)⟩

/-- Cell reads are 8-bit field extractions. -/
theorem cellOf_eq_extract (cells : Nat) (p : Point) :
    cellOf cells p = extract cells (p.index * 8) 8 := by
  unfold cellOf extract
  norm_num

/-- Cell values are valid `u8` magnitudes. -/
theorem cellOf_lt (cells : Nat) (p : Point) : cellOf cells p < 256 :=
  Nat.mod_lt _ (by norm_num)

/-- A board whose packed word fits `u128` is won exactly when its 16 cells
are zero. -/
theorem is_won_iff (b : Board) (hb : b.cells < 2 ^ 128) :
    b.is_won = true ↔ ∀ p : Point, p.inside = true → b.cell p = 0 := by
  unfold Board.is_won
  rw [beq_iff_eq]
  have hdig := eq_zero_iff_digits_zero 8 16 b.cells (by norm_num; omega)
  constructor
  · rintro h0 p _
    rw [Board.cell, cellOf_eq_extract, h0]
    simp [extract]
  · intro hall
    rw [hdig]
    intro i hi
    have hin : (Point.mk i).inside = true := by
      simp only [Point.inside, Point.index, N]
      simp
      omega
    have := hall ⟨i⟩ hin
    rw [Board.cell, cellOf_eq_extract] at this
    simpa [Point.index, Nat.mul_comm] using this

/-- Bytewise action of bitwise and on 32-bit words packed from four bytes. -/
theorem land_bytes32 (a0 a1 a2 a3 b0 b1 b2 b3 : Nat)
    (ha0 : a0 < 256) (ha1 : a1 < 256) (ha2 : a2 < 256)
    (hb0 : b0 < 256) (hb1 : b1 < 256) (hb2 : b2 < 256) :
    (a0 + 256 * (a1 + 256 * (a2 + 256 * a3))) &&&
        (b0 + 256 * (b1 + 256 * (b2 + 256 * b3))) =
      (a0 &&& b0) + 256 * ((a1 &&& b1) + 256 * ((a2 &&& b2) + 256 * (a3 &&& b3))) := by
  rw [show (256 : Nat) = 2 ^ 8 from by norm_num]
  rw [land_add_mul 8 a0 _ b0 _ (by omega) (by omega),
    land_add_mul 8 a1 _ b1 _ (by omega) (by omega),
    land_add_mul 8 a2 _ b2 _ (by omega) (by omega)]

/-- Masking a byte with 255 is the identity. -/
theorem and255_eq {e : Nat} (he : e < 256) : e &&& 255 = e := by
  rw [show (255 : Nat) = 2 ^ 8 - 1 from by norm_num, Nat.and_pow_two_sub_one_eq_mod,
    Nat.mod_eq_of_lt (by omega)]

/-- Digit extraction from a 4-byte packed word. -/
theorem extract_pack4 (d0 d1 d2 d3 : Nat)
    (h0 : d0 < 256) (h1 : d1 < 256) (h2 : d2 < 256) :
    extract (d0 + 256 * (d1 + 256 * (d2 + 256 * d3))) 0 8 = d0 ∧
      extract (d0 + 256 * (d1 + 256 * (d2 + 256 * d3))) 8 8 = d1 ∧
      extract (d0 + 256 * (d1 + 256 * (d2 + 256 * d3))) 16 8 = d2 ∧
      extract (d0 + 256 * (d1 + 256 * (d2 + 256 * d3))) 24 8 = d3 % 256 := by
  have h256 : (256 : Nat) = 2 ^ 8 := by norm_num
  refine ⟨?_, ?_, ?_, ?_⟩
  · rw [extract_zero_lo, h256, mod_add_mul 8 d0 _ (by omega)]
  · have h8 : extract (d0 + 256 * (d1 + 256 * (d2 + 256 * d3))) 8 8 =
        extract ((d0 + 256 * (d1 + 256 * (d2 + 256 * d3))) / 2 ^ 8) 0 8 := by
      rw [extract_div]
    rw [h8, extract_zero_lo, h256, div_add_mul 8 d0 _ (by omega),
      mod_add_mul 8 d1 _ (by omega)]
  · have h16 : extract (d0 + 256 * (d1 + 256 * (d2 + 256 * d3))) 16 8 =
        extract ((d0 + 256 * (d1 + 256 * (d2 + 256 * d3))) / 2 ^ 8 / 2 ^ 8) 0 8 := by
      rw [extract_div, extract_div]
    rw [h16, extract_zero_lo, h256, div_add_mul 8 d0 _ (by omega),
      div_add_mul 8 d1 _ (by omega), mod_add_mul 8 d2 _ (by omega)]
  · have h24 : extract (d0 + 256 * (d1 + 256 * (d2 + 256 * d3))) 24 8 =
        extract ((d0 + 256 * (d1 + 256 * (d2 + 256 * d3))) / 2 ^ 8 / 2 ^ 8 / 2 ^ 8) 0 8 := by
      rw [extract_div, extract_div, extract_div]
    rw [h24, extract_zero_lo, h256, div_add_mul 8 d0 _ (by omega),
      div_add_mul 8 d1 _ (by omega), div_add_mul 8 d2 _ (by omega)]

/-- Decomposition of a 32-bit word into its four byte fields. -/
theorem word32_decomp (x : Nat) (hx : x < 2 ^ 32) :
    x = extract x 0 8 + 256 * (extract x 8 8 + 256 * (extract x 16 8 + 256 * extract x 24 8)) := by
  have e0 : extract x 0 8 = x % 256 := by rw [extract_zero_lo]; norm_num
  have e1 : extract x 8 8 = x / 256 % 256 := by
    unfold extract
    rw [Nat.shiftRight_eq_div_pow]
    norm_num
  have e2 : extract x 16 8 = x / 65536 % 256 := by
    unfold extract
    rw [Nat.shiftRight_eq_div_pow]
    norm_num
  have e3 : extract x 24 8 = x / 16777216 % 256 := by
    unfold extract
    rw [Nat.shiftRight_eq_div_pow]
    norm_num
  rw [e0, e1, e2, e3]
  have hx' : x < 4294967296 := by omega
  omega

/-- The row/column mask test of `dead_cell` vanishes exactly when the bytes
away from the selected index vanish. -/
theorem masked_word_zero_iff (x : Nat) (hx : x < 2 ^ 32) (c : Nat) (hc : c < 4) :
    ((x &&& ((2 ^ 32 - 1) ^^^ (0xFF <<< (c * 8)))) == 0) = true ↔
      ∀ j, j < 4 → j ≠ c → extract x (8 * j) 8 = 0 := by
  rw [beq_iff_eq]
  have hd := word32_decomp x hx
  have hb0 := extract_lt x 0 8
  have hb1 := extract_lt x 8 8
  have hb2 := extract_lt x 16 8
  have hb3 := extract_lt x 24 8
  norm_num at hb0 hb1 hb2 hb3
  interval_cases c
  · rw [show ((2 ^ 32 - 1) ^^^ (0xFF <<< (0 * 8)) : Nat) =
      0 + 256 * (255 + 256 * (255 + 256 * 255)) from by decide]
    conv_lhs => rw [hd]
    rw [land_bytes32 _ _ _ _ _ _ _ _ hb0 hb1 hb2 (by norm_num) (by norm_num) (by norm_num),
      Nat.and_zero, and255_eq hb1, and255_eq hb2, and255_eq hb3]
    constructor
    · intro h j hj hjc
      interval_cases j
      · exact absurd rfl hjc
      all_goals (norm_num; omega)
    · intro h
      have h1 := h 1 (by norm_num) (by norm_num)
      have h2 := h 2 (by norm_num) (by norm_num)
      have h3 := h 3 (by norm_num) (by norm_num)
      norm_num at h1 h2 h3
      omega
  · rw [show ((2 ^ 32 - 1) ^^^ (0xFF <<< (1 * 8)) : Nat) =
      255 + 256 * (0 + 256 * (255 + 256 * 255)) from by decide]
    conv_lhs => rw [hd]
    rw [land_bytes32 _ _ _ _ _ _ _ _ hb0 hb1 hb2 (by norm_num) (by norm_num) (by norm_num),
      Nat.and_zero, and255_eq hb0, and255_eq hb2, and255_eq hb3]
    constructor
    · intro h j hj hjc
      interval_cases j
      · norm_num; omega
      · exact absurd rfl hjc
      all_goals (norm_num; omega)
    · intro h
      have h1 := h 0 (by norm_num) (by norm_num)
      have h2 := h 2 (by norm_num) (by norm_num)
      have h3 := h 3 (by norm_num) (by norm_num)
      norm_num at h1 h2 h3
      omega
  · rw [show ((2 ^ 32 - 1) ^^^ (0xFF <<< (2 * 8)) : Nat) =
      255 + 256 * (255 + 256 * (0 + 256 * 255)) from by decide]
    conv_lhs => rw [hd]
    rw [land_bytes32 _ _ _ _ _ _ _ _ hb0 hb1 hb2 (by norm_num) (by norm_num) (by norm_num),
      Nat.and_zero, and255_eq hb0, and255_eq hb1, and255_eq hb3]
    constructor
    · intro h j hj hjc
      interval_cases j
      · norm_num; omega
      · norm_num; omega
      · exact absurd rfl hjc
      · norm_num; omega
    · intro h
      have h1 := h 0 (by norm_num) (by norm_num)
      have h2 := h 1 (by norm_num) (by norm_num)
      have h3 := h 3 (by norm_num) (by norm_num)
      norm_num at h1 h2 h3
      omega
  · rw [show ((2 ^ 32 - 1) ^^^ (0xFF <<< (3 * 8)) : Nat) =
      255 + 256 * (255 + 256 * (255 + 256 * 0)) from by decide]
    conv_lhs => rw [hd]
    rw [land_bytes32 _ _ _ _ _ _ _ _ hb0 hb1 hb2 (by norm_num) (by norm_num) (by norm_num),
      Nat.and_zero, and255_eq hb0, and255_eq hb1, and255_eq hb2]
    constructor
    · intro h j hj hjc
      interval_cases j
      · norm_num; omega
      · norm_num; omega
      · norm_num; omega
      · exact absurd rfl hjc
    · intro h
      have h1 := h 0 (by norm_num) (by norm_num)
      have h2 := h 1 (by norm_num) (by norm_num)
      have h3 := h 2 (by norm_num) (by norm_num)
      norm_num at h1 h2 h3
      omega

/-- Or-packing four shifted bytes is base-256 packing. -/
theorem pack4_or (d0 d1 d2 d3 : Nat)
    (h0 : d0 < 256) (h1 : d1 < 256) (h2 : d2 < 256) (h3 : d3 < 256) :
    (((0 ||| d0 <<< (0 * 8)) ||| d1 <<< (1 * 8)) ||| d2 <<< (2 * 8)) ||| d3 <<< (3 * 8) =
      d0 + 256 * (d1 + 256 * (d2 + 256 * d3)) := by
  rw [Nat.zero_or]
  rw [show d0 <<< (0 * 8) = d0 from by simp [Nat.shiftLeft_eq]]
  have s1 : d1 <<< (1 * 8) = 2 ^ 8 * d1 := by rw [Nat.shiftLeft_eq, Nat.mul_comm]
  have s2 : d2 <<< (2 * 8) = 2 ^ 16 * d2 := by rw [Nat.shiftLeft_eq, Nat.mul_comm]
  have s3 : d3 <<< (3 * 8) = 2 ^ 24 * d3 := by rw [Nat.shiftLeft_eq, Nat.mul_comm]
  rw [s1, lor_eq_add_of_lt 8 d0 d1 (by omega)]
  rw [s2, lor_eq_add_of_lt 16 (d0 + 2 ^ 8 * d1) d2 (by omega)]
  rw [s3, lor_eq_add_of_lt 24 (d0 + 2 ^ 8 * d1 + 2 ^ 16 * d2) d3 (by omega)]
  omega

/-- Row words fit in 32 bits. -/
theorem rowNum_lt (b : Board) (r : Nat) : b.rowNum r < 2 ^ 32 :=
  Nat.mod_lt _ (by norm_num)

/-- The bytes of a row word are the cells of that row. -/
theorem rowNum_byte (b : Board) (r j : Nat) (hj : j < 4) :
    extract (b.rowNum r) (8 * j) 8 = b.cell ⟨4 * r + j⟩ := by
  have hrow : b.rowNum r = extract b.cells (r * N * 8) 32 := by
    unfold Board.rowNum extract
    norm_num
  rw [hrow, extract_extract _ _ _ _ _ (by omega), Board.cell, cellOf_eq_extract]
  congr 1
  simp only [Point.index, N]
  ring

/-- The column word is the base-256 packing of the cells of that column. -/
theorem colNum_eq (b : Board) (c : Nat) :
    b.colNum c = b.cell (Point.fromRC 0 c) + 256 * (b.cell (Point.fromRC 1 c) +
      256 * (b.cell (Point.fromRC 2 c) + 256 * b.cell (Point.fromRC 3 c))) := by
  unfold Board.colNum
  rw [show List.range N = [0, 1, 2, 3] from by decide]
  simp only [List.map_cons, List.map_nil, List.foldl_cons, List.foldl_nil]
  exact pack4_or _ _ _ _ (cellOf_lt _ _) (cellOf_lt _ _) (cellOf_lt _ _) (cellOf_lt _ _)

/-- Column words fit in 32 bits. -/
theorem colNum_lt (b : Board) (c : Nat) : b.colNum c < 2 ^ 32 := by
  rw [colNum_eq]
  have h0 := cellOf_lt b.cells (Point.fromRC 0 c)
  have h1 := cellOf_lt b.cells (Point.fromRC 1 c)
  have h2 := cellOf_lt b.cells (Point.fromRC 2 c)
  have h3 := cellOf_lt b.cells (Point.fromRC 3 c)
  unfold Board.cell
  norm_num
  omega

/-- Value of an in-range grid construction. -/
theorem fromRC_val (r c : Nat) (hr : r < 4) (hc : c < 4) :
    (Point.fromRC r c).val = c + r * 4 := by
  unfold Point.fromRC
  simp only [N]
  rw [if_pos hc, Nat.mod_eq_of_lt (by omega)]

/-- The bytes of a column word are the cells of that column. -/
theorem colNum_byte (b : Board) (c j : Nat) (hj : j < 4) (hc : c < 4) :
    extract (b.colNum c) (8 * j) 8 = b.cell ⟨4 * j + c⟩ := by
  have hpt : ∀ i, i < 4 → Point.fromRC i c = ⟨4 * i + c⟩ := by
    intro i hi
    have := fromRC_val i c hi hc
    cases hp : Point.fromRC i c
    simp only [hp] at this
    simp at this ⊢
    omega
  have hcells : ∀ i, i < 4 → b.cell (Point.fromRC i c) = b.cell ⟨4 * i + c⟩ := by
    intro i hi
    rw [hpt i hi]
  have h4 := colNum_eq b c
  rw [hcells 0 (by norm_num), hcells 1 (by norm_num), hcells 2 (by norm_num),
    hcells 3 (by norm_num)] at h4
  have hb0 : b.cell ⟨4 * 0 + c⟩ < 256 := cellOf_lt _ _
  have hb1 : b.cell ⟨4 * 1 + c⟩ < 256 := cellOf_lt _ _
  have hb2 : b.cell ⟨4 * 2 + c⟩ < 256 := cellOf_lt _ _
  have hb3 : b.cell ⟨4 * 3 + c⟩ < 256 := cellOf_lt _ _
  have hp4 := extract_pack4 (b.cell ⟨4 * 0 + c⟩) (b.cell ⟨4 * 1 + c⟩)
    (b.cell ⟨4 * 2 + c⟩) (b.cell ⟨4 * 3 + c⟩) hb0 hb1 hb2
  interval_cases j
  · rw [h4]
    simpa using hp4.1
  · rw [h4]
    simpa using hp4.2.1
  · rw [h4]
    simpa using hp4.2.2.1
  · rw [h4]
    have := hp4.2.2.2
    rw [Nat.mod_eq_of_lt hb3] at this
    simpa using this

/-- Characterization of `dead_cell` for an in-grid point: a nonzero cell
that is the only nonzero cell in both its row and its column. -/
theorem dead_cell_iff (b : Board) (p : Point) (hp : p.inside = true) :
    b.dead_cell p = true ↔
      (b.cell p ≠ 0 ∧
        (∀ q : Point, q.inside = true → q.row = p.row → q ≠ p → b.cell q = 0) ∧
        (∀ q : Point, q.inside = true → q.column = p.column → q ≠ p → b.cell q = 0)) := by
  have hval : p.val < 16 := by
    simpa [Point.inside, Point.index, N] using hp
  have hrow4 : p.row < 4 := by
    simp only [Point.row, Point.index, N]
    omega
  have hcol4 : p.column < 4 := by
    simp only [Point.column, Point.index, N]
    omega
  unfold Board.dead_cell
  rw [Bool.and_eq_true, Bool.and_eq_true, bne_iff_ne]
  have hrowmask := masked_word_zero_iff (b.rowNum p.row) (rowNum_lt b p.row) p.column hcol4
  have hcolmask := masked_word_zero_iff (b.colNum p.column) (colNum_lt b p.column) p.row hrow4
  constructor
  · rintro ⟨⟨hne, hrowz⟩, hcolz⟩
    refine ⟨hne, ?_, ?_⟩
    · intro q hq hqrow hqp
      have hj := (hrowmask.mp hrowz) q.column
        (by simp only [Point.column, Point.index, N]; omega)
        (by
          intro hcontra
          apply hqp
          have hqval : q.val < 16 := by simpa [Point.inside, Point.index, N] using hq
          have h1 : q.val / 4 = p.val / 4 := by
            simpa [Point.row, Point.index, N] using hqrow
          have h2 : q.val % 4 = p.val % 4 := by
            simpa [Point.column, Point.index, N] using hcontra
          cases q
          cases p
          simp at h1 h2 ⊢
          omega)
      rw [rowNum_byte b p.row q.column (by simp only [Point.column, Point.index, N]; omega)] at hj
      have hqeq : (⟨4 * p.row + q.column⟩ : Point) = q := by
        have hqval : q.val < 16 := by simpa [Point.inside, Point.index, N] using hq
        have h1 : q.val / 4 = p.row := by
          simpa [Point.row, Point.index, N] using hqrow
        cases q
        simp only [Point.column, Point.index, N] at h1 ⊢
        simp at h1 ⊢
        omega
      rwa [hqeq] at hj
    · intro q hq hqcol hqp
      have hj := (hcolmask.mp hcolz) q.row
        (by
          have hqval : q.val < 16 := by simpa [Point.inside, Point.index, N] using hq
          simp only [Point.row, Point.index, N]
          omega)
        (by
          intro hcontra
          apply hqp
          have hqval : q.val < 16 := by simpa [Point.inside, Point.index, N] using hq
          have h1 : q.val / 4 = p.val / 4 := by
            simpa [Point.row, Point.index, N] using hcontra
          have h2 : q.val % 4 = p.val % 4 := by
            simpa [Point.column, Point.index, N] using hqcol
          cases q
          cases p
          simp at h1 h2 ⊢
          omega)
      rw [colNum_byte b p.column q.row
        (by
          have hqval : q.val < 16 := by simpa [Point.inside, Point.index, N] using hq
          simp only [Point.row, Point.index, N]
          omega) hcol4] at hj
      have hqeq : (⟨4 * q.row + p.column⟩ : Point) = q := by
        have hqval : q.val < 16 := by simpa [Point.inside, Point.index, N] using hq
        have h2 : q.val % 4 = p.column := by
          simpa [Point.column, Point.index, N] using hqcol
        cases q
        simp only [Point.row, Point.index, N] at h2 ⊢
        simp at h2 ⊢
        omega
      rwa [hqeq] at hj
  · rintro ⟨hne, hrow, hcol⟩
    refine ⟨⟨hne, ?_⟩, ?_⟩
    · apply hrowmask.mpr
      intro j hj hjc
      rw [rowNum_byte b p.row j hj]
      apply hrow ⟨4 * p.row + j⟩
      · simp only [Point.inside, Point.index, N]
        simp
        omega
      · simp only [Point.row, Point.index, N]
        omega
      · intro hcontra
        apply hjc
        have hv := congrArg Point.val hcontra
        simp only [Point.row, Point.index, N] at hv
        simp only [Point.column, Point.index, N]
        omega
    · apply hcolmask.mpr
      intro j hj hjr
      rw [colNum_byte b p.column j hj hcol4]
      apply hcol ⟨4 * j + p.column⟩
      · simp only [Point.inside, Point.index, N]
        simp
        omega
      · simp only [Point.column, Point.index, N]
        omega
      · intro hcontra
        apply hjr
        have hv := congrArg Point.val hcontra
        simp only [Point.column, Point.index, N] at hv
        simp only [Point.row, Point.index, N]
        omega

/-- The double loop of `is_lost` enumerates exactly the 16 grid points. -/
theorem lostList_eq :
    ((List.range N).flatMap fun r => (List.range N).map fun c => Point.fromRC r c) =
      Point.iter_all := by
  decide

/-- Loss is the existence of a dead in-grid point. -/
theorem is_lost_iff (b : Board) :
    b.is_lost = true ↔ ∃ p : Point, p.inside = true ∧ b.dead_cell p = true := by
  unfold Board.is_lost
  rw [lostList_eq, List.any_eq_true]
  constructor
  · rintro ⟨p, hmem, hdead⟩
    exact ⟨p, (Point.inside_iff_mem_iter_all p).mpr hmem, hdead⟩
  · rintro ⟨p, hin, hdead⟩
    exact ⟨p, (Point.inside_iff_mem_iter_all p).mp hin, hdead⟩

/-- C3: `is_won` holds exactly when all 16 cells are zero; `is_lost` holds
exactly when some in-grid cell is nonzero while every other cell of its row
and every other cell of its column is zero; and an all-zero board is won and
not lost. -/
theorem C3_win_loss (b : Board) (hb : b.cells < 2 ^ 128) :
    (b.is_won = true ↔ ∀ p : Point, p.inside = true → b.cell p = 0) ∧
      (b.is_lost = true ↔ ∃ p : Point, p.inside = true ∧ b.cell p ≠ 0 ∧
        (∀ q : Point, q.inside = true → q.row = p.row → q ≠ p → b.cell q = 0) ∧
        (∀ q : Point, q.inside = true → q.column = p.column → q ≠ p → b.cell q = 0)) ∧
      ((∀ p : Point, p.inside = true → b.cell p = 0) → b.is_won = true ∧ b.is_lost = false) := by
  have hlost : b.is_lost = true ↔ ∃ p : Point, p.inside = true ∧ b.cell p ≠ 0 ∧
      (∀ q : Point, q.inside = true → q.row = p.row → q ≠ p → b.cell q = 0) ∧
      (∀ q : Point, q.inside = true → q.column = p.column → q ≠ p → b.cell q = 0) := by
    rw [is_lost_iff]
    constructor
    · rintro ⟨p, hin, hdead⟩
      obtain ⟨h1, h2, h3⟩ := (dead_cell_iff b p hin).mp hdead
      exact ⟨p, hin, h1, h2, h3⟩
    · rintro ⟨p, hin, h1, h2, h3⟩
      exact ⟨p, hin, (dead_cell_iff b p hin).mpr ⟨h1, h2, h3⟩⟩
  refine ⟨is_won_iff b hb, hlost, fun hall => ⟨(is_won_iff b hb).mpr hall, ?_⟩⟩
  by_contra hcontra
  rw [Bool.not_eq_false, hlost] at hcontra
  obtain ⟨p, hin, hne, -, -⟩ := hcontra
  exact hne (hall p hin)

/-- Witness for C3 at the all-zero board. -/
theorem C3_witness :
    ((0 : Nat) < 2 ^ 128) ∧
      (((Board.mk ⟨0⟩ 0).is_won = true ↔
          ∀ p : Point, p.inside = true → (Board.mk ⟨0⟩ 0).cell p = 0) ∧
        ((Board.mk ⟨0⟩ 0).is_lost = true ↔ ∃ p : Point, p.inside = true ∧
          (Board.mk ⟨0⟩ 0).cell p ≠ 0 ∧
          (∀ q : Point, q.inside = true → q.row = p.row → q ≠ p →
            (Board.mk ⟨0⟩ 0).cell q = 0) ∧
          (∀ q : Point, q.inside = true → q.column = p.column → q ≠ p →
            (Board.mk ⟨0⟩ 0).cell q = 0)) ∧
        ((∀ p : Point, p.inside = true → (Board.mk ⟨0⟩ 0).cell p = 0) →
          (Board.mk ⟨0⟩ 0).is_won = true ∧ (Board.mk ⟨0⟩ 0).is_lost = false)) :=
  ⟨by norm_num, C3_win_loss (Board.mk ⟨0⟩ 0) (by norm_num)⟩

/-- The enumerated or-fold packs digits in base 256 above any small
accumulator. -/
theorem packOr_go (ds : List Nat) : ∀ (k acc : Nat), (∀ d ∈ ds, d < 256) →
    acc < 2 ^ (8 * k) →
    ((List.enumFrom k ds).map fun ic => ic.2 <<< (ic.1 * 8)).foldl (· ||| ·) acc =
      acc + 2 ^ (8 * k) * packSum ds := by
  induction ds with
  | nil =>
    intro k acc _ _
    simp [packSum]
  | cons d ds ih =>
    intro k acc hb hacc
    have hd : d < 256 := hb d (List.mem_cons_self d ds)
    have hshift : d <<< (k * 8) = 2 ^ (8 * k) * d := by
      rw [Nat.shiftLeft_eq, Nat.mul_comm]
      congr 1
      rw [Nat.mul_comm]
    have hor : acc ||| d <<< (k * 8) = acc + 2 ^ (8 * k) * d := by
      rw [hshift]
      exact lor_eq_add_of_lt (8 * k) acc d hacc
    have hacc' : acc + 2 ^ (8 * k) * d < 2 ^ (8 * (k + 1)) := by
      have hsplit : 2 ^ (8 * (k + 1)) = 2 ^ (8 * k) * 256 := by
        have : 8 * (k + 1) = 8 * k + 8 := by omega
        rw [this, pow_add]
        norm_num
      rw [hsplit]
      have hmul : 2 ^ (8 * k) * d ≤ 2 ^ (8 * k) * 255 := Nat.mul_le_mul_left _ (by omega)
      omega
    rw [List.enumFrom_cons, List.map_cons, List.foldl_cons, hor,
      ih (k + 1) _ (fun x hx => hb x (List.mem_cons_of_mem d hx)) hacc']
    show acc + 2 ^ (8 * k) * d + 2 ^ (8 * (k + 1)) * packSum ds =
      acc + 2 ^ (8 * k) * (d + 256 * packSum ds)
    have hsplit : 2 ^ (8 * (k + 1)) = 2 ^ (8 * k) * 256 := by
      have : 8 * (k + 1) = 8 * k + 8 := by omega
      rw [this, pow_add]
      norm_num
    rw [hsplit]
    ring

/-- The or-fold packing equals the base-256 sum. -/
theorem packCellsOr_eq (ds : List Nat) (hb : ∀ d ∈ ds, d < 256) :
    packCellsOr ds = packSum ds := by
  unfold packCellsOr
  have h := packOr_go ds 0 0 hb (by norm_num)
  simpa [List.enum] using h

/-- The packed sum of bounded digits is bounded. -/
theorem packSum_lt (ds : List Nat) (hb : ∀ d ∈ ds, d < 256) :
    packSum ds < 2 ^ (8 * ds.length) := by
  induction ds with
  | nil => simp [packSum]
  | cons d ds ih =>
    have hd : d < 256 := hb d (List.mem_cons_self d ds)
    have hrec := ih (fun x hx => hb x (List.mem_cons_of_mem d hx))
    show d + 256 * packSum ds < 2 ^ (8 * (ds.length + 1))
    have hsplit : 2 ^ (8 * (ds.length + 1)) = 256 * 2 ^ (8 * ds.length) := by
      have : 8 * (ds.length + 1) = 8 + 8 * ds.length := by omega
      rw [this, pow_add]
      norm_num
    rw [hsplit]
    have hmul : 256 * packSum ds ≤ 256 * (2 ^ (8 * ds.length) - 1) :=
      Nat.mul_le_mul_left _ (by omega)
    have hpos := Nat.pos_pow_of_pos (8 * ds.length) (show 0 < 2 by norm_num)
    omega

/-- Byte extraction from the packed sum recovers each digit. -/
theorem packSum_extract : ∀ (ds : List Nat) (i : Nat), (∀ d ∈ ds, d < 256) →
    i < ds.length → extract (packSum ds) (8 * i) 8 = ds.getD i 0 := by
  intro ds
  induction ds with
  | nil =>
    intro i _ hi
    simp at hi
  | cons d ds ih =>
    intro i hb hi
    have hd : d < 256 := hb d (List.mem_cons_self d ds)
    have h256 : (256 : Nat) = 2 ^ 8 := by norm_num
    cases i with
    | zero =>
      show extract (d + 256 * packSum ds) 0 8 = d
      rw [extract_zero_lo, h256, mod_add_mul 8 d _ (by omega)]
    | succ i =>
      have hps : packSum (d :: ds) = d + 256 * packSum ds := rfl
      rw [hps]
      have hsh : extract (d + 256 * packSum ds) (8 * (i + 1)) 8 =
          extract ((d + 256 * packSum ds) / 2 ^ 8) (8 * i) 8 := by
        rw [extract_div]
        congr 1
        omega
      have hdv : (d + 256 * packSum ds) / 2 ^ 8 = packSum ds := by
        have hq := div_add_mul 8 d (packSum ds) (by omega)
        norm_num at hq ⊢
        exact hq
      rw [hsh, hdv, ih i (fun x hx => hb x (List.mem_cons_of_mem d hx)) (by simpa using hi)]
      simp

set_option maxRecDepth 20000 in
/-- Decimal tokens of cell values parse back to the value. -/
theorem parseU8_natToDec : ∀ n, n < 256 → parseU8 (natToDec n) = some n := by
  decide

set_option maxRecDepth 20000 in
/-- Decimal tokens contain neither the row nor the cell separator. -/
theorem natToDec_no_sep : ∀ n, n < 256 → ∀ c ∈ natToDec n, c ≠ '|' ∧ c ≠ ' ' := by
  decide

/-- Flattening a 4-element interspersed list. -/
theorem flat4 {α : Type} (a b c d : List α) (s : α) :
    (List.intersperse [s] [a, b, c, d]).flatten = a ++ s :: (b ++ s :: (c ++ s :: d)) := by
  simp [List.intersperse]

/-- A separator-free prefix is recovered by `splitOnce`. -/
theorem splitOnce_append (sep : Char) : ∀ (xs ys : List Char), sep ∉ xs →
    splitOnce sep (xs ++ sep :: ys) = some (xs, ys) := by
  intro xs
  induction xs with
  | nil =>
    intro ys _
    simp [splitOnce]
  | cons c xs ih =>
    intro ys hmem
    have hc : c ≠ sep := fun h => hmem (h ▸ List.mem_cons_self c xs)
    have hxs : sep ∉ xs := fun h => hmem (List.mem_cons_of_mem c h)
    show (if c = sep then some ([], xs ++ sep :: ys)
      else
        match splitOnce sep (xs ++ sep :: ys) with
        | none => none
        | some pr => some (c :: pr.1, pr.2)) = some (c :: xs, ys)
    rw [if_neg hc, ih ys hxs]

/-- Separator-free text is not split. -/
theorem splitOnce_none (sep : Char) : ∀ (xs : List Char), sep ∉ xs →
    splitOnce sep xs = none := by
  intro xs
  induction xs with
  | nil =>
    intro _
    rfl
  | cons c xs ih =>
    intro hmem
    have hc : c ≠ sep := fun h => hmem (h ▸ List.mem_cons_self c xs)
    have hxs : sep ∉ xs := fun h => hmem (List.mem_cons_of_mem c h)
    show (if c = sep then some ([], xs)
      else
        match splitOnce sep xs with
        | none => none
        | some pr => some (c :: pr.1, pr.2)) = none
    rw [if_neg hc, ih hxs]

/-- Splitting a canonically joined 4-piece text recovers the pieces. -/
theorem splitn_four (sep : Char) (r0 r1 r2 r3 : List Char)
    (h0 : sep ∉ r0) (h1 : sep ∉ r1) (h2 : sep ∉ r2) :
    splitn 4 sep (r0 ++ sep :: (r1 ++ sep :: (r2 ++ sep :: r3))) = [r0, r1, r2, r3] := by
  show splitn (2 + 2) sep _ = _
  rw [show splitn (2 + 2) sep (r0 ++ sep :: (r1 ++ sep :: (r2 ++ sep :: r3))) =
    (match splitOnce sep (r0 ++ sep :: (r1 ++ sep :: (r2 ++ sep :: r3))) with
      | none => [r0 ++ sep :: (r1 ++ sep :: (r2 ++ sep :: r3))]
      | some pr => pr.1 :: splitn 3 sep pr.2) from rfl]
  rw [splitOnce_append sep r0 _ h0]
  show r0 :: splitn (1 + 2) sep _ = _
  rw [show splitn (1 + 2) sep (r1 ++ sep :: (r2 ++ sep :: r3)) =
    (match splitOnce sep (r1 ++ sep :: (r2 ++ sep :: r3)) with
      | none => [r1 ++ sep :: (r2 ++ sep :: r3)]
      | some pr => pr.1 :: splitn 2 sep pr.2) from rfl]
  rw [splitOnce_append sep r1 _ h1]
  show r0 :: r1 :: splitn (0 + 2) sep _ = _
  rw [show splitn (0 + 2) sep (r2 ++ sep :: r3) =
    (match splitOnce sep (r2 ++ sep :: r3) with
      | none => [r2 ++ sep :: r3]
      | some pr => pr.1 :: splitn 1 sep pr.2) from rfl]
  rw [splitOnce_append sep r2 _ h2]
  rfl

/-- Sequencing a list of pure successes. -/
theorem mapM_id_some : ∀ (ds : List Nat), (ds.map some).mapM id = some ds := by
  intro ds
  induction ds with
  | nil => rfl
  | cons d ds ih =>
    rw [List.map_cons, List.mapM_cons]
    show ((List.mapM id (List.map some ds)).bind fun l => some (d :: l)) = some (d :: ds)
    rw [ih]
    rfl

/-- A row of four decimal tokens contains no pipe character. -/
theorem pipe_not_mem_row (a b c d : Nat) (ha : a < 256) (hb : b < 256) (hc : c < 256)
    (hd : d < 256) :
    ('|') ∉ natToDec a ++ ' ' :: (natToDec b ++ ' ' :: (natToDec c ++ ' ' :: natToDec d)) := by
  intro hmem
  simp only [List.mem_append, List.mem_cons] at hmem
  rcases hmem with h | h | h | h | h | h | h
  · exact (natToDec_no_sep a ha _ h).1 rfl
  · exact absurd h.symm (by decide)
  · exact (natToDec_no_sep b hb _ h).1 rfl
  · exact absurd h.symm (by decide)
  · exact (natToDec_no_sep c hc _ h).1 rfl
  · exact absurd h.symm (by decide)
  · exact (natToDec_no_sep d hd _ h).1 rfl

/-- Splitting a canonical row recovers its four tokens. -/
theorem split_row (a b c d : Nat) (ha : a < 256) (hb : b < 256) (hc : c < 256) :
    splitn 4 (' ') (natToDec a ++ ' ' :: (natToDec b ++ ' ' :: (natToDec c ++ ' ' :: natToDec d))) =
      [natToDec a, natToDec b, natToDec c, natToDec d] :=
  splitn_four (' ') _ _ _ _ (fun h => (natToDec_no_sep a ha _ h).2 rfl)
    (fun h => (natToDec_no_sep b hb _ h).2 rfl) (fun h => (natToDec_no_sep c hc _ h).2 rfl)

/-- C9 (amended): parsing and rendering round-trip exactly on the
well-formed board texts whose 16 tokens are canonical decimal
representations (no leading zeros, no sign) of values in 0..=255 — i.e. the
texts `canonicalText ds`: parsing such a text succeeds with the or-packed
cells and position `(0,0)`, and rendering that board reproduces the exact
text. -/
theorem C9_parse_render_roundtrip (ds : List Nat) (hlen : ds.length = 16)
    (hball : ∀ d ∈ ds, d < 256) :
    Board.fromStr (canonicalText ds) =
        some (Board.mk (Point.fromRC 0 0) (packCellsOr ds)) ∧
      Board.render (Board.mk (Point.fromRC 0 0) (packCellsOr ds)) = canonicalText ds := by
  rcases ds with _ | ⟨d0, ds⟩
  · simp at hlen
  rcases ds with _ | ⟨d1, ds⟩
  · simp at hlen
  rcases ds with _ | ⟨d2, ds⟩
  · simp at hlen
  rcases ds with _ | ⟨d3, ds⟩
  · simp at hlen
  rcases ds with _ | ⟨d4, ds⟩
  · simp at hlen
  rcases ds with _ | ⟨d5, ds⟩
  · simp at hlen
  rcases ds with _ | ⟨d6, ds⟩
  · simp at hlen
  rcases ds with _ | ⟨d7, ds⟩
  · simp at hlen
  rcases ds with _ | ⟨d8, ds⟩
  · simp at hlen
  rcases ds with _ | ⟨d9, ds⟩
  · simp at hlen
  rcases ds with _ | ⟨d10, ds⟩
  · simp at hlen
  rcases ds with _ | ⟨d11, ds⟩
  · simp at hlen
  rcases ds with _ | ⟨d12, ds⟩
  · simp at hlen
  rcases ds with _ | ⟨d13, ds⟩
  · simp at hlen
  rcases ds with _ | ⟨d14, ds⟩
  · simp at hlen
  rcases ds with _ | ⟨d15, ds⟩
  · simp at hlen
  rcases ds with _ | ⟨d16, ds⟩
  case cons => simp at hlen
  have h0 : d0 < 256 := hball _ (by simp)
  have h1 : d1 < 256 := hball _ (by simp)
  have h2 : d2 < 256 := hball _ (by simp)
  have h3 : d3 < 256 := hball _ (by simp)
  have h4 : d4 < 256 := hball _ (by simp)
  have h5 : d5 < 256 := hball _ (by simp)
  have h6 : d6 < 256 := hball _ (by simp)
  have h7 : d7 < 256 := hball _ (by simp)
  have h8 : d8 < 256 := hball _ (by simp)
  have h9 : d9 < 256 := hball _ (by simp)
  have h10 : d10 < 256 := hball _ (by simp)
  have h11 : d11 < 256 := hball _ (by simp)
  have h12 : d12 < 256 := hball _ (by simp)
  have h13 : d13 < 256 := hball _ (by simp)
  have h14 : d14 < 256 := hball _ (by simp)
  have h15 : d15 < 256 := hball _ (by simp)
  set R0 : List Char := natToDec d0 ++ ' ' :: (natToDec d1 ++ ' ' :: (natToDec d2 ++ ' ' :: natToDec d3)) with hR0def
  set R1 : List Char := natToDec d4 ++ ' ' :: (natToDec d5 ++ ' ' :: (natToDec d6 ++ ' ' :: natToDec d7)) with hR1def
  set R2 : List Char := natToDec d8 ++ ' ' :: (natToDec d9 ++ ' ' :: (natToDec d10 ++ ' ' :: natToDec d11)) with hR2def
  set R3 : List Char := natToDec d12 ++ ' ' :: (natToDec d13 ++ ' ' :: (natToDec d14 ++ ' ' :: natToDec d15)) with hR3def
  have hct : canonicalText [d0, d1, d2, d3, d4, d5, d6, d7, d8, d9, d10, d11, d12, d13, d14, d15] = R0 ++ '|' :: (R1 ++ '|' :: (R2 ++ '|' :: R3)) := by
    rw [hR0def, hR1def, hR2def, hR3def]
    simp [canonicalText, N, List.range_succ, List.intersperse]
  have hp0 : ('|') ∉ R0 := pipe_not_mem_row _ _ _ _ h0 h1 h2 h3
  have hp1 : ('|') ∉ R1 := pipe_not_mem_row _ _ _ _ h4 h5 h6 h7
  have hp2 : ('|') ∉ R2 := pipe_not_mem_row _ _ _ _ h8 h9 h10 h11
  have hp3 : ('|') ∉ R3 := pipe_not_mem_row _ _ _ _ h12 h13 h14 h15
  have hsplitrows : splitn N ('|') (canonicalText [d0, d1, d2, d3, d4, d5, d6, d7, d8, d9, d10, d11, d12, d13, d14, d15]) = [R0, R1, R2, R3] := by
    rw [hct]
    exact splitn_four _ _ _ _ _ hp0 hp1 hp2
  have hrow0 : (splitn N (' ') R0).map parseU8 =
      [some d0, some d1, some d2, some d3] := by
    rw [hR0def]
    rw [show (N : Nat) = 4 from rfl, split_row _ _ _ _ h0 h1 h2]
    simp [parseU8_natToDec d0 h0, parseU8_natToDec d1 h1,
      parseU8_natToDec d2 h2, parseU8_natToDec d3 h3]
  have hrow1 : (splitn N (' ') R1).map parseU8 =
      [some d4, some d5, some d6, some d7] := by
    rw [hR1def]
    rw [show (N : Nat) = 4 from rfl, split_row _ _ _ _ h4 h5 h6]
    simp [parseU8_natToDec d4 h4, parseU8_natToDec d5 h5,
      parseU8_natToDec d6 h6, parseU8_natToDec d7 h7]
  have hrow2 : (splitn N (' ') R2).map parseU8 =
      [some d8, some d9, some d10, some d11] := by
    rw [hR2def]
    rw [show (N : Nat) = 4 from rfl, split_row _ _ _ _ h8 h9 h10]
    simp [parseU8_natToDec d8 h8, parseU8_natToDec d9 h9,
      parseU8_natToDec d10 h10, parseU8_natToDec d11 h11]
  have hrow3 : (splitn N (' ') R3).map parseU8 =
      [some d12, some d13, some d14, some d15] := by
    rw [hR3def]
    rw [show (N : Nat) = 4 from rfl, split_row _ _ _ _ h12 h13 h14]
    simp [parseU8_natToDec d12 h12, parseU8_natToDec d13 h13,
      parseU8_natToDec d14 h14, parseU8_natToDec d15 h15]
  have htokens : ((splitn N ('|') (canonicalText [d0, d1, d2, d3, d4, d5, d6, d7, d8, d9, d10, d11, d12, d13, d14, d15])).flatMap fun r =>
      (splitn N (' ') r).map parseU8) = List.map some [d0, d1, d2, d3, d4, d5, d6, d7, d8, d9, d10, d11, d12, d13, d14, d15] := by
    rw [hsplitrows]
    simp only [List.flatMap_cons, List.flatMap_nil, hrow0, hrow1, hrow2, hrow3]
    rfl
  constructor
  · unfold Board.fromStr
    rw [htokens, mapM_id_some]
    rfl
  · have hpack : packCellsOr [d0, d1, d2, d3, d4, d5, d6, d7, d8, d9, d10, d11, d12, d13, d14, d15] = packSum [d0, d1, d2, d3, d4, d5, d6, d7, d8, d9, d10, d11, d12, d13, d14, d15] :=
      packCellsOr_eq _ hball
    have hcell : ∀ i, i < 16 → cellOf (packCellsOr [d0, d1, d2, d3, d4, d5, d6, d7, d8, d9, d10, d11, d12, d13, d14, d15]) ⟨i⟩ = ([d0, d1, d2, d3, d4, d5, d6, d7, d8, d9, d10, d11, d12, d13, d14, d15] : List Nat).getD i 0 := by
      intro i hi
      rw [hpack, cellOf_eq_extract]
      rw [show (Point.mk i).index * 8 = 8 * i from by simp [Point.index]; ring]
      exact packSum_extract _ i hball (by simp; omega)
    have hc0 : (Board.mk (Point.fromRC 0 0) (packCellsOr [d0, d1, d2, d3, d4, d5, d6, d7, d8, d9, d10, d11, d12, d13, d14, d15])).cell
        (Point.fromRC 0 0) = d0 := by
      show cellOf (packCellsOr [d0, d1, d2, d3, d4, d5, d6, d7, d8, d9, d10, d11, d12, d13, d14, d15]) (Point.fromRC 0 0) = d0
      rw [show Point.fromRC 0 0 = (⟨0⟩ : Point) from by decide, hcell 0 (by norm_num)]
      rfl
    have hc1 : (Board.mk (Point.fromRC 0 0) (packCellsOr [d0, d1, d2, d3, d4, d5, d6, d7, d8, d9, d10, d11, d12, d13, d14, d15])).cell
        (Point.fromRC 0 1) = d1 := by
      show cellOf (packCellsOr [d0, d1, d2, d3, d4, d5, d6, d7, d8, d9, d10, d11, d12, d13, d14, d15]) (Point.fromRC 0 1) = d1
      rw [show Point.fromRC 0 1 = (⟨1⟩ : Point) from by decide, hcell 1 (by norm_num)]
      rfl
    have hc2 : (Board.mk (Point.fromRC 0 0) (packCellsOr [d0, d1, d2, d3, d4, d5, d6, d7, d8, d9, d10, d11, d12, d13, d14, d15])).cell
        (Point.fromRC 0 2) = d2 := by
      show cellOf (packCellsOr [d0, d1, d2, d3, d4, d5, d6, d7, d8, d9, d10, d11, d12, d13, d14, d15]) (Point.fromRC 0 2) = d2
      rw [show Point.fromRC 0 2 = (⟨2⟩ : Point) from by decide, hcell 2 (by norm_num)]
      rfl
    have hc3 : (Board.mk (Point.fromRC 0 0) (packCellsOr [d0, d1, d2, d3, d4, d5, d6, d7, d8, d9, d10, d11, d12, d13, d14, d15])).cell
        (Point.fromRC 0 3) = d3 := by
      show cellOf (packCellsOr [d0, d1, d2, d3, d4, d5, d6, d7, d8, d9, d10, d11, d12, d13, d14, d15]) (Point.fromRC 0 3) = d3
      rw [show Point.fromRC 0 3 = (⟨3⟩ : Point) from by decide, hcell 3 (by norm_num)]
      rfl
    have hc4 : (Board.mk (Point.fromRC 0 0) (packCellsOr [d0, d1, d2, d3, d4, d5, d6, d7, d8, d9, d10, d11, d12, d13, d14, d15])).cell
        (Point.fromRC 1 0) = d4 := by
      show cellOf (packCellsOr [d0, d1, d2, d3, d4, d5, d6, d7, d8, d9, d10, d11, d12, d13, d14, d15]) (Point.fromRC 1 0) = d4
      rw [show Point.fromRC 1 0 = (⟨4⟩ : Point) from by decide, hcell 4 (by norm_num)]
      rfl
    have hc5 : (Board.mk (Point.fromRC 0 0) (packCellsOr [d0, d1, d2, d3, d4, d5, d6, d7, d8, d9, d10, d11, d12, d13, d14, d15])).cell
        (Point.fromRC 1 1) = d5 := by
      show cellOf (packCellsOr [d0, d1, d2, d3, d4, d5, d6, d7, d8, d9, d10, d11, d12, d13, d14, d15]) (Point.fromRC 1 1) = d5
      rw [show Point.fromRC 1 1 = (⟨5⟩ : Point) from by decide, hcell 5 (by norm_num)]
      rfl
    have hc6 : (Board.mk (Point.fromRC 0 0) (packCellsOr [d0, d1, d2, d3, d4, d5, d6, d7, d8, d9, d10, d11, d12, d13, d14, d15])).cell
        (Point.fromRC 1 2) = d6 := by
      show cellOf (packCellsOr [d0, d1, d2, d3, d4, d5, d6, d7, d8, d9, d10, d11, d12, d13, d14, d15]) (Point.fromRC 1 2) = d6
      rw [show Point.fromRC 1 2 = (⟨6⟩ : Point) from by decide, hcell 6 (by norm_num)]
      rfl
    have hc7 : (Board.mk (Point.fromRC 0 0) (packCellsOr [d0, d1, d2, d3, d4, d5, d6, d7, d8, d9, d10, d11, d12, d13, d14, d15])).cell
        (Point.fromRC 1 3) = d7 := by
      show cellOf (packCellsOr [d0, d1, d2, d3, d4, d5, d6, d7, d8, d9, d10, d11, d12, d13, d14, d15]) (Point.fromRC 1 3) = d7
      rw [show Point.fromRC 1 3 = (⟨7⟩ : Point) from by decide, hcell 7 (by norm_num)]
      rfl
    have hc8 : (Board.mk (Point.fromRC 0 0) (packCellsOr [d0, d1, d2, d3, d4, d5, d6, d7, d8, d9, d10, d11, d12, d13, d14, d15])).cell
        (Point.fromRC 2 0) = d8 := by
      show cellOf (packCellsOr [d0, d1, d2, d3, d4, d5, d6, d7, d8, d9, d10, d11, d12, d13, d14, d15]) (Point.fromRC 2 0) = d8
      rw [show Point.fromRC 2 0 = (⟨8⟩ : Point) from by decide, hcell 8 (by norm_num)]
      rfl
    have hc9 : (Board.mk (Point.fromRC 0 0) (packCellsOr [d0, d1, d2, d3, d4, d5, d6, d7, d8, d9, d10, d11, d12, d13, d14, d15])).cell
        (Point.fromRC 2 1) = d9 := by
      show cellOf (packCellsOr [d0, d1, d2, d3, d4, d5, d6, d7, d8, d9, d10, d11, d12, d13, d14, d15]) (Point.fromRC 2 1) = d9
      rw [show Point.fromRC 2 1 = (⟨9⟩ : Point) from by decide, hcell 9 (by norm_num)]
      rfl
    have hc10 : (Board.mk (Point.fromRC 0 0) (packCellsOr [d0, d1, d2, d3, d4, d5, d6, d7, d8, d9, d10, d11, d12, d13, d14, d15])).cell
        (Point.fromRC 2 2) = d10 := by
      show cellOf (packCellsOr [d0, d1, d2, d3, d4, d5, d6, d7, d8, d9, d10, d11, d12, d13, d14, d15]) (Point.fromRC 2 2) = d10
      rw [show Point.fromRC 2 2 = (⟨10⟩ : Point) from by decide, hcell 10 (by norm_num)]
      rfl
    have hc11 : (Board.mk (Point.fromRC 0 0) (packCellsOr [d0, d1, d2, d3, d4, d5, d6, d7, d8, d9, d10, d11, d12, d13, d14, d15])).cell
        (Point.fromRC 2 3) = d11 := by
      show cellOf (packCellsOr [d0, d1, d2, d3, d4, d5, d6, d7, d8, d9, d10, d11, d12, d13, d14, d15]) (Point.fromRC 2 3) = d11
      rw [show Point.fromRC 2 3 = (⟨11⟩ : Point) from by decide, hcell 11 (by norm_num)]
      rfl
    have hc12 : (Board.mk (Point.fromRC 0 0) (packCellsOr [d0, d1, d2, d3, d4, d5, d6, d7, d8, d9, d10, d11, d12, d13, d14, d15])).cell
        (Point.fromRC 3 0) = d12 := by
      show cellOf (packCellsOr [d0, d1, d2, d3, d4, d5, d6, d7, d8, d9, d10, d11, d12, d13, d14, d15]) (Point.fromRC 3 0) = d12
      rw [show Point.fromRC 3 0 = (⟨12⟩ : Point) from by decide, hcell 12 (by norm_num)]
      rfl
    have hc13 : (Board.mk (Point.fromRC 0 0) (packCellsOr [d0, d1, d2, d3, d4, d5, d6, d7, d8, d9, d10, d11, d12, d13, d14, d15])).cell
        (Point.fromRC 3 1) = d13 := by
      show cellOf (packCellsOr [d0, d1, d2, d3, d4, d5, d6, d7, d8, d9, d10, d11, d12, d13, d14, d15]) (Point.fromRC 3 1) = d13
      rw [show Point.fromRC 3 1 = (⟨13⟩ : Point) from by decide, hcell 13 (by norm_num)]
      rfl
    have hc14 : (Board.mk (Point.fromRC 0 0) (packCellsOr [d0, d1, d2, d3, d4, d5, d6, d7, d8, d9, d10, d11, d12, d13, d14, d15])).cell
        (Point.fromRC 3 2) = d14 := by
      show cellOf (packCellsOr [d0, d1, d2, d3, d4, d5, d6, d7, d8, d9, d10, d11, d12, d13, d14, d15]) (Point.fromRC 3 2) = d14
      rw [show Point.fromRC 3 2 = (⟨14⟩ : Point) from by decide, hcell 14 (by norm_num)]
      rfl
    have hc15 : (Board.mk (Point.fromRC 0 0) (packCellsOr [d0, d1, d2, d3, d4, d5, d6, d7, d8, d9, d10, d11, d12, d13, d14, d15])).cell
        (Point.fromRC 3 3) = d15 := by
      show cellOf (packCellsOr [d0, d1, d2, d3, d4, d5, d6, d7, d8, d9, d10, d11, d12, d13, d14, d15]) (Point.fromRC 3 3) = d15
      rw [show Point.fromRC 3 3 = (⟨15⟩ : Point) from by decide, hcell 15 (by norm_num)]
      rfl
    unfold Board.render renderRow
    simp only [show List.range N = [0, 1, 2, 3] from by decide, List.map_cons, List.map_nil]
    rw [hc0, hc1, hc2, hc3, hc4, hc5, hc6, hc7, hc8, hc9, hc10, hc11, hc12, hc13, hc14, hc15]
    rfl

/-- C9 counterexample: the text with token `00` is well-formed in the
claim's sense (4 rows of 4 integer tokens valued in 0..=255), parses
successfully, but rendering the parsed board does not reproduce it
character for character. -/
theorem C9_counterexample :
    Board.fromStr (("00 0 0 0|0 0 0 0|0 0 0 0|0 0 0 0").toList) =
        some (Board.mk (Point.fromRC 0 0) 0) ∧
      Board.render (Board.mk (Point.fromRC 0 0) 0) ≠
        ("00 0 0 0|0 0 0 0|0 0 0 0|0 0 0 0").toList := by
  constructor
  · decide
  · decide

/-- Witness for C9 (amended) at the board text of the repository's tests. -/
theorem C9_witness :
    (([18, 255, 6, 0, 0, 9, 3, 0, 33, 18, 18, 3, 0, 0, 15, 0] : List Nat).length = 16 ∧
        ∀ d ∈ ([18, 255, 6, 0, 0, 9, 3, 0, 33, 18, 18, 3, 0, 0, 15, 0] : List Nat), d < 256) ∧
      Board.fromStr (canonicalText [18, 255, 6, 0, 0, 9, 3, 0, 33, 18, 18, 3, 0, 0, 15, 0]) =
          some (Board.mk (Point.fromRC 0 0)
            (packCellsOr [18, 255, 6, 0, 0, 9, 3, 0, 33, 18, 18, 3, 0, 0, 15, 0])) ∧
        Board.render (Board.mk (Point.fromRC 0 0)
            (packCellsOr [18, 255, 6, 0, 0, 9, 3, 0, 33, 18, 18, 3, 0, 0, 15, 0])) =
          canonicalText [18, 255, 6, 0, 0, 9, 3, 0, 33, 18, 18, 3, 0, 0, 15, 0] :=
  ⟨⟨by decide, by decide⟩,
    C9_parse_render_roundtrip [18, 255, 6, 0, 0, 9, 3, 0, 33, 18, 18, 3, 0, 0, 15, 0]
      (by decide) (by decide)⟩

/-- Every move is in the `ACTIONS` list. -/
theorem mem_ACTIONS (a : Action) : a ∈ ACTIONS := by
  cases a <;> decide

/-- Mark bits are 1-bit field extractions. -/
theorem marked_iff_extract (m : MarkBoard) (p : Point) :
    m.marked p = true ↔ extract m.val p.index 1 = 1 := by
  unfold MarkBoard.marked extract
  rw [show (0x1 : Nat) = 2 ^ 1 - 1 from by norm_num, Nat.and_pow_two_sub_one_eq_mod]
  have hlt : m.val >>> p.index % 2 ^ 1 < 2 := Nat.mod_lt _ (by norm_num)
  constructor
  · intro h
    have := bne_iff_ne.mp h
    omega
  · intro h
    exact bne_iff_ne.mpr (by omega)

/-- Mark bits, negative form. -/
theorem marked_false_iff_extract (m : MarkBoard) (p : Point) :
    m.marked p = false ↔ extract m.val p.index 1 = 0 := by
  have h := marked_iff_extract m p
  have hlt : extract m.val p.index 1 < 2 := by
    have h2 := extract_lt m.val p.index 1
    norm_num at h2
    exact h2
  constructor
  · intro hf
    by_contra hc
    have h1 : extract m.val p.index 1 = 1 := by omega
    have h3 := h.mpr h1
    rw [hf] at h3
    exact absurd h3 (by simp)
  · intro h0
    by_contra hc
    rw [Bool.not_eq_false] at hc
    have h3 := h.mp hc
    omega

/-- Marked points of a bounded pattern are inside the grid. -/
theorem marked_inside (m : MarkBoard) (p : Point) (hm : m.val < 2 ^ 16)
    (h : m.marked p = true) : p.inside = true := by
  rw [marked_iff_extract] at h
  by_contra hc
  have hge : 16 ≤ p.index := by
    simp only [Point.inside, Point.index, N] at hc
    simp at hc
    simpa [Point.index] using hc
  rw [extract_of_lt p.index 1 hm hge] at h
  omega

/-- Setting a bit marks exactly that point. -/
theorem marked_mark (m : MarkBoard) (p q : Point) :
    (m.mark p).marked q = true ↔ (q.index = p.index ∨ m.marked q = true) := by
  rw [marked_iff_extract, marked_iff_extract]
  have hx := extract_lt m.val q.index 1
  norm_num at hx
  show extract (m.val ||| 1 <<< p.index) q.index 1 = 1 ↔ _
  rw [extract_lor]
  rcases Nat.lt_trichotomy q.index p.index with h | h | h
  · rw [extract_shiftLeft_low _ _ _ _ (by omega), Nat.or_zero]
    constructor
    · intro hh
      exact Or.inr hh
    · rintro (hh | hh)
      · omega
      · exact hh
  · rw [h, extract_shiftLeft_ge _ _ _ _ (by omega), Nat.sub_self, extract_zero_lo]
    norm_num
    have hcase : extract m.val p.index 1 = 0 ∨ extract m.val p.index 1 = 1 := by
      rw [h] at hx
      omega
    rcases hcase with hc | hc <;> rw [hc] <;> decide
  · rw [extract_shiftLeft_ge _ _ _ _ (by omega),
      extract_of_lt (q.index - p.index) 1 (show (1 : Nat) < 2 ^ 1 by norm_num) (by omega),
      Nat.or_zero]
    constructor
    · intro hh
      exact Or.inr hh
    · rintro (hh | hh)
      · omega
      · exact hh

/-- Bit-setting preserves the `u16` bound for in-grid points. -/
theorem mark_lt (m : MarkBoard) (p : Point) (hm : m.val < 2 ^ 16)
    (hp : p.inside = true) : (m.mark p).val < 2 ^ 16 := by
  unfold MarkBoard.mark
  have hidx : p.index < 16 := by simpa [Point.inside, Point.index, N] using hp
  have hsh : 1 <<< p.index < 2 ^ 16 := by
    rw [Nat.shiftLeft_eq, Nat.one_mul]
    exact Nat.pow_lt_pow_right (by norm_num) hidx
  exact Nat.bitwise_lt hm hsh

/-- Point equality through indices. -/
theorem point_index_inj (p q : Point) (h : p.index = q.index) : p = q := by
  cases p
  cases q
  simpa [Point.index] using h

/-- Decidable core: stepping back with the reverse move undoes an in-grid
step. -/
theorem add_reverse_core :
    ∀ p ∈ Point.iter_all, ∀ a ∈ ACTIONS,
      (p.add a).inside = true → (p.add a).add a.reverse = p := by
  decide

/-- Stepping back with the reverse move undoes an in-grid step. -/
theorem add_reverse (p : Point) (a : Action) (hp : p.inside = true)
    (hq : (p.add a).inside = true) : (p.add a).add a.reverse = p :=
  add_reverse_core p ((Point.inside_iff_mem_iter_all p).mp hp) a (mem_ACTIONS a) hq

/-- The walked positions of a zero-walk start inside and unmarked. -/
theorem zeroWalk_head (marks : MarkBoard) (endp : Point) (p : Point) (l : List Action)
    (h : isZeroWalk marks endp p l) : p.inside = true ∧ marks.marked p = false := by
  cases l with
  | nil => exact absurd h (by simp [isZeroWalk])
  | cons a rest =>
    cases rest with
    | nil => exact ⟨h.1, h.2.1⟩
    | cons b rest2 => exact ⟨h.1, h.2.1⟩

/-- Cons characterization of zero-walks. -/
theorem zeroWalk_cons (marks : MarkBoard) (endp : Point) (p : Point) (a : Action)
    (rest : List Action) :
    isZeroWalk marks endp p (a :: rest) ↔
      p.inside = true ∧ marks.marked p = false ∧
        ((rest = [] ∧ p.add a = endp) ∨ (rest ≠ [] ∧ isZeroWalk marks endp (p.add a) rest)) := by
  cases rest with
  | nil =>
    show (p.inside = true ∧ marks.marked p = false ∧ p.add a = endp) ↔ _
    constructor
    · rintro ⟨h1, h2, h3⟩
      exact ⟨h1, h2, Or.inl ⟨rfl, h3⟩⟩
    · rintro ⟨h1, h2, h3 | h3⟩
      · exact ⟨h1, h2, h3.2⟩
      · exact absurd rfl h3.1
  | cons b rest2 =>
    show (p.inside = true ∧ marks.marked p = false ∧ isZeroWalk marks endp (p.add a) (b :: rest2)) ↔ _
    constructor
    · rintro ⟨h1, h2, h3⟩
      exact ⟨h1, h2, Or.inr ⟨by simp, h3⟩⟩
    · rintro ⟨h1, h2, h3 | h3⟩
      · exact absurd h3.1 (by simp)
      · exact ⟨h1, h2, h3.2⟩

/-- Monotonicity of reachability bounds. -/
theorem reachIn_mono (marks : MarkBoard) (endp : Point) (j k : Nat) (p : Point)
    (h : j ≤ k) (hr : ReachIn marks endp j p) : ReachIn marks endp k p := by
  obtain ⟨l, hl, hw⟩ := hr
  exact ⟨l, by omega, hw⟩

/-- Exact layers are unique. -/
theorem exact_unique (marks : MarkBoard) (endp : Point) (j k : Nat) (p : Point)
    (hj : 1 ≤ j) (hk : 1 ≤ k) (h1 : ExactReach marks endp j p)
    (h2 : ExactReach marks endp k p) : j = k := by
  by_contra hne
  rcases Nat.lt_or_ge j k with h | h
  · exact h2.2 (reachIn_mono _ _ _ _ _ (by omega) h1.1)
  · have : j ≠ k := hne
    have hlt : k < j := by omega
    exact h1.2 (reachIn_mono _ _ _ _ _ (by omega) h2.1)

/-- A point with any zero-walk lies in some exact layer. -/
theorem exists_exact_layer (marks : MarkBoard) (endp : Point) (p : Point) (l : List Action)
    (hw : isZeroWalk marks endp p l) : ∃ j, 1 ≤ j ∧ ExactReach marks endp j p := by
  classical
  have hne : ∃ k, ReachIn marks endp k p := ⟨l.length, l, le_refl _, hw⟩
  obtain ⟨k, hk⟩ := hne
  have hex := Nat.find_spec (p := fun k => ReachIn marks endp k p) ⟨k, hk⟩
  set j := Nat.find (p := fun k => ReachIn marks endp k p) ⟨k, hk⟩ with hjdef
  refine ⟨j, ?_, hex, ?_⟩
  · rcases Nat.eq_zero_or_pos j with h0 | h1
    · exfalso
      rw [h0] at hex
      obtain ⟨l', hl', hw'⟩ := hex
      have : l' = [] := List.length_eq_zero.mp (by omega)
      subst this
      exact absurd hw' (by simp [isZeroWalk])
    · exact h1
  · intro hcon
    have hlt : j - 1 < j := by
      rcases Nat.eq_zero_or_pos j with h0 | h1
      · exfalso
        rw [h0] at hex
        obtain ⟨l', hl', hw'⟩ := hex
        have : l' = [] := List.length_eq_zero.mp (by omega)
        subst this
        exact absurd hw' (by simp [isZeroWalk])
      · omega
    exact Nat.find_min (p := fun k => ReachIn marks endp k p) ⟨k, hk⟩ hlt hcon

/-- A point of layer `j + 1` has a first move into layer `j` (or to the end
at `j = 0`). -/
theorem exact_step (marks : MarkBoard) (endp : Point) (j : Nat) (p : Point)
    (h : ExactReach marks endp (j + 1) p) :
    ∃ a, p.inside = true ∧ marks.marked p = false ∧
      ((j = 0 ∧ p.add a = endp) ∨
        (1 ≤ j ∧ ExactReach marks endp j (p.add a))) := by
  obtain ⟨⟨l, hl, hw⟩, hnot⟩ := h
  cases l with
  | nil => exact absurd hw (by simp [isZeroWalk])
  | cons a rest =>
    obtain ⟨h1, h2, hsplit⟩ := (zeroWalk_cons _ _ _ _ _).mp hw
    refine ⟨a, h1, h2, ?_⟩
    rcases hsplit with ⟨hnil, harr⟩ | ⟨hne, hrest⟩
    · cases j with
      | zero => exact Or.inl ⟨rfl, harr⟩
      | succ j' =>
        exfalso
        apply hnot
        subst hnil
        refine ⟨[a], ?_, hw⟩
        simp only [List.length_singleton]
        omega
    · cases j with
      | zero =>
        exfalso
        simp only [List.length_cons] at hl
        have hpos : 1 ≤ rest.length := List.length_pos.mpr hne
        omega
      | succ j' =>
        refine Or.inr ⟨by omega, ⟨rest, ?_, hrest⟩, ?_⟩
        · simp at hl
          omega
        · intro hcon
          apply hnot
          obtain ⟨l2, hl2, hw2⟩ := hcon
          refine ⟨a :: l2, by simp; omega, ?_⟩
          rw [zeroWalk_cons]
          refine ⟨h1, h2, Or.inr ⟨?_, hw2⟩⟩
          intro hnil2
          subst hnil2
          exact absurd hw2 (by simp [isZeroWalk])

/-- Writing a 2-bit slot through `or` changes exactly that slot. -/
theorem extract2_write (A n v q : Nat) (hv : v < 4) :
    extract (A ||| v <<< (n * 2)) (q * 2) 2 =
      if q = n then extract A (n * 2) 2 ||| v else extract A (q * 2) 2 := by
  rw [extract_lor]
  rcases Nat.lt_trichotomy q n with h | h | h
  · rw [if_neg (by omega), extract_shiftLeft_low _ _ _ _ (by omega), Nat.or_zero]
  · rw [if_pos h, h, extract_shiftLeft_ge _ _ _ _ (by omega), Nat.sub_self, extract_zero_lo]
    rw [Nat.mod_eq_of_lt (by norm_num; omega)]
  · rw [if_neg (by omega), extract_shiftLeft_ge _ _ _ _ (by omega),
      extract_of_lt (q * 2 - n * 2) 2 (show v < 2 ^ 2 by norm_num; omega) (by omega),
      Nat.or_zero]

/-- Decoding a recorded move index recovers the move. -/
theorem actionsGet_index (a : Action) : actionsGet a.index = a := by
  cases a <;> rfl

/-- Move indices are below 4. -/
theorem index_lt_4 (a : Action) : a.index < 4 := by
  cases a <;> decide

/-- Nothing reaches the end in zero steps. -/
theorem not_reachIn_zero (marks : MarkBoard) (endp : Point) (p : Point) :
    ¬ReachIn marks endp 0 p := by
  rintro ⟨l, hl, hw⟩
  have : l = [] := List.length_eq_zero.mp (by omega)
  subst this
  exact absurd hw (by simp [isZeroWalk])

/-- An exact layer of a reachable-in-`k` point is at most `k`. -/
theorem exact_le_of_reachIn (marks : MarkBoard) (endp : Point) (j k : Nat) (p : Point)
    (hj : 1 ≤ j) (he : ExactReach marks endp j p) (hr : ReachIn marks endp k p) : j ≤ k := by
  by_contra hc
  exact he.2 (reachIn_mono _ _ _ _ _ (by omega) hr)

/-- One `abStep` preserves the round invariant. -/
theorem abStep_inv (marks : MarkBoard) (F : List Point) (A : Nat) (S : MarkBoard)
    (st : Nat × MarkBoard × List Point) (pr : Action × Point) (hpr : pr.2 ∈ F)
    (hinv : RoundInv marks F A S st) : RoundInv marks F A S (abStep marks st pr) := by
  obtain ⟨hA, hS, hmono, hsub, hout, hzero, hpres, hdec⟩ := hinv
  unfold abStep
  by_cases hguard : (pr.2.add pr.1).inside = true ∧ marks.marked (pr.2.add pr.1) = false ∧
      st.2.1.marked (pr.2.add pr.1) = false
  · rw [if_pos hguard]
    obtain ⟨hin, hmk, hfresh⟩ := hguard
    set np := pr.2.add pr.1 with hnp
    have hidx : np.index < 16 := by simpa [Point.inside, Point.index, N] using hin
    have hplt : pr.1.reverse.index < 4 := index_lt_4 _
    have hslotzero : extract st.1 (np.index * 2) 2 = 0 := hzero np hfresh
    have hfreshS : S.marked np = false := by
      by_contra hc
      rw [Bool.not_eq_false] at hc
      have := hmono np hc
      rw [hfresh] at this
      exact absurd this (by simp)
    have hAbound : st.1 ||| pr.1.reverse.index <<< (np.index * 2) < 2 ^ 32 := by
      apply Nat.bitwise_lt hA
      rw [Nat.shiftLeft_eq]
      have hP := Nat.pos_pow_of_pos (np.index * 2) (show 0 < 2 by norm_num)
      have h1 : pr.1.reverse.index * 2 ^ (np.index * 2) < 4 * 2 ^ (np.index * 2) := by
        nlinarith
      have h2 : (4 : Nat) * 2 ^ (np.index * 2) = 2 ^ (np.index * 2 + 2) := by
        rw [pow_add]
        ring
      have h3 : (2 : Nat) ^ (np.index * 2 + 2) ≤ 2 ^ 32 :=
        Nat.pow_le_pow_right (by norm_num) (by omega)
      omega
    have hq_ne : ∀ q : Point, st.2.1.marked q = true → q ≠ np := by
      intro q hq hcontra
      rw [hcontra, hfresh] at hq
      exact absurd hq (by simp)
    refine ⟨hAbound, mark_lt _ _ hS hin, ?_, ?_, ?_, ?_, ?_, ?_⟩
    · intro p hp
      exact (marked_mark _ _ _).mpr (Or.inr (hmono p hp))
    · intro p hp
      replace hp : (st.2.1.mark np).marked p = true := hp
      rcases (marked_mark _ _ _).mp hp with h | h
      · right
        have hpe : p = np := point_index_inj p np h
        subst hpe
        show np ∈ st.2.2 ++ [np]
        simp
      · rcases hsub p h with h2 | h2
        · exact Or.inl h2
        · right
          show p ∈ st.2.2 ++ [np]
          simp [h2]
    · intro p hp
      replace hp : p ∈ st.2.2 ++ [np] := hp
      rcases List.mem_append.mp hp with h | h
      · obtain ⟨h1, h2, h3, h4⟩ := hout p h
        exact ⟨(marked_mark _ _ _).mpr (Or.inr h1), h2, h3, h4⟩
      · have hpe : p = np := by simpa using h
        subst hpe
        exact ⟨(marked_mark _ _ _).mpr (Or.inl rfl), hfreshS, hin, hmk⟩
    · intro p hp
      replace hp : (st.2.1.mark np).marked p = false := hp
      have hnotor : ¬(p.index = np.index ∨ st.2.1.marked p = true) := by
        intro hor
        have hmm := (marked_mark st.2.1 np p).mpr hor
        rw [hp] at hmm
        exact absurd hmm (by simp)
      have hne : p.index ≠ np.index := fun hc => hnotor (Or.inl hc)
      have hold : st.2.1.marked p = false := by
        by_contra hcc
        rw [Bool.not_eq_false] at hcc
        exact hnotor (Or.inr hcc)
      show extract (st.1 ||| pr.1.reverse.index <<< (np.index * 2)) (p.index * 2) 2 = 0
      rw [extract2_write _ _ _ _ hplt, if_neg hne]
      exact hzero p hold
    · intro p hp
      have hne : p ≠ np := hq_ne p (hmono p hp)
      show extract (st.1 ||| pr.1.reverse.index <<< (np.index * 2)) (p.index * 2) 2 =
        extract A (p.index * 2) 2
      rw [extract2_write _ _ _ _ hplt,
        if_neg (fun hcontra => hne (point_index_inj p np hcontra))]
      exact hpres p hp
    · intro p hp
      replace hp : p ∈ st.2.2 ++ [np] := hp
      rcases List.mem_append.mp hp with h | h
      · obtain ⟨a, point, hpt, hpeq, hdc⟩ := hdec p h
        have hne : p ≠ np := hq_ne p (hout p h).1
        refine ⟨a, point, hpt, hpeq, ?_⟩
        show tableMove (st.1 ||| pr.1.reverse.index <<< (np.index * 2)) p = a.reverse
        unfold tableMove
        rw [extract2_write _ _ _ _ hplt,
          if_neg (fun hcontra => hne (point_index_inj p np hcontra))]
        exact hdc
      · have hpe : p = np := by simpa using h
        subst hpe
        refine ⟨pr.1, pr.2, hpr, hnp, ?_⟩
        show tableMove (st.1 ||| pr.1.reverse.index <<< (np.index * 2)) np = pr.1.reverse
        unfold tableMove
        rw [extract2_write _ _ _ _ hplt, if_pos rfl, hslotzero, Nat.zero_or]
        exact actionsGet_index _
  · rw [if_neg hguard]
    exact ⟨hA, hS, hmono, hsub, hout, hzero, hpres, hdec⟩

/-- Marking during a fold of `abStep` is monotone. -/
theorem abFold_mono (marks : MarkBoard) :
    ∀ (prs : List (Action × Point)) (st : Nat × MarkBoard × List Point) (p : Point),
      st.2.1.marked p = true → ((prs.foldl (abStep marks) st).2.1).marked p = true := by
  intro prs
  induction prs with
  | nil => intro st p h; exact h
  | cons hd rest ih =>
    intro st p h
    rw [List.foldl_cons]
    apply ih
    show ((abStep marks st hd).2.1).marked p = true
    unfold abStep
    by_cases hg : ((hd.2.add hd.1).inside = true ∧ marks.marked (hd.2.add hd.1) = false ∧
        st.2.1.marked (hd.2.add hd.1) = false)
    · rw [if_pos hg]
      exact (marked_mark _ _ _).mpr (Or.inr h)
    · rw [if_neg hg]
      exact h

/-- After a step on `(a, p)`, the target `p.add a` is marked whenever it is
in-grid and pattern-unmarked. -/
theorem abStep_marks (marks : MarkBoard) (st : Nat × MarkBoard × List Point)
    (pr : Action × Point) (hin : (pr.2.add pr.1).inside = true)
    (hmk : marks.marked (pr.2.add pr.1) = false) :
    ((abStep marks st pr).2.1).marked (pr.2.add pr.1) = true := by
  unfold abStep
  by_cases hf : st.2.1.marked (pr.2.add pr.1) = false
  · rw [if_pos ⟨hin, hmk, hf⟩]
    exact (marked_mark _ _ _).mpr (Or.inl rfl)
  · have ht : st.2.1.marked (pr.2.add pr.1) = true := by
      cases h : st.2.1.marked (pr.2.add pr.1)
      · exact absurd h hf
      · rfl
    rw [if_neg (by intro hc; exact hf hc.2.2)]
    exact ht

/-- Every in-grid pattern-unmarked target of a processed pair ends up
marked after the fold. -/
theorem abFold_covers (marks : MarkBoard) :
    ∀ (prs : List (Action × Point)) (st : Nat × MarkBoard × List Point)
      (pr : Action × Point), pr ∈ prs → (pr.2.add pr.1).inside = true →
      marks.marked (pr.2.add pr.1) = false →
      ((prs.foldl (abStep marks) st).2.1).marked (pr.2.add pr.1) = true := by
  intro prs
  induction prs with
  | nil => intro st pr h _ _; exact absurd h (by simp)
  | cons hd rest ih =>
    intro st pr hmem hin hmk
    rw [List.foldl_cons]
    rcases List.mem_cons.mp hmem with he | ht
    · subst he
      exact abFold_mono marks rest _ _ (abStep_marks marks st pr hin hmk)
    · exact ih _ pr ht hin hmk

/-- The fold of `abStep` over frontier pairs preserves the round invariant. -/
theorem abFold_inv (marks : MarkBoard) (F : List Point) (A : Nat) (S : MarkBoard) :
    ∀ (prs : List (Action × Point)) (st : Nat × MarkBoard × List Point),
      (∀ pr ∈ prs, pr.2 ∈ F) → RoundInv marks F A S st →
      RoundInv marks F A S (prs.foldl (abStep marks) st) := by
  intro prs
  induction prs with
  | nil => intro st _ h; exact h
  | cons hd rest ih =>
    intro st hmem hinv
    rw [List.foldl_cons]
    exact ih _ (fun pr hpr => hmem pr (List.mem_cons_of_mem hd hpr))
      (abStep_inv marks F A S st hd (hmem hd (List.mem_cons_self hd rest)) hinv)

/-- Membership in the round's `cartesian_product` pair list. -/
theorem mem_abPairs (F : List Point) (pr : Action × Point) :
    pr ∈ (ACTIONS.flatMap fun a => F.map fun p => (a, p)) ↔ pr.2 ∈ F := by
  constructor
  · intro h
    obtain ⟨a, _, hm⟩ := List.mem_flatMap.mp h
    obtain ⟨p, hp, he⟩ := List.mem_map.mp hm
    rw [← he]
    exact hp
  · intro h
    refine List.mem_flatMap.mpr ⟨pr.1, mem_ACTIONS pr.1, ?_⟩
    exact List.mem_map.mpr ⟨pr.2, h, rfl⟩

/-- Prepending an in-grid unmarked step to a zero-walk. -/
theorem zeroWalk_prepend (marks : MarkBoard) (endp : Point) (p : Point) (a : Action)
    (l : List Action) (h1 : p.inside = true) (h2 : marks.marked p = false)
    (hw : isZeroWalk marks endp (p.add a) l) : isZeroWalk marks endp p (a :: l) := by
  rw [zeroWalk_cons]
  refine ⟨h1, h2, Or.inr ⟨?_, hw⟩⟩
  intro hnil
  subst hnil
  exact absurd hw (by simp [isZeroWalk])

/-- One frontier round advances the breadth-first invariant by one layer. -/
theorem abRound_inv (marks : MarkBoard) (endp : Point) (k : Nat) (A : Nat) (S : MarkBoard)
    (F : List Point) (hmlt : marks.val < 2 ^ 16) (hend : marks.marked endp = true)
    (hinv : AbInv marks endp k A S F) :
    AbInv marks endp (k + 1) (abRound marks A S F).1 (abRound marks A S F).2.1
      (abRound marks A S F).2.2 := by
  obtain ⟨hA, hS, hprop, hmarkiff, hfrontier, hzero, htab⟩ := hinv
  have hendin : endp.inside = true := marked_inside marks endp hmlt hend
  have hinit : RoundInv marks F A S (A, S, []) := by
    refine ⟨hA, hS, fun p h => h, fun p h => Or.inl h, ?_, hzero, fun p _ => rfl, ?_⟩
    · intro p hp
      exact absurd hp (by simp)
    · intro p hp
      exact absurd hp (by simp)
  have hfold : RoundInv marks F A S (abRound marks A S F) := by
    unfold abRound
    exact abFold_inv marks F A S _ _ (fun pr hpr => (mem_abPairs F pr).mp hpr) hinit
  obtain ⟨hA2, hS2, hmono, hsub, hout, hzero2, hpres, hdec⟩ := hfold
  have hout_exact : ∀ p ∈ (abRound marks A S F).2.2, ExactReach marks endp (k + 1) p := by
    intro p hp
    obtain ⟨hm1, hSf, hin, hmk⟩ := hout p hp
    obtain ⟨a, point, hptF, hpeq, hmv⟩ := hdec p hp
    subst hpeq
    rcases Nat.eq_zero_or_pos k with hk | hk
    · subst hk
      have hpe : point = endp := by simpa using (hfrontier point).mp hptF
      have hptin : point.inside = true := by rw [hpe]; exact hendin
      have hback : (point.add a).add a.reverse = point := add_reverse point a hptin hin
      constructor
      · refine ⟨[a.reverse], by simp, ?_⟩
        show (point.add a).inside = true ∧ marks.marked (point.add a) = false ∧
          (point.add a).add a.reverse = endp
        exact ⟨hin, hmk, by rw [hback, hpe]⟩
      · exact not_reachIn_zero marks endp (point.add a)
    · have hexpt : ExactReach marks endp k point := by
        have hh := (hfrontier point).mp hptF
        rwa [if_neg (by omega)] at hh
      obtain ⟨⟨l, hl, hw⟩, _⟩ := hexpt
      have hptin : point.inside = true := (zeroWalk_head marks endp point l hw).1
      have hback : (point.add a).add a.reverse = point := add_reverse point a hptin hin
      constructor
      · refine ⟨a.reverse :: l, by simp only [List.length_cons]; omega, ?_⟩
        apply zeroWalk_prepend marks endp (point.add a) a.reverse l hin hmk
        rw [hback]
        exact hw
      · show ¬ReachIn marks endp (k + 1 - 1) (point.add a)
        rw [Nat.add_sub_cancel]
        rintro ⟨l2, hl2, hw2⟩
        obtain ⟨j, hj1, hje⟩ := exists_exact_layer marks endp (point.add a) l2 hw2
        have hjk : j ≤ k := exact_le_of_reachIn marks endp j k _ hj1 hje ⟨l2, hl2, hw2⟩
        have hmark : S.marked (point.add a) = true := (hmarkiff _).mpr ⟨j, hj1, hjk, hje⟩
        rw [hSf] at hmark
        exact absurd hmark (by simp)
  have hcover : ∀ p : Point, ExactReach marks endp (k + 1) p →
      (abRound marks A S F).2.1.marked p = true := by
    intro p hex
    obtain ⟨a, hpin, hpmk, hstep⟩ := exact_step marks endp k p hex
    have hqin : (p.add a).inside = true := by
      rcases hstep with ⟨hk0, hqe⟩ | ⟨hk1, hqex⟩
      · rw [hqe]
        exact hendin
      · obtain ⟨⟨l, _, hw⟩, _⟩ := hqex
        exact (zeroWalk_head marks endp _ l hw).1
    have hqF : p.add a ∈ F := by
      rcases hstep with ⟨hk0, hqe⟩ | ⟨hk1, hqex⟩
      · rw [hfrontier, hk0]
        simpa using hqe
      · rw [hfrontier, if_neg (by omega)]
        exact hqex
    have hqp : (p.add a).add a.reverse = p := add_reverse p a hpin hqin
    have hc := abFold_covers marks (ACTIONS.flatMap fun a => F.map fun p => (a, p))
      (A, S, []) (a.reverse, p.add a) ((mem_abPairs F _).mpr hqF)
      (by show ((p.add a).add a.reverse).inside = true; rw [hqp]; exact hpin)
      (by show marks.marked ((p.add a).add a.reverse) = false; rw [hqp]; exact hpmk)
    rw [hqp] at hc
    show ((ACTIONS.flatMap fun a => F.map fun p => (a, p)).foldl (abStep marks)
      (A, S, ([] : List Point))).2.1.marked p = true
    exact hc
  refine ⟨hA2, hS2, ?_, ?_, ?_, hzero2, ?_⟩
  · intro p hp
    rcases hsub p hp with h | h
    · exact hprop p h
    · obtain ⟨_, _, hin, hmk⟩ := hout p h
      exact ⟨hin, hmk⟩
  · intro p
    constructor
    · intro hp
      rcases hsub p hp with h | h
      · obtain ⟨j, hj1, hjk, hje⟩ := (hmarkiff p).mp h
        exact ⟨j, hj1, by omega, hje⟩
      · exact ⟨k + 1, by omega, le_refl _, hout_exact p h⟩
    · rintro ⟨j, hj1, hjk, hje⟩
      rcases Nat.lt_or_ge j (k + 1) with h | h
      · exact hmono p ((hmarkiff p).mpr ⟨j, hj1, by omega, hje⟩)
      · have hje2 : j = k + 1 := by omega
        subst hje2
        exact hcover p hje
  · intro p
    rw [if_neg (by omega)]
    constructor
    · exact hout_exact p
    · intro hex
      have hm := hcover p hex
      rcases hsub p hm with h | h
      · exfalso
        obtain ⟨j, hj1, hjk, hje⟩ := (hmarkiff p).mp h
        have := exact_unique marks endp j (k + 1) p hj1 (by omega) hje hex
        omega
      · exact h
  · intro p hp
    rcases hsub p hp with h | h
    · obtain ⟨j, hj1, hje, hrest⟩ := htab p h
      have hmv : tableMove (abRound marks A S F).1 p = tableMove A p := by
        unfold tableMove
        rw [hpres p h]
      refine ⟨j, hj1, hje, ?_⟩
      rcases hrest with ⟨hj, he⟩ | ⟨hj2, hex2, hsm⟩
      · exact Or.inl ⟨hj, by rw [hmv]; exact he⟩
      · exact Or.inr ⟨hj2, by rw [hmv]; exact hex2, by rw [hmv]; exact hmono _ hsm⟩
    · obtain ⟨a, point, hptF, hpeq, hmv⟩ := hdec p h
      obtain ⟨hm1, hSf, hin, hmk⟩ := hout p h
      refine ⟨k + 1, by omega, hout_exact p h, ?_⟩
      rcases Nat.eq_zero_or_pos k with hk | hk
      · left
        subst hk
        have hpe : point = endp := by simpa using (hfrontier point).mp hptF
        have hptin : point.inside = true := by rw [hpe]; exact hendin
        have hin2 : (point.add a).inside = true := by rw [← hpeq]; exact hin
        refine ⟨rfl, ?_⟩
        rw [hmv, hpeq, add_reverse point a hptin hin2, hpe]
      · right
        have hexpt : ExactReach marks endp k point := by
          have hh := (hfrontier point).mp hptF
          rwa [if_neg (by omega)] at hh
        have hptin : point.inside = true := by
          obtain ⟨⟨l, _, hw⟩, _⟩ := hexpt
          exact (zeroWalk_head marks endp _ l hw).1
        have hin2 : (point.add a).inside = true := by rw [← hpeq]; exact hin
        have hstep2 : p.add (tableMove (abRound marks A S F).1 p) = point := by
          rw [hmv, hpeq, add_reverse point a hptin hin2]
        refine ⟨by omega, ?_, ?_⟩
        · rw [hstep2]
          simpa using hexpt
        · rw [hstep2]
          exact hmono point ((hmarkiff point).mpr ⟨k, by omega, le_refl _, hexpt⟩)

/-- Pointwise-implied predicates filter to at-most-as-long lists. -/
theorem filter_length_mono {α : Type} (f g : α → Bool) :
    ∀ l : List α, (∀ x ∈ l, f x = true → g x = true) →
      (l.filter f).length ≤ (l.filter g).length := by
  intro l
  induction l with
  | nil => intro _; simp
  | cons x t ih =>
    intro h
    have ht := ih fun y hy hfy => h y (List.mem_cons_of_mem x hy) hfy
    rw [List.filter_cons, List.filter_cons]
    by_cases hf : f x = true
    · rw [if_pos hf, if_pos (h x (List.mem_cons_self x t) hf)]
      simpa using ht
    · rw [if_neg hf]
      by_cases hg : g x = true
      · rw [if_pos hg]
        simp only [List.length_cons]
        omega
      · rw [if_neg hg]
        exact ht

/-- A genuinely new satisfied element strictly grows the filter. -/
theorem filter_length_strict {α : Type} (f g : α → Bool) :
    ∀ l : List α, (∀ x ∈ l, f x = true → g x = true) →
      (∃ q ∈ l, f q = false ∧ g q = true) →
      (l.filter f).length < (l.filter g).length := by
  intro l
  induction l with
  | nil =>
    rintro _ ⟨q, hq, _⟩
    exact absurd hq (by simp)
  | cons x t ih =>
    rintro h ⟨q, hq, hqf, hqg⟩
    have hmono := filter_length_mono f g t fun y hy hfy => h y (List.mem_cons_of_mem x hy) hfy
    rw [List.filter_cons, List.filter_cons]
    rcases List.mem_cons.mp hq with he | hqt
    · subst he
      rw [if_neg (by simp [hqf]), if_pos hqg]
      simp only [List.length_cons]
      omega
    · have hlt := ih (fun y hy hfy => h y (List.mem_cons_of_mem x hy) hfy) ⟨q, hqt, hqf, hqg⟩
      by_cases hf : f x = true
      · rw [if_pos hf, if_pos (h x (List.mem_cons_self x t) hf)]
        simpa using hlt
      · rw [if_neg hf]
        by_cases hg : g x = true
        · rw [if_pos hg]
          simp only [List.length_cons]
          omega
        · rw [if_neg hg]
          exact hlt

/-- A filter missing a witnessed element of the list is strictly shorter
than the list. -/
theorem filter_length_lt {α : Type} (f : α → Bool) :
    ∀ l : List α, (∃ q ∈ l, f q = false) → (l.filter f).length < l.length := by
  intro l
  induction l with
  | nil =>
    rintro ⟨q, hq, _⟩
    exact absurd hq (by simp)
  | cons x t ih =>
    rintro ⟨q, hq, hqf⟩
    rw [List.filter_cons]
    rcases List.mem_cons.mp hq with he | hqt
    · subst he
      rw [if_neg (by simp [hqf])]
      have := List.length_filter_le f t
      simp only [List.length_cons]
      omega
    · have hlt := ih ⟨q, hqt, hqf⟩
      by_cases hf : f x = true
      · rw [if_pos hf]
        simp only [List.length_cons]
        omega
      · rw [if_neg hf]
        have := List.length_filter_le f t
        simp only [List.length_cons]
        omega

/-- With the marked end excluded, a start set covers at most 15 cells. -/
theorem countMarked_le_15 (marks : MarkBoard) (endp : Point) (S : MarkBoard)
    (hendin : endp.inside = true) (hend : marks.marked endp = true)
    (hprop : ∀ p : Point, S.marked p = true → p.inside = true ∧ marks.marked p = false) :
    countMarked S ≤ 15 := by
  have hSe : S.marked endp = false := by
    cases h : S.marked endp
    · rfl
    · have hx := (hprop endp h).2
      rw [hend] at hx
      exact absurd hx (by simp)
  have hlt := filter_length_lt S.marked Point.iter_all
    ⟨endp, (Point.inside_iff_mem_iter_all endp).mp hendin, hSe⟩
  have hlen : Point.iter_all.length = 16 := by decide
  unfold countMarked
  omega

/-- A productive round strictly grows the marked-start count. -/
theorem countMarked_strict (S T : MarkBoard) (q : Point)
    (hmono : ∀ p : Point, S.marked p = true → T.marked p = true)
    (hqin : q.inside = true) (hqS : S.marked q = false) (hqT : T.marked q = true) :
    countMarked S < countMarked T := by
  unfold countMarked
  exact filter_length_strict S.marked T.marked Point.iter_all
    (fun x _ hx => hmono x hx)
    ⟨q, (Point.inside_iff_mem_iter_all q).mp hqin, hqS, hqT⟩

/-- Exact layers are contiguous: once a layer is empty, all higher layers
are. -/
theorem no_exact_above (marks : MarkBoard) (endp : Point) (k : Nat) (hk : 1 ≤ k)
    (hnone : ∀ p : Point, ¬ExactReach marks endp k p) :
    ∀ (m : Nat) (p : Point), ¬ExactReach marks endp (k + m) p := by
  intro m
  induction m with
  | zero => exact hnone
  | succ m ih =>
    intro p hex
    have hrw : k + (m + 1) = (k + m) + 1 := by omega
    rw [hrw] at hex
    obtain ⟨a, _, _, hstep⟩ := exact_step marks endp (k + m) p hex
    rcases hstep with ⟨h0, _⟩ | ⟨_, hex2⟩
    · omega
    · exact ih (p.add a) hex2

/-- An empty frontier turns the breadth-first invariant into full table
soundness. -/
theorem abInv_empty_good (marks : MarkBoard) (endp : Point) (k : Nat) (A : Nat)
    (S : MarkBoard) (hinv : AbInv marks endp k A S []) :
    AbGood marks endp A S := by
  obtain ⟨hA, hS, hprop, hmarkiff, hfrontier, hzero, htab⟩ := hinv
  have hk1 : 1 ≤ k := by
    by_contra hc
    have hk0 : k = 0 := by omega
    have hmem : endp ∈ ([] : List Point) := by
      rw [hfrontier endp, hk0]
      simp
    exact absurd hmem (by simp)
  have hnone : ∀ p : Point, ¬ExactReach marks endp k p := by
    intro p hex
    have hmem : p ∈ ([] : List Point) := by
      rw [hfrontier p, if_neg (by omega)]
      exact hex
    exact absurd hmem (by simp)
  refine ⟨hA, hS, hprop, ?_, ?_⟩
  · intro p
    rw [hmarkiff p]
    constructor
    · rintro ⟨j, hj1, hjk, hje⟩
      exact ⟨j, hj1, hje⟩
    · rintro ⟨j, hj1, hje⟩
      rcases Nat.lt_or_ge j k with h | h
      · exact ⟨j, hj1, by omega, hje⟩
      · exfalso
        have hrw : j = k + (j - k) := by omega
        rw [hrw] at hje
        exact no_exact_above marks endp k hk1 hnone (j - k) p hje
  · intro p hp
    exact htab p hp

/-- The breadth-first loop of `ActionBoard::from` ends in a sound table
whenever the fuel covers the remaining unmarked cells. -/
theorem abLoop_spec (marks : MarkBoard) (endp : Point) (hmlt : marks.val < 2 ^ 16)
    (hend : marks.marked endp = true) :
    ∀ (fuel k A : Nat) (S : MarkBoard) (F : List Point),
      AbInv marks endp k A S F →
      (F ≠ [] → countMarked S + fuel ≥ 17) →
      AbGood marks endp (abLoop marks fuel A S F).1 (abLoop marks fuel A S F).2 := by
  intro fuel
  induction fuel with
  | zero =>
    intro k A S F hinv hcnt
    have hF : F = [] := by
      by_contra hc
      have h1 := hcnt hc
      have hendin : endp.inside = true := marked_inside marks endp hmlt hend
      have h2 := countMarked_le_15 marks endp S hendin hend hinv.2.2.1
      omega
    subst hF
    exact abInv_empty_good marks endp k A S hinv
  | succ fuel ih =>
    intro k A S F hinv hcnt
    by_cases hF : F.isEmpty = true
    · have hFe : F = [] := by
        cases F
        · rfl
        · exact absurd hF (by simp)
      subst hFe
      have hstep : abLoop marks (fuel + 1) A S [] = (A, S) := rfl
      rw [hstep]
      exact abInv_empty_good marks endp k A S hinv
    · have hFne : F ≠ [] := by
        intro hc
        subst hc
        exact hF rfl
      have hstep : abLoop marks (fuel + 1) A S F =
          abLoop marks fuel (abRound marks A S F).1 (abRound marks A S F).2.1
            (abRound marks A S F).2.2 := by
        show (if F.isEmpty then (A, S)
          else abLoop marks fuel (abRound marks A S F).1 (abRound marks A S F).2.1
            (abRound marks A S F).2.2) = _
        rw [if_neg hF]
      rw [hstep]
      refine ih (k + 1) (abRound marks A S F).1 (abRound marks A S F).2.1
        (abRound marks A S F).2.2 (abRound_inv marks endp k A S F hmlt hend hinv) ?_
      intro hne
      have hinv2 := abRound_inv marks endp k A S F hmlt hend hinv
      obtain ⟨_, _, hprop2, hmark2, hfront2, _, _⟩ := hinv2
      obtain ⟨_, _, _, hmark, _, _, _⟩ := hinv
      obtain ⟨q, hq⟩ := List.exists_mem_of_ne_nil _ hne
      have hqex : ExactReach marks endp (k + 1) q := by
        have hh := (hfront2 q).mp hq
        rwa [if_neg (by omega)] at hh
      have hqT : (abRound marks A S F).2.1.marked q = true :=
        (hmark2 q).mpr ⟨k + 1, by omega, le_refl _, hqex⟩
      have hqin : q.inside = true := (hprop2 q hqT).1
      have hqS : S.marked q = false := by
        cases h : S.marked q
        · rfl
        · exfalso
          obtain ⟨j, hj1, hjk, hje⟩ := (hmark q).mp h
          have := exact_unique marks endp j (k + 1) q hj1 (by omega) hje hqex
          omega
      have hmono2 : ∀ p : Point, S.marked p = true →
          (abRound marks A S F).2.1.marked p = true := by
        intro p hp
        obtain ⟨j, hj1, hjk, hje⟩ := (hmark p).mp hp
        exact (hmark2 p).mpr ⟨j, hj1, by omega, hje⟩
      have hgrow := countMarked_strict S (abRound marks A S F).2.1 q hmono2 hqin hqS hqT
      have h1 := hcnt hFne
      omega

/-- The breadth-first construction of `ActionBoard::from` yields a sound
table for every marked end of a `u16` pattern. -/
theorem fromM_good (marks : MarkBoard) (endp : Point) (hmlt : marks.val < 2 ^ 16)
    (hend : marks.marked endp = true) :
    AbGood marks endp (ActionBoard.fromM marks endp).actions
      (ActionBoard.fromM marks endp).starts := by
  have hzm : ∀ p : Point, (⟨0⟩ : MarkBoard).marked p = false := by
    intro p
    rw [marked_false_iff_extract]
    show extract 0 p.index 1 = 0
    simp [extract]
  have hinit : AbInv marks endp 0 0 ⟨0⟩ [endp] := by
    refine ⟨by norm_num, by norm_num, ?_, ?_, ?_, ?_, ?_⟩
    · intro p hp
      rw [hzm p] at hp
      exact absurd hp (by simp)
    · intro p
      constructor
      · intro hp
        rw [hzm p] at hp
        exact absurd hp (by simp)
      · rintro ⟨j, hj1, hjk, _⟩
        omega
    · intro p
      simp
    · intro p _
      show extract 0 (p.index * 2) 2 = 0
      simp [extract]
    · intro p hp
      rw [hzm p] at hp
      exact absurd hp (by simp)
  exact abLoop_spec marks endp hmlt hend 17 0 0 ⟨0⟩ [endp] hinit (fun _ => by omega)

/-- For covered cells, `action_by_pos` decodes the table slot. -/
theorem action_by_pos_some (ab : ActionBoard) (p : Point)
    (h : ab.starts.marked p = true) :
    ab.action_by_pos p = some (tableMove ab.actions p) := by
  unfold ActionBoard.action_by_pos tableMove
  rw [if_pos h]
  have h3 : ((ab.actions >>> (p.index * 2)) &&& 0x3) = extract ab.actions (p.index * 2) 2 := by
    show _ &&& 3 = (ab.actions >>> (p.index * 2)) % 2 ^ 2
    rw [show (3 : Nat) = 2 ^ 2 - 1 from by norm_num, Nat.and_pow_two_sub_one_eq_mod]
  rw [h3]

/-- Following the recorded moves from any covered cell is a shortest
zero-walk to the table's end. -/
theorem table_follow (marks : MarkBoard) (ab : ActionBoard)
    (hgood : AbGood marks ab.endp ab.actions ab.starts) :
    ∀ (j : Nat) (p : Point), ExactReach marks ab.endp j p → 1 ≤ j →
      ab.starts.marked p = true →
      ∃ l : List Action, l.length = j ∧ followsTable ab p l ∧
        isZeroWalk marks ab.endp p l := by
  intro j
  induction j using Nat.strong_induction_on with
  | _ j ih =>
    intro p hex hj1 hmk
    obtain ⟨hA, hS, hprop, hmarkiff, htab⟩ := hgood
    obtain ⟨j2, hj21, hex2, hrest⟩ := htab p hmk
    have hjj : j2 = j := exact_unique marks ab.endp j2 j p hj21 hj1 hex2 hex
    subst hjj
    rcases hrest with ⟨hje1, he⟩ | ⟨hj2ge, hexn, hsm⟩
    · refine ⟨[tableMove ab.actions p], by simp [hje1], ?_, ?_⟩
      · show ab.action_by_pos p = some (tableMove ab.actions p) ∧
          p.add (tableMove ab.actions p) = ab.endp
        exact ⟨action_by_pos_some ab p hmk, he⟩
      · obtain ⟨⟨l0, _, hw0⟩, _⟩ := hex
        have hph := zeroWalk_head marks ab.endp p l0 hw0
        show p.inside = true ∧ marks.marked p = false ∧
          p.add (tableMove ab.actions p) = ab.endp
        exact ⟨hph.1, hph.2, he⟩
    · obtain ⟨l, hlen, hfol, hwalk⟩ := ih (j2 - 1) (by omega)
        (p.add (tableMove ab.actions p)) hexn (by omega) hsm
      refine ⟨tableMove ab.actions p :: l, by simp only [List.length_cons, hlen]; omega, ?_, ?_⟩
      · cases l with
        | nil =>
          exfalso
          simp at hlen
          omega
        | cons b rest =>
          show ab.action_by_pos p = some (tableMove ab.actions p) ∧
            followsTable ab (p.add (tableMove ab.actions p)) (b :: rest)
          exact ⟨action_by_pos_some ab p hmk, hfol⟩
      · obtain ⟨⟨l0, _, hw0⟩, _⟩ := hex
        have hph := zeroWalk_head marks ab.endp p l0 hw0
        exact zeroWalk_prepend marks ab.endp p (tableMove ab.actions p) l hph.1 hph.2 hwalk

/-- C5: for every `u16` occupied-pattern and marked end cell that is
adjacent to an in-grid unoccupied cell, the shortcut table of
`ActionBoard::from` records a move for a coordinate exactly when that
coordinate is unoccupied and the end is reachable from it through
unoccupied in-grid cells only; and from every recorded coordinate,
repeatedly following `action_by_pos` steps only through unoccupied cells
and arrives at the end in exactly the length of the shortest such
zero-walk. -/
theorem C5_action_board (marks : MarkBoard) (endp : Point)
    (hm : marks.val < 2 ^ 16) (hend : marks.marked endp = true)
    (helig : endp ∈ validEnds marks) :
    (∀ p : Point,
      ((ActionBoard.fromM marks endp).action_by_pos p).isSome = true ↔
        (marks.marked p = false ∧ ∃ l, isZeroWalk marks endp p l)) ∧
    (∀ p : Point, ((ActionBoard.fromM marks endp).action_by_pos p).isSome = true →
      ∃ l, followsTable (ActionBoard.fromM marks endp) p l ∧
        isZeroWalk marks endp p l ∧
        ∀ l2, isZeroWalk marks endp p l2 → l.length ≤ l2.length) := by
  have hgood := fromM_good marks endp hm hend
  have habp : ∀ p : Point, ((ActionBoard.fromM marks endp).action_by_pos p).isSome = true ↔
      (ActionBoard.fromM marks endp).starts.marked p = true := by
    intro p
    unfold ActionBoard.action_by_pos
    by_cases h : (ActionBoard.fromM marks endp).starts.marked p = true
    · rw [if_pos h]
      simp [h]
    · rw [if_neg h]
      simp [h]
  have hfol := table_follow marks (ActionBoard.fromM marks endp) hgood
  obtain ⟨hA, hS, hprop, hmarkiff, htab⟩ := hgood
  constructor
  · intro p
    rw [habp p, hmarkiff p]
    constructor
    · rintro ⟨j, hj1, hje⟩
      obtain ⟨⟨l, _, hw⟩, _⟩ := hje
      exact ⟨(zeroWalk_head marks endp p l hw).2, ⟨l, hw⟩⟩
    · rintro ⟨_, l, hw⟩
      exact exists_exact_layer marks endp p l hw
  · intro p hp
    rw [habp p] at hp
    obtain ⟨j, hj1, hje⟩ := (hmarkiff p).mp hp
    obtain ⟨l, hlen, hfl, hwl⟩ := hfol j p hje hj1 hp
    refine ⟨l, hfl, hwl, ?_⟩
    intro l2 hw2
    by_contra hc
    have hlt : l2.length ≤ j - 1 := by omega
    exact hje.2 ⟨l2, hlt, hw2⟩

/-- Witness for C5 at the pattern with only cell `(0,0)` occupied and end
`(0,0)`. -/
theorem C5_witness :
    ((⟨1⟩ : MarkBoard).val < 2 ^ 16) ∧
    ((⟨1⟩ : MarkBoard).marked ⟨0⟩ = true) ∧
    ((⟨0⟩ : Point) ∈ validEnds ⟨1⟩) ∧
    ((∀ p : Point,
      ((ActionBoard.fromM ⟨1⟩ ⟨0⟩).action_by_pos p).isSome = true ↔
        ((⟨1⟩ : MarkBoard).marked p = false ∧ ∃ l, isZeroWalk ⟨1⟩ ⟨0⟩ p l)) ∧
    (∀ p : Point, ((ActionBoard.fromM ⟨1⟩ ⟨0⟩).action_by_pos p).isSome = true →
      ∃ l, followsTable (ActionBoard.fromM ⟨1⟩ ⟨0⟩) p l ∧
        isZeroWalk ⟨1⟩ ⟨0⟩ p l ∧
        ∀ l2, isZeroWalk ⟨1⟩ ⟨0⟩ p l2 → l.length ≤ l2.length)) :=
  ⟨by norm_num, by decide, by decide,
    C5_action_board ⟨1⟩ ⟨0⟩ (by norm_num) (by decide) (by decide)⟩

/-- Bit of an or-fold: some contribution has the bit. -/
theorem testBit_foldl_or : ∀ (l : List Nat) (acc j : Nat),
    (l.foldl (· ||| ·) acc).testBit j = (acc.testBit j || l.any fun x => x.testBit j) := by
  intro l
  induction l with
  | nil =>
    intro acc j
    simp
  | cons x t ih =>
    intro acc j
    rw [List.foldl_cons, ih, List.any_cons, Nat.testBit_lor]
    cases acc.testBit j <;> cases x.testBit j <;> simp

/-- An or-fold of 16-bit words is a 16-bit word. -/
theorem foldl_or_lt : ∀ (l : List Nat) (acc : Nat), acc < 2 ^ 16 →
    (∀ x ∈ l, x < 2 ^ 16) → l.foldl (· ||| ·) acc < 2 ^ 16 := by
  intro l
  induction l with
  | nil =>
    intro acc h _
    exact h
  | cons x t ih =>
    intro acc h hall
    rw [List.foldl_cons]
    exact ih _ (Nat.bitwise_lt h (hall x (List.mem_cons_self x t)))
      fun y hy => hall y (List.mem_cons_of_mem x hy)

/-- The mark test reads one bit of the pattern word. -/
theorem marked_testBit (m : MarkBoard) (p : Point) :
    m.marked p = m.val.testBit p.index := by
  have he : extract m.val p.index 1 = m.val / 2 ^ p.index % 2 := by
    show (m.val >>> p.index) % 2 ^ 1 = _
    rw [Nat.shiftRight_eq_div_pow, pow_one]
  cases h : m.val.testBit p.index
  · rw [Nat.testBit_to_div_mod, decide_eq_false_iff_not] at h
    rw [marked_false_iff_extract, he]
    generalize m.val / 2 ^ p.index = d at h ⊢
    omega
  · rw [Nat.testBit_to_div_mod, decide_eq_true_eq] at h
    rw [marked_iff_extract, he]
    exact h

/-- Decidable core: each transform is a grid bijection undone by its
reverse. -/
theorem transform_roundtrip_core :
    ∀ p ∈ Point.iter_all, ∀ t ∈ [Transform.Mirror, .Deg90, .Deg180, .Deg270],
      (p.transform t).inside = true ∧ (p.transform t.reverse).transform t = p ∧
        (p.transform t).transform t.reverse = p := by
  decide

/-- Every transform is one of the four. -/
theorem mem_TRANSFORMS (t : Transform) :
    t ∈ [Transform.Mirror, .Deg90, .Deg180, .Deg270] := by
  cases t <;> decide

/-- Bit of a transformed pattern: some grid point marked in `m` maps onto
it. -/
theorem transformM_marked_iff (m : MarkBoard) (t : Transform) (q : Point) :
    (m.transformM t).marked q = true ↔
      ∃ p, p ∈ Point.iter_all ∧ m.marked p = true ∧ (p.transform t).index = q.index := by
  rw [marked_testBit]
  show ((Point.iter_all.map fun p =>
      (if m.marked p then 1 else 0) <<< (p.transform t).index).foldl (· ||| ·) 0).testBit
      q.index = true ↔ _
  rw [testBit_foldl_or]
  simp only [Nat.zero_testBit, Bool.false_or]
  rw [List.any_eq_true]
  constructor
  · rintro ⟨x, hx, hb⟩
    obtain ⟨p, hp, hpe⟩ := List.mem_map.mp hx
    subst hpe
    by_cases hm : m.marked p = true
    · rw [if_pos hm, Nat.testBit_shiftLeft] at hb
      refine ⟨p, hp, hm, ?_⟩
      have h1 := (Bool.and_eq_true _ _).mp hb
      have hle : (p.transform t).index ≤ q.index := of_decide_eq_true h1.1
      have hbit : Nat.testBit 1 (q.index - (p.transform t).index) = true := h1.2
      have hz : q.index - (p.transform t).index = 0 := by
        by_contra hc
        rw [Nat.testBit_to_div_mod] at hbit
        have hpow : (1 : Nat) < 2 ^ (q.index - (p.transform t).index) := by
          calc (1 : Nat) = 2 ^ 0 := rfl
          _ < 2 ^ (q.index - (p.transform t).index) :=
            Nat.pow_lt_pow_right (by norm_num) (by omega)
        have h2 : (1 : Nat) / 2 ^ (q.index - (p.transform t).index) = 0 :=
          Nat.div_eq_of_lt hpow
        rw [h2] at hbit
        simp at hbit
      omega
    · rw [if_neg hm, Nat.zero_shiftLeft] at hb
      simp at hb
  · rintro ⟨p, hp, hm, hidx⟩
    refine ⟨(if m.marked p then 1 else 0) <<< (p.transform t).index,
      List.mem_map.mpr ⟨p, hp, rfl⟩, ?_⟩
    rw [if_pos hm, Nat.testBit_shiftLeft, hidx, Nat.sub_self]
    simp

/-- Transformed patterns are 16-bit words. -/
theorem transformM_lt (m : MarkBoard) (t : Transform) : (m.transformM t).val < 2 ^ 16 := by
  show (Point.iter_all.map fun p =>
    (if m.marked p then 1 else 0) <<< (p.transform t).index).foldl (· ||| ·) 0 < 2 ^ 16
  refine foldl_or_lt _ 0 (by norm_num) ?_
  intro x hx
  obtain ⟨p, hp, he⟩ := List.mem_map.mp hx
  subst he
  have hidx : (p.transform t).index < 16 := by
    have hin := (transform_roundtrip_core p hp t (mem_TRANSFORMS t)).1
    simpa [Point.inside, Point.index, N] using hin
  rw [Nat.shiftLeft_eq]
  have hb : (if m.marked p then (1 : Nat) else 0) ≤ 1 := by
    split <;> norm_num
  calc (if m.marked p then (1 : Nat) else 0) * 2 ^ (p.transform t).index
      ≤ 1 * 2 ^ (p.transform t).index := Nat.mul_le_mul_right _ hb
    _ = 2 ^ (p.transform t).index := by ring
    _ < 2 ^ 16 := Nat.pow_lt_pow_right (by norm_num) hidx

/-- Bit transport of `MarkBoard::transform`: the image's bit at an in-grid
point is the source bit at the reverse-transformed point. -/
theorem transformM_marked (m : MarkBoard) (t : Transform) (q : Point)
    (hq : q.inside = true) :
    (m.transformM t).marked q = m.marked (q.transform t.reverse) := by
  have hqmem := (Point.inside_iff_mem_iter_all q).mp hq
  cases h : m.marked (q.transform t.reverse)
  · cases h2 : (m.transformM t).marked q
    · rfl
    · exfalso
      obtain ⟨p, hp, hm, hidx⟩ := (transformM_marked_iff m t q).mp h2
      have hpe : p.transform t = q := point_index_inj _ _ hidx
      have hrt := (transform_roundtrip_core p hp t (mem_TRANSFORMS t)).2.2
      rw [hpe] at hrt
      rw [hrt] at h
      rw [h] at hm
      exact absurd hm (by simp)
  · have hin2 : (q.transform t.reverse).inside = true :=
      (transform_roundtrip_core q hqmem t.reverse (mem_TRANSFORMS t.reverse)).1
    have hfwd : (q.transform t.reverse).transform t = q :=
      (transform_roundtrip_core q hqmem t (mem_TRANSFORMS t)).2.1
    exact (transformM_marked_iff m t q).mpr
      ⟨q.transform t.reverse, (Point.inside_iff_mem_iter_all _).mp hin2, h,
        congrArg Point.index hfwd⟩

/-- Unfolding of `Point::reverse_symmetry`. -/
theorem reverse_symmetry_eq (q : Point) (s : Sym) :
    q.reverse_symmetry s = if s.transform = .Mirror ∧ s.mirror then q
      else (if s.mirror then (q.transform s.transform.reverse).transform .Mirror
        else q.transform s.transform.reverse) := rfl

/-- Bit transport of `MarkBoard::symmetry`: the canonical image's bit at an
in-grid point is the source bit at the inverse-mapped point. -/
theorem symmetryM_marked (m : MarkBoard) (s : Sym) (q : Point) (hq : q.inside = true) :
    (m.symmetryM s).marked q = m.marked (q.reverse_symmetry s) := by
  rw [reverse_symmetry_eq]
  unfold MarkBoard.symmetryM
  by_cases hid : s.transform = .Mirror ∧ s.mirror
  · rw [if_pos hid, if_pos hid]
  · rw [if_neg hid, if_neg hid]
    by_cases hm : s.mirror = true
    · rw [if_pos hm, if_pos hm]
      rw [transformM_marked _ _ _ hq]
      have hin2 : (q.transform s.transform.reverse).inside = true :=
        (transform_roundtrip_core q ((Point.inside_iff_mem_iter_all q).mp hq)
          s.transform.reverse (mem_TRANSFORMS _)).1
      rw [transformM_marked _ _ _ hin2]
      rfl
    · rw [if_neg hm, if_neg hm]
      exact transformM_marked _ _ _ hq

/-- Symmetric images of 16-bit patterns are 16-bit patterns. -/
theorem symmetryM_lt (m : MarkBoard) (s : Sym) (hm : m.val < 2 ^ 16) :
    (m.symmetryM s).val < 2 ^ 16 := by
  unfold MarkBoard.symmetryM
  by_cases hid : s.transform = .Mirror ∧ s.mirror
  · rw [if_pos hid]
    exact hm
  · rw [if_neg hid]
    exact transformM_lt _ _

/-- Extensionality for 16-bit patterns through their grid bits. -/
theorem markBoard_ext (m1 m2 : MarkBoard) (h1 : m1.val < 2 ^ 16) (h2 : m2.val < 2 ^ 16)
    (h : ∀ q : Point, q.inside = true → m1.marked q = m2.marked q) : m1 = m2 := by
  cases m1 with
  | mk v1 =>
    cases m2 with
    | mk v2 =>
      congr 1
      refine eq_of_testBit_lt h1 h2 (fun j hj => ?_)
      have hq : (⟨j⟩ : Point).inside = true := by
        simp [Point.inside, Point.index, N]
        omega
      have hx := h ⟨j⟩ hq
      rw [marked_testBit, marked_testBit] at hx
      exact hx

/-- Decidable core: the inverse symmetry actions map the grid into itself. -/
theorem reverse_symmetry_inside_core :
    ∀ q ∈ Point.iter_all, ∀ s ∈ allSyms, (q.reverse_symmetry s).inside = true := by
  decide

/-- Decidable core: the 8 inverse symmetry actions compose within the 8. -/
theorem rs_comp_core :
    ∀ s1 ∈ allSyms, ∀ s2 ∈ allSyms, ∃ s3 ∈ allSyms, ∀ q ∈ Point.iter_all,
      (q.reverse_symmetry s2).reverse_symmetry s1 = q.reverse_symmetry s3 := by
  decide

/-- Decidable core: each of the 8 inverse symmetry actions has an inverse
among the 8. -/
theorem rs_inv_core :
    ∀ s ∈ allSyms, ∃ s2 ∈ allSyms, ∀ q ∈ Point.iter_all,
      (q.reverse_symmetry s2).reverse_symmetry s = q ∧
        (q.reverse_symmetry s).reverse_symmetry s2 = q := by
  decide

/-- Composition closure of pattern symmetries. -/
theorem symmetryM_comp (m : MarkBoard) (hm : m.val < 2 ^ 16) (s1 s2 : Sym)
    (h1 : s1 ∈ allSyms) (h2 : s2 ∈ allSyms) :
    ∃ s3 ∈ allSyms, (m.symmetryM s1).symmetryM s2 = m.symmetryM s3 := by
  obtain ⟨s3, hs3, hpt⟩ := rs_comp_core s1 h1 s2 h2
  refine ⟨s3, hs3, ?_⟩
  apply markBoard_ext _ _ (symmetryM_lt _ _ (symmetryM_lt _ _ hm)) (symmetryM_lt _ _ hm)
  intro q hq
  rw [symmetryM_marked _ _ _ hq]
  have hin2 : (q.reverse_symmetry s2).inside = true :=
    reverse_symmetry_inside_core q ((Point.inside_iff_mem_iter_all q).mp hq) s2 h2
  rw [symmetryM_marked _ _ _ hin2, symmetryM_marked _ _ _ hq]
  rw [hpt q ((Point.inside_iff_mem_iter_all q).mp hq)]

/-- Inverses of pattern symmetries. -/
theorem symmetryM_inv (s : Sym) (hs : s ∈ allSyms) :
    ∃ s2 ∈ allSyms, ∀ m : MarkBoard, m.val < 2 ^ 16 →
      (m.symmetryM s).symmetryM s2 = m := by
  obtain ⟨s2, hs2, hpt⟩ := rs_inv_core s hs
  refine ⟨s2, hs2, ?_⟩
  intro m hm
  apply markBoard_ext _ _ (symmetryM_lt _ _ (symmetryM_lt _ _ hm)) hm
  intro q hq
  rw [symmetryM_marked _ _ _ hq]
  have hin2 : (q.reverse_symmetry s2).inside = true :=
    reverse_symmetry_inside_core q ((Point.inside_iff_mem_iter_all q).mp hq) s2 hs2
  rw [symmetryM_marked _ _ _ hin2]
  rw [(hpt q ((Point.inside_iff_mem_iter_all q).mp hq)).1]

/-- The pair `(Mirror, mirror)` acts as the identity on patterns. -/
theorem symmetryM_id (m : MarkBoard) : m.symmetryM (Sym.mk .Mirror true) = m := rfl

/-- The identity element is among the 8 symmetries. -/
theorem id_mem_allSyms : Sym.mk .Mirror true ∈ allSyms := by decide

/-- Association-list lookup succeeds on present keys. -/
theorem lookup_isSome_of_mem (l : List (MarkBoard × List (Point × ActionBoard)))
    (k : MarkBoard) :
    (∃ ab, (k, ab) ∈ l) → (l.lookup k).isSome = true := by
  induction l with
  | nil =>
    rintro ⟨ab, hab⟩
    exact absurd hab (by simp)
  | cons hd t ih =>
    rintro ⟨ab, hab⟩
    obtain ⟨k1, v1⟩ := hd
    show (List.lookup k ((k1, v1) :: t)).isSome = true
    rw [List.lookup]
    cases he : k == k1
    · rcases List.mem_cons.mp hab with h | h
      · exfalso
        have hk : k = k1 := by
          have hc := congrArg Prod.fst h
          simpa using hc
        rw [hk] at he
        simp at he
      · exact ih ⟨ab, h⟩
    · rfl

/-- Key extraction on a literal fold state. -/
theorem keysOf_pair (k : List (MarkBoard × List (Point × ActionBoard)))
    (sn : List MarkBoard) : keysOf (k, sn) = k := rfl

/-- Seen-set extraction on a literal fold state. -/
theorem seenOf_pair (k : List (MarkBoard × List (Point × ActionBoard)))
    (sn : List MarkBoard) : seenOf (k, sn) = sn := rfl

/-- Invariant of the `ACTION_BOARDS` fold after processing patterns
`0..n`: keys are processed indices, every seen pattern is a symmetric
image of some key, and every processed pattern that is numerically minimal
among its own images is a key. -/
theorem cacheFold_inv (n : Nat) (hn : n ≤ 65535) :
    (∀ pr ∈ keysOf ((List.range n).foldl cacheStep ([], [])), pr.1.val < n) ∧
    (∀ mm ∈ seenOf ((List.range n).foldl cacheStep ([], [])),
      ∃ pr ∈ keysOf ((List.range n).foldl cacheStep ([], [])), ∃ s ∈ allSyms,
        mm = pr.1.symmetryM s) ∧
    (∀ i < n, (∀ t ∈ allSyms, i ≤ ((⟨i⟩ : MarkBoard).symmetryM t).val) →
      ∃ ab, ((⟨i⟩ : MarkBoard), ab) ∈ keysOf ((List.range n).foldl cacheStep ([], []))) := by
  induction n with
  | zero =>
    refine ⟨?_, ?_, ?_⟩
    · intro pr hpr
      exact absurd hpr (by simp [keysOf])
    · intro mm hmm
      exact absurd hmm (by simp [seenOf])
    · intro i hi
      exact fun _ => absurd hi (by omega)
  | succ n ih =>
    obtain ⟨ih1, ih2, ih3⟩ := ih (by omega)
    have hsucc : (List.range (n + 1)).foldl cacheStep ([], []) =
        cacheStep ((List.range n).foldl cacheStep ([], [])) n := by
      rw [List.range_succ, List.foldl_append, List.foldl_cons, List.foldl_nil]
    rw [hsucc]
    set st := (List.range n).foldl cacheStep ([], []) with hst
    by_cases hseen : (⟨n⟩ : MarkBoard) ∈ st.2
    · have hcs : cacheStep st n = st := by
        show (if (⟨n⟩ : MarkBoard) ∈ st.2 then st
          else (st.1 ++ [((⟨n⟩ : MarkBoard), buildABM ⟨n⟩)],
            (st.2 ++ [(⟨n⟩ : MarkBoard)]) ++ allSyms.map fun sym =>
              (⟨n⟩ : MarkBoard).symmetryM sym)) = st
        rw [if_pos hseen]
      rw [hcs]
      refine ⟨?_, ih2, ?_⟩
      · intro pr hpr
        have := ih1 pr hpr
        omega
      · intro i hi hmin
        rcases Nat.lt_or_ge i n with h | h
        · exact ih3 i h hmin
        · exfalso
          have hieq : i = n := by omega
          subst hieq
          have hseen2 : (⟨i⟩ : MarkBoard) ∈ seenOf st := hseen
          obtain ⟨pr, hprmem, s, hs, hpe⟩ := ih2 _ hseen2
          have hklt : pr.1.val < 2 ^ 16 := by
            have := ih1 pr hprmem
            omega
          obtain ⟨s2, hs2, hinv⟩ := symmetryM_inv s hs
          have hx := hinv pr.1 hklt
          rw [← hpe] at hx
          have hle := hmin s2 hs2
          rw [hx] at hle
          have := ih1 pr hprmem
          omega
    · have hcs : cacheStep st n = (st.1 ++ [((⟨n⟩ : MarkBoard), buildABM ⟨n⟩)],
          (st.2 ++ [(⟨n⟩ : MarkBoard)]) ++ allSyms.map fun sym =>
            (⟨n⟩ : MarkBoard).symmetryM sym) := by
        show (if (⟨n⟩ : MarkBoard) ∈ st.2 then st
          else (st.1 ++ [((⟨n⟩ : MarkBoard), buildABM ⟨n⟩)],
            (st.2 ++ [(⟨n⟩ : MarkBoard)]) ++ allSyms.map fun sym =>
              (⟨n⟩ : MarkBoard).symmetryM sym)) = _
        rw [if_neg hseen]
      rw [hcs, keysOf_pair, seenOf_pair]
      refine ⟨?_, ?_, ?_⟩
      · intro pr hpr
        rcases List.mem_append.mp hpr with h | h
        · have := ih1 pr h
          omega
        · have hpe : pr = ((⟨n⟩ : MarkBoard), buildABM ⟨n⟩) := by simpa using h
          rw [hpe]
          show n < n + 1
          omega
      · intro mm hmm
        rcases List.mem_append.mp hmm with h | h
        · rcases List.mem_append.mp h with h2 | h2
          · obtain ⟨pr, hpr, s, hs, he⟩ := ih2 mm h2
            exact ⟨pr, List.mem_append_left _ hpr, s, hs, he⟩
          · have he : mm = ⟨n⟩ := by simpa using h2
            refine ⟨((⟨n⟩ : MarkBoard), buildABM ⟨n⟩), List.mem_append_right _ (by simp),
              Sym.mk .Mirror true, id_mem_allSyms, ?_⟩
            rw [he]
            exact (symmetryM_id _).symm
        · obtain ⟨s, hs, he⟩ := List.mem_map.mp h
          exact ⟨((⟨n⟩ : MarkBoard), buildABM ⟨n⟩), List.mem_append_right _ (by simp),
            s, hs, he.symm⟩
      · intro i hi hmin
        rcases Nat.lt_or_ge i n with h | h
        · obtain ⟨ab, hab⟩ := ih3 i h hmin
          exact ⟨ab, List.mem_append_left _ hab⟩
        · have hieq : i = n := by omega
          subst hieq
          exact ⟨buildABM ⟨i⟩, List.mem_append_right _ (by simp)⟩

/-- The min-fold of `canonicalPair` lands on the seed or a list element. -/
theorem foldl_min_mem {α : Type} (f : α → Nat) :
    ∀ (l : List α) (init : α),
      (l.foldl (fun acc cur => if f cur < f acc then cur else acc) init) = init ∨
        (l.foldl (fun acc cur => if f cur < f acc then cur else acc) init) ∈ l := by
  intro l
  induction l with
  | nil => intro init; exact Or.inl rfl
  | cons x t ih =>
    intro init
    rw [List.foldl_cons]
    rcases ih (if f x < f init then x else init) with h | h
    · by_cases hc : f x < f init
      · rw [if_pos hc] at h ⊢
        rw [h]
        exact Or.inr (List.mem_cons_self x t)
      · rw [if_neg hc] at h ⊢
        exact Or.inl h
    · exact Or.inr (List.mem_cons_of_mem x h)

/-- The min-fold result is bounded by the seed. -/
theorem foldl_min_le_init {α : Type} (f : α → Nat) :
    ∀ (l : List α) (init : α),
      f (l.foldl (fun acc cur => if f cur < f acc then cur else acc) init) ≤ f init := by
  intro l
  induction l with
  | nil => intro init; exact le_refl _
  | cons x t ih =>
    intro init
    rw [List.foldl_cons]
    by_cases hc : f x < f init
    · rw [if_pos hc]
      exact le_trans (ih x) (by omega)
    · rw [if_neg hc]
      exact ih init

/-- The min-fold result is bounded by every list element. -/
theorem foldl_min_le {α : Type} (f : α → Nat) :
    ∀ (l : List α) (init : α) (x : α), x ∈ l →
      f (l.foldl (fun acc cur => if f cur < f acc then cur else acc) init) ≤ f x := by
  intro l
  induction l with
  | nil =>
    intro init x hx
    exact absurd hx (by simp)
  | cons y t ih =>
    intro init x hx
    rw [List.foldl_cons]
    rcases List.mem_cons.mp hx with he | ht
    · subst he
      by_cases hc : f x < f init
      · rw [if_pos hc]
        exact foldl_min_le_init f t x
      · rw [if_neg hc]
        exact le_trans (foldl_min_le_init f t init) (by omega)
    · by_cases hc : f y < f init
      · rw [if_pos hc]
        exact ih _ x ht
      · rw [if_neg hc]
        exact ih _ x ht

/-- The canonical image is one of the 8 symmetric images. -/
theorem canonicalPair_mem (m : MarkBoard) :
    ∃ s ∈ allSyms, (canonicalPair m).2 = m.symmetryM s := by
  rcases foldl_min_mem (fun pr : Sym × MarkBoard => pr.2.val)
      (allSyms.map fun sym => (sym, m.symmetryM sym))
      (Sym.mk .Mirror true, m.symmetryM (Sym.mk .Mirror true)) with h | h
  · exact ⟨Sym.mk .Mirror true, id_mem_allSyms, congrArg Prod.snd h⟩
  · obtain ⟨s, hs, he⟩ := List.mem_map.mp h
    exact ⟨s, hs, congrArg Prod.snd he.symm⟩

/-- The min-fold of `canonicalPair` is bounded by its seed. -/
theorem canonFold_le_init :
    ∀ (l : List (Sym × MarkBoard)) (init : Sym × MarkBoard),
      (l.foldl (fun acc cur => if cur.2.val < acc.2.val then cur else acc) init).2.val ≤
        init.2.val := by
  intro l
  induction l with
  | nil => intro init; exact le_refl _
  | cons x t ih =>
    intro init
    rw [List.foldl_cons]
    by_cases hc : x.2.val < init.2.val
    · rw [if_pos hc]
      exact le_trans (ih x) (by omega)
    · rw [if_neg hc]
      exact ih init

/-- The min-fold of `canonicalPair` is bounded by every list element. -/
theorem canonFold_le :
    ∀ (l : List (Sym × MarkBoard)) (init x : Sym × MarkBoard), x ∈ l →
      (l.foldl (fun acc cur => if cur.2.val < acc.2.val then cur else acc) init).2.val ≤
        x.2.val := by
  intro l
  induction l with
  | nil =>
    intro init x hx
    exact absurd hx (by simp)
  | cons y t ih =>
    intro init x hx
    rw [List.foldl_cons]
    rcases List.mem_cons.mp hx with he | ht
    · subst he
      by_cases hc : x.2.val < init.2.val
      · rw [if_pos hc]
        exact canonFold_le_init t x
      · rw [if_neg hc]
        exact le_trans (canonFold_le_init t init) (by omega)
    · by_cases hc : y.2.val < init.2.val
      · rw [if_pos hc]
        exact ih _ x ht
      · rw [if_neg hc]
        exact ih _ x ht

/-- The canonical image is numerically minimal among the 8 images. -/
theorem canonicalPair_min (m : MarkBoard) (s : Sym) (hs : s ∈ allSyms) :
    (canonicalPair m).2.val ≤ (m.symmetryM s).val := by
  unfold canonicalPair
  exact canonFold_le _ _ (s, m.symmetryM s) (List.mem_map.mpr ⟨s, hs, rfl⟩)

/-- A proper pattern has an unoccupied grid cell. -/
theorem exists_unmarked (m : MarkBoard) (hm : m.val < 2 ^ 16) (hne : m.val ≠ 65535) :
    ∃ q : Point, q.inside = true ∧ m.marked q = false := by
  by_contra hc
  push_neg at hc
  have hall : ∀ j, j < 16 → m.val.testBit j = true := by
    intro j hj
    have hq : (⟨j⟩ : Point).inside = true := by
      simp [Point.inside, Point.index, N]
      omega
    have hx := hc ⟨j⟩ hq
    show m.val.testBit (Point.index ⟨j⟩) = true
    rw [← marked_testBit]
    cases hmm : m.marked (⟨j⟩ : Point)
    · exact absurd hmm hx
    · rfl
  have hfull : m.val = 65535 := by
    refine eq_of_testBit_lt hm (by norm_num) (fun j hj => ?_)
    rw [hall j hj, show (65535 : Nat) = 2 ^ 16 - 1 from by norm_num,
      Nat.testBit_two_pow_sub_one]
    simp [hj]
  exact hne hfull

/-- Symmetric images of proper patterns are proper. -/
theorem symmetryM_ne_full (m : MarkBoard) (s : Sym) (hs : s ∈ allSyms)
    (hm : m.val < 2 ^ 16) (hne : m.val ≠ 65535) : (m.symmetryM s).val ≠ 65535 := by
  obtain ⟨q0, hq0in, hq0⟩ := exists_unmarked m hm hne
  have hrt := point_symmetry_roundtrip_core q0
    ((Point.inside_iff_mem_iter_all q0).mp hq0in) s hs
  have hmk : (m.symmetryM s).marked (q0.symmetry s) = false := by
    rw [symmetryM_marked _ _ _ hrt.1, hrt.2]
    exact hq0
  intro hfull
  have hidx : (q0.symmetry s).index < 16 := by
    simpa [Point.inside, Point.index, N] using hrt.1
  rw [marked_testBit, hfull] at hmk
  rw [show (65535 : Nat) = 2 ^ 16 - 1 from by norm_num,
    Nat.testBit_two_pow_sub_one] at hmk
  simp [hidx] at hmk

/-- The canonical image is minimal among its own images. -/
theorem canonical_min_self (m : MarkBoard) (hm : m.val < 2 ^ 16) :
    ∀ t ∈ allSyms, (canonicalPair m).2.val ≤ ((canonicalPair m).2.symmetryM t).val := by
  intro t ht
  obtain ⟨s0, hs0, he⟩ := canonicalPair_mem m
  rw [he]
  obtain ⟨s3, hs3, hcomp⟩ := symmetryM_comp m hm s0 t hs0 ht
  rw [hcomp, ← he]
  exact canonicalPair_min m s3 hs3

/-- Shared core: the canonical image of a proper pattern is a cache key and
its lookup succeeds. -/
theorem canonical_key_present (m : MarkBoard) (hm : m.val < 2 ^ 16)
    (hne : m.val ≠ 65535) :
    (∃ ab, ((canonicalPair m).2, ab) ∈ actionBoardsList) ∧
    (actionBoardsList.lookup (canonicalPair m).2).isSome = true := by
  obtain ⟨s0, hs0, he⟩ := canonicalPair_mem m
  have hmin := canonical_min_self m hm
  set c := (canonicalPair m).2 with hc
  clear_value c
  have hclt : c.val < 2 ^ 16 := by
    rw [he]
    exact symmetryM_lt m s0 hm
  have hcne : c.val ≠ 65535 := by
    rw [he]
    exact symmetryM_ne_full m s0 hs0 hm hne
  have hshift : (1 <<< 16) - 1 = 65535 := by
    rw [Nat.shiftLeft_eq]
  have hinv := cacheFold_inv ((1 <<< 16) - 1) (by rw [hshift])
  have hlt : c.val < (1 <<< 16) - 1 := by
    rw [hshift]
    omega
  clear he hc
  obtain ⟨v⟩ := c
  have hmin2 : ∀ t ∈ allSyms, v ≤ ((⟨v⟩ : MarkBoard).symmetryM t).val := by
    intro t ht
    exact hmin t ht
  have hkey : ∃ ab, ((⟨v⟩ : MarkBoard), ab) ∈ actionBoardsList := by
    obtain ⟨ab, hab⟩ := hinv.2.2 v hlt hmin2
    exact ⟨ab, hab⟩
  exact ⟨hkey, lookup_isSome_of_mem actionBoardsList _ hkey⟩

/-- C6: for every 16-bit occupied-pattern other than the all-occupied one,
the numerically smallest symmetric image is a key of the lazily built
`ACTION_BOARDS` cache, and the lookup inside `action_board_map` (which the
source `unwrap`s, and which `action_towards` and `find_all_ends_for` rely
on) succeeds. -/
theorem C6_canonical_key_present (m : MarkBoard) (hm : m.val < 2 ^ 16)
    (hne : m.val ≠ 65535) :
    (∃ ab, ((canonicalPair m).2, ab) ∈ actionBoardsList) ∧
    (actionBoardsList.lookup (canonicalPair m).2).isSome = true :=
  canonical_key_present m hm hne

/-- Witness for C6 at the empty (all-unoccupied) pattern. -/
theorem C6_witness :
    ((⟨0⟩ : MarkBoard).val < 2 ^ 16) ∧ ((⟨0⟩ : MarkBoard).val ≠ 65535) ∧
    ((∃ ab, ((canonicalPair ⟨0⟩).2, ab) ∈ actionBoardsList) ∧
      (actionBoardsList.lookup (canonicalPair ⟨0⟩).2).isSome = true) :=
  ⟨by decide, by decide, C6_canonical_key_present ⟨0⟩ (by decide) (by decide)⟩


/-- A well-packed sequence decodes back to its move list. -/
theorem SeqInv_toList (s : ActionSequence) (l : List Action) (h : SeqInv s l) :
    s.toList = l := by
  obtain ⟨_, hlen, hget⟩ := h
  unfold ActionSequence.toList
  rw [hlen]
  apply List.ext_getElem
  · simp
  · intro i h1 h2
    simp only [List.getElem_map, List.getElem_range]
    rw [hget i (by simpa using h2), List.get_eq_getElem]

/-- Move application distributes over list concatenation. -/
theorem applyMoves_append (b : Board) (l1 l2 : List Action) :
    applyMoves b (l1 ++ l2) = (applyMoves b l1).bind fun b1 => applyMoves b1 l2 := by
  induction l1 generalizing b with
  | nil => simp [applyMoves]
  | cons a t ih =>
    show (b.action a).bind (fun b2 => applyMoves b2 (t ++ l2)) = _
    cases h : b.action a with
    | none => simp [applyMoves, h]
    | some b2 =>
      simp only [applyMoves, h, Option.bind_some]
      exact ih b2

/-- Every expansion of a node applies exactly one real move and appends it
to the packed sequence. -/
theorem expand_member (s s' : SolveStep) (h : s' ∈ expandStep s) :
    ∃ a, s.board.action a = some s'.board ∧ s'.seq = s.seq.addU a := by
  unfold expandStep at h
  obtain ⟨choice, _, hf⟩ := List.mem_filterMap.mp h
  cases choice with
  | Free action =>
    obtain ⟨board, hb, he⟩ := Option.map_eq_some'.mp hf
    refine ⟨action, ?_, ?_⟩
    · rw [← he]
      exact hb
    · rw [← he]
  | ZeroPath endp =>
    obtain ⟨ab, hmt, he⟩ := Option.map_eq_some'.mp hf
    unfold Board.move_towards at hmt
    obtain ⟨action, _, hbind⟩ := Option.bind_eq_some.mp hmt
    obtain ⟨board, hb, he2⟩ := Option.map_eq_some'.mp hbind
    refine ⟨action, ?_, ?_⟩
    · rw [← he, ← he2]
      exact hb
    · rw [← he, ← he2]

/-- The search loop of `solve_board` only returns sequences decoding to a
real winning move list one move longer than the frontier depth per round. -/
theorem solveLoop_sound (b0 : Board) :
    ∀ (fuel k : Nat) (F : List SolveStep) (V : List Board) (seq : ActionSequence),
      (∀ s ∈ F, StepSoundAt b0 k s) → k + fuel ≤ 29 →
      solveLoop F V fuel = some seq →
      ∃ l bw, SeqInv seq l ∧ applyMoves b0 l = some bw ∧ bw.is_won = true ∧
        k < l.length ∧ l.length ≤ k + fuel := by
  intro fuel
  induction fuel with
  | zero =>
    intro k F V seq _ _ hrun
    exact absurd hrun (by simp [solveLoop])
  | succ fuel ih =>
    intro k F V seq hsound hk hrun
    have hstep : solveLoop F V (fuel + 1) =
        if F.isEmpty then none
        else match ((F.flatMap expandStep).filter fun step =>
            !V.contains step.board && !step.board.is_lost).find?
            (fun step => step.board.is_won) with
          | some sol => some sol.seq
          | none => solveLoop ((F.flatMap expandStep).filter fun step =>
              !V.contains step.board && !step.board.is_lost)
              (V ++ F.map SolveStep.board) fuel := rfl
    rw [hstep] at hrun
    by_cases hF : F.isEmpty = true
    · rw [if_pos hF] at hrun
      exact absurd hrun (by simp)
    · rw [if_neg hF] at hrun
      have hnext : ∀ s' ∈ (F.flatMap expandStep).filter
          (fun step => !V.contains step.board && !step.board.is_lost),
          StepSoundAt b0 (k + 1) s' := by
        intro s' hs'
        have hs2 := (List.mem_filter.mp hs').1
        obtain ⟨s, hsF, hse⟩ := List.mem_flatMap.mp hs2
        obtain ⟨a, hact, hseq⟩ := expand_member s s' hse
        obtain ⟨l, hlen, happ, hinv⟩ := hsound s hsF
        refine ⟨l ++ [a], by simp [hlen], ?_, ?_⟩
        · rw [applyMoves_append, happ]
          simp [applyMoves, hact]
        · rw [hseq]
          exact SeqInv_addU s.seq a l hinv (by omega)
      cases hfind : ((F.flatMap expandStep).filter fun step =>
          !V.contains step.board && !step.board.is_lost).find?
          (fun step => step.board.is_won) with
      | some sol =>
        rw [hfind] at hrun
        have hseq : seq = sol.seq := by
          have h2 : some sol.seq = some seq := hrun
          simpa using h2.symm
        obtain ⟨l, hlen, happ, hinv⟩ := hnext sol (List.mem_of_find?_eq_some hfind)
        have hwon : sol.board.is_won = true := by
          have h3 := List.find?_some hfind
          simpa using h3
        rw [hseq]
        exact ⟨l, sol.board, hinv, happ, hwon, by omega, by omega⟩
      | none =>
        rw [hfind] at hrun
        obtain ⟨l, bw, hinv, happ, hwon, h1, h2⟩ :=
          ih (k + 1) _ (V ++ F.map SolveStep.board) seq hnext (by omega) hrun
        exact ⟨l, bw, hinv, happ, hwon, by omega, by omega⟩

/-- `solve_board` outputs are real winning move lists within the budget. -/
theorem solve_board_sound (b : Board) (max : Nat) (L : List Action)
    (hmax : max ≤ 29) (hrun : solve_board b max = some L) :
    WinsFrom b L ∧ L.length ≤ max ∧
      (b.is_won = false → 1 ≤ L.length) := by
  unfold solve_board at hrun
  by_cases hw : b.is_won = true
  · rw [if_pos hw] at hrun
    have hL : L = [] := by
      simpa using hrun.symm
    subst hL
    exact ⟨⟨b, rfl, hw⟩, by simp, fun hc => absurd hw (by simp [hc])⟩
  · rw [if_neg hw] at hrun
    obtain ⟨seq, hloop, hL⟩ := Option.map_eq_some'.mp hrun
    have hinit : ∀ s ∈ [(⟨b, .new, none⟩ : SolveStep)], StepSoundAt b 0 s := by
      intro s hs
      have hse : s = ⟨b, .new, none⟩ := by simpa using hs
      subst hse
      exact ⟨[], rfl, rfl, SeqInv_new⟩
    obtain ⟨l, bw, hinv, happ, hwon, h1, h2⟩ :=
      solveLoop_sound b max 0 _ [] seq hinit (by omega) hloop
    have hLl : L = l := by
      rw [← hL]
      exact SeqInv_toList seq l hinv
    subst hLl
    exact ⟨⟨bw, happ, hwon⟩, by omega, fun _ => by omega⟩

/-- The board pattern marks exactly the nonzero in-grid cells. -/
theorem fromBoard_marked (b : Board) (q : Point) (hq : q.inside = true) :
    (MarkBoard.fromBoard b).marked q = true ↔ b.cell q ≠ 0 := by
  rw [marked_testBit]
  show ((Point.iter_all.map fun p =>
      (if b.cell p ≠ 0 then 1 else 0) <<< p.index).foldl (· ||| ·) 0).testBit q.index
      = true ↔ _
  rw [testBit_foldl_or]
  simp only [Nat.zero_testBit, Bool.false_or]
  rw [List.any_eq_true]
  constructor
  · rintro ⟨x, hx, hb⟩
    obtain ⟨p, hp, hpe⟩ := List.mem_map.mp hx
    subst hpe
    by_cases hc : b.cell p ≠ 0
    · rw [if_pos hc, Nat.testBit_shiftLeft] at hb
      have h1 := (Bool.and_eq_true _ _).mp hb
      have hle : p.index ≤ q.index := of_decide_eq_true h1.1
      have hbit : Nat.testBit 1 (q.index - p.index) = true := h1.2
      have hz : q.index - p.index = 0 := by
        by_contra hcc
        rw [Nat.testBit_to_div_mod] at hbit
        have hpow : (1 : Nat) < 2 ^ (q.index - p.index) := by
          calc (1 : Nat) = 2 ^ 0 := rfl
          _ < 2 ^ (q.index - p.index) := Nat.pow_lt_pow_right (by norm_num) (by omega)
        rw [Nat.div_eq_of_lt hpow] at hbit
        simp at hbit
      have hpq : p = q := point_index_inj p q (by omega)
      rw [← hpq]
      exact hc
    · rw [if_neg hc, Nat.zero_shiftLeft] at hb
      simp at hb
  · intro h
    refine ⟨(if b.cell q ≠ 0 then 1 else 0) <<< q.index,
      List.mem_map.mpr ⟨q, (Point.inside_iff_mem_iter_all q).mp hq, rfl⟩, ?_⟩
    rw [if_pos h, Nat.testBit_shiftLeft, Nat.sub_self]
    simp

/-- Board patterns are 16-bit words. -/
theorem fromBoard_lt (b : Board) : (MarkBoard.fromBoard b).val < 2 ^ 16 := by
  show (Point.iter_all.map fun p =>
      (if b.cell p ≠ 0 then 1 else 0) <<< p.index).foldl (· ||| ·) 0 < 2 ^ 16
  refine foldl_or_lt _ 0 (by norm_num) ?_
  intro x hx
  obtain ⟨p, hp, he⟩ := List.mem_map.mp hx
  subst he
  have hidx : p.index < 16 := by
    have hin := (Point.inside_iff_mem_iter_all p).mpr hp
    simpa [Point.inside, Point.index, N] using hin
  rw [Nat.shiftLeft_eq]
  have hb : (if b.cell p ≠ 0 then (1 : Nat) else 0) ≤ 1 := by
    split <;> norm_num
  calc (if b.cell p ≠ 0 then (1 : Nat) else 0) * 2 ^ p.index
      ≤ 1 * 2 ^ p.index := Nat.mul_le_mul_right _ hb
    _ = 2 ^ p.index := by ring
    _ < 2 ^ 16 := Nat.pow_lt_pow_right (by norm_num) hidx

/-- The board pattern ignores the player position. -/
theorem fromBoard_pos_irrel (p q : Point) (c : Nat) :
    MarkBoard.fromBoard ⟨p, c⟩ = MarkBoard.fromBoard ⟨q, c⟩ := rfl

/-- A move from a zero cell only moves the player. -/
theorem action_from_zero (b : Board) (a : Action) (hz : b.cell b.pos = 0)
    (hin : (b.pos.add a).inside = true) :
    b.action a = some ⟨b.pos.add a, b.cells⟩ := by
  show (if (b.pos.add a).inside then
      some (Board.apply_action ⟨b.pos.add a, b.cells⟩ b.pos a).1 else none) =
    some ⟨b.pos.add a, b.cells⟩
  rw [if_pos hin]
  have hz2 : Board.cell ⟨b.pos.add a, b.cells⟩ b.pos = 0 := hz
  simp [Board.apply_action, hz2]

/-- The updated board of `apply_action` keeps the input position. -/
theorem apply_action_pos (b : Board) (p : Point) (a : Action) :
    (Board.apply_action b p a).1.pos = b.pos := by
  show (if b.cell p > 0 then
      (if (walkLoop (b.cell p) a 16 (b.cells, 0) (p.add a)).2 > 0 then
        ((⟨b.pos, setCellOf (walkLoop (b.cell p) a 16 (b.cells, 0) (p.add a)).1 p 0⟩ : Board),
          (walkLoop (b.cell p) a 16 (b.cells, 0) (p.add a)).2 + 1)
      else ((⟨b.pos, (walkLoop (b.cell p) a 16 (b.cells, 0) (p.add a)).1⟩ : Board),
        (walkLoop (b.cell p) a 16 (b.cells, 0) (p.add a)).2))
    else (b, 0)).1.pos = b.pos
  split
  · split <;> rfl
  · rfl

/-- A successful move targets an in-grid cell and lands the player there. -/
theorem action_pos (b : Board) (a : Action) (b' : Board) (h : b.action a = some b') :
    (b.pos.add a).inside = true ∧ b'.pos = b.pos.add a := by
  rw [show b.action a = (if (b.pos.add a).inside then
      some (Board.apply_action ⟨b.pos.add a, b.cells⟩ b.pos a).1 else none) from rfl] at h
  split at h
  · rename_i hin
    have hb' : b' = (Board.apply_action ⟨b.pos.add a, b.cells⟩ b.pos a).1 := by
      simpa using h.symm
    refine ⟨hin, ?_⟩
    rw [hb', apply_action_pos]
  · exact absurd h (by simp)

/-- `at_zero` reads the player's cell. -/
theorem at_zero_iff (b : Board) : b.at_zero = true ↔ b.cell b.pos = 0 := by
  unfold Board.at_zero
  simp

/-- Executing a zero-walk of the board's own pattern from the player's cell
lands the player on the end with the cells untouched. -/
theorem zeroWalk_apply (cells : Nat) (endp : Point) (hend : endp.inside = true) :
    ∀ (l : List Action) (pos : Point),
      isZeroWalk (MarkBoard.fromBoard ⟨endp, cells⟩) endp pos l →
      applyMoves ⟨pos, cells⟩ l = some ⟨endp, cells⟩ := by
  intro l
  induction l with
  | nil =>
    intro pos hw
    exact absurd hw (by simp [isZeroWalk])
  | cons a rest ih =>
    intro pos hw
    obtain ⟨hposin, hmk, hsplit⟩ := (zeroWalk_cons _ _ _ _ _).mp hw
    have hz : Board.cell ⟨pos, cells⟩ pos = 0 := by
      by_contra hc
      have hm := (fromBoard_marked ⟨pos, cells⟩ pos hposin).mpr hc
      rw [fromBoard_pos_irrel pos endp cells] at hm
      rw [hmk] at hm
      exact absurd hm (by simp)
    rcases hsplit with ⟨hnil, harr⟩ | ⟨hne, hrest⟩
    · subst hnil
      have hin : (pos.add a).inside = true := by
        rw [harr]
        exact hend
      show ((⟨pos, cells⟩ : Board).action a).bind (fun b2 => applyMoves b2 []) = _
      rw [action_from_zero ⟨pos, cells⟩ a hz hin]
      show applyMoves ⟨pos.add a, cells⟩ [] = some ⟨endp, cells⟩
      rw [harr]
      rfl
    · have hin : (pos.add a).inside = true := (zeroWalk_head _ _ _ _ hrest).1
      show ((⟨pos, cells⟩ : Board).action a).bind (fun b2 => applyMoves b2 rest) = _
      rw [action_from_zero ⟨pos, cells⟩ a hz hin]
      exact ih (pos.add a) hrest

/-- The diff rule keeps results in the `u8` range. -/
theorem cell_num_diff_lt (n o : Nat) (hn : n < 256) (ho : o < 256) :
    cell_num_diff n o < 256 := by
  unfold cell_num_diff
  split
  · norm_num
  · show (if n ⊔ o > n ⊓ o + 1 then n ⊔ o - n ⊓ o else (n ⊔ o + n ⊓ o) % 256) < 256
    split
    · omega
    · omega

/-- Writing one cell changes exactly that byte. -/
theorem cellOf_setCellOf (cells : Nat) (p q : Point) (v : Nat) (hv : v < 256) :
    cellOf (setCellOf cells p v) q = if q.index = p.index then v else cellOf cells q := by
  have hd8 : cellOf cells p ^^^ v < 2 ^ 8 := by
    have h1 := cellOf_lt cells p
    exact Nat.xor_lt_two_pow (by omega) (by omega)
  by_cases hqp : q.index = p.index
  · rw [if_pos hqp]
    show extract (cells ^^^ ((cellOf cells p ^^^ v) <<< (p.index * 8))) (q.index * 8) 8 = v
    rw [hqp, extract_xor, extract_shiftLeft_ge _ _ _ _ (le_refl _), Nat.sub_self,
      extract_zero_lo, Nat.mod_eq_of_lt hd8,
      show extract cells (p.index * 8) 8 = cellOf cells p from (cellOf_eq_extract cells p).symm,
      ← Nat.xor_assoc, Nat.xor_self, Nat.zero_xor]
  · rw [if_neg hqp]
    show extract (cells ^^^ ((cellOf cells p ^^^ v) <<< (p.index * 8))) (q.index * 8) 8 =
      cellOf cells q
    rw [extract_xor]
    rcases Nat.lt_or_ge q.index p.index with hlt | hge
    · rw [extract_shiftLeft_low _ _ _ _ (by omega), Nat.xor_zero, ← cellOf_eq_extract]
    · have hgt : p.index < q.index := by omega
      rw [extract_shiftLeft_ge _ _ _ _ (by omega), extract_of_lt _ 8 hd8 (by omega),
        Nat.xor_zero, ← cellOf_eq_extract]

/-- The ray walk never revives a zero cell. -/
theorem walkLoop_zero (origin : Nat) (a : Action) (ho : origin < 256) :
    ∀ (fuel cells clears : Nat) (pos q : Point), cellOf cells q = 0 →
      cellOf (walkLoop origin a fuel (cells, clears) pos).1 q = 0 := by
  intro fuel
  induction fuel with
  | zero =>
    intro cells clears pos q hq
    exact hq
  | succ fuel ih =>
    intro cells clears pos q hq
    rw [show walkLoop origin a (fuel + 1) (cells, clears) pos =
      if pos.inside then walkLoop origin a fuel
        (if cellOf cells pos > 0 then
          (setCellOf cells pos (cell_num_diff (cellOf cells pos) origin),
            clears + (if cell_num_diff (cellOf cells pos) origin = 0 then 1 else 0))
        else (cells, clears)) (pos.add a)
      else (cells, clears) from rfl]
    by_cases hin : pos.inside = true
    · rw [if_pos hin]
      by_cases hv : cellOf cells pos > 0
      · rw [if_pos hv]
        apply ih
        have hne : ¬(q.index = pos.index) := by
          intro hc
          have hqe : q = pos := point_index_inj q pos hc
          rw [hqe] at hq
          omega
        rw [cellOf_setCellOf _ _ _ _ (cell_num_diff_lt _ _ (cellOf_lt _ _) ho), if_neg hne]
        exact hq
      · rw [if_neg hv]
        exact ih cells clears (pos.add a) q hq
    · rw [if_neg hin]
      exact hq

/-- The ray walk does not touch cells off its own line. -/
theorem walkLoop_off_line (origin : Nat) (a : Action) (ho : origin < 256)
    (f : Point → Nat) (r : Nat)
    (hline : ∀ s : Point, s.inside = true → (s.add a).inside = true → f (s.add a) = f s) :
    ∀ (fuel cells clears : Nat) (pos q : Point),
      (pos.inside = true → f pos = r) → f q ≠ r →
      cellOf (walkLoop origin a fuel (cells, clears) pos).1 q = cellOf cells q := by
  intro fuel
  induction fuel with
  | zero =>
    intro cells clears pos q _ _
    rfl
  | succ fuel ih =>
    intro cells clears pos q hposr hq
    rw [show walkLoop origin a (fuel + 1) (cells, clears) pos =
      if pos.inside then walkLoop origin a fuel
        (if cellOf cells pos > 0 then
          (setCellOf cells pos (cell_num_diff (cellOf cells pos) origin),
            clears + (if cell_num_diff (cellOf cells pos) origin = 0 then 1 else 0))
        else (cells, clears)) (pos.add a)
      else (cells, clears) from rfl]
    by_cases hin : pos.inside = true
    · rw [if_pos hin]
      have hr : f pos = r := hposr hin
      have hnext : (pos.add a).inside = true → f (pos.add a) = r := by
        intro h2
        rw [hline pos hin h2]
        exact hr
      by_cases hv : cellOf cells pos > 0
      · rw [if_pos hv]
        have hne2 : ¬(q.index = pos.index) := by
          intro hc
          have hqe : q = pos := point_index_inj q pos hc
          rw [hqe, hr] at hq
          exact hq rfl
        rw [ih _ _ (pos.add a) q hnext hq,
          cellOf_setCellOf _ _ _ _ (cell_num_diff_lt _ _ (cellOf_lt _ _) ho), if_neg hne2]
      · rw [if_neg hv]
        exact ih _ _ (pos.add a) q hnext hq
    · rw [if_neg hin]

/-- A ray walk through a region of zero cells is a no-op. -/
theorem walkLoop_inv_zero (origin : Nat) (a : Action) (P : Point → Prop)
    (hstep : ∀ s : Point, s.inside = true → P s → (s.add a).inside = true → P (s.add a)) :
    ∀ (fuel cells clears : Nat) (pos : Point),
      (pos.inside = true → P pos) →
      (∀ q : Point, q.inside = true → P q → cellOf cells q = 0) →
      walkLoop origin a fuel (cells, clears) pos = (cells, clears) := by
  intro fuel
  induction fuel with
  | zero =>
    intro cells clears pos _ _
    rfl
  | succ fuel ih =>
    intro cells clears pos hP hzero
    rw [show walkLoop origin a (fuel + 1) (cells, clears) pos =
      if pos.inside then walkLoop origin a fuel
        (if cellOf cells pos > 0 then
          (setCellOf cells pos (cell_num_diff (cellOf cells pos) origin),
            clears + (if cell_num_diff (cellOf cells pos) origin = 0 then 1 else 0))
        else (cells, clears)) (pos.add a)
      else (cells, clears) from rfl]
    by_cases hin : pos.inside = true
    · rw [if_pos hin]
      have hz : cellOf cells pos = 0 := hzero pos hin (hP hin)
      rw [if_neg (by omega)]
      exact ih cells clears (pos.add a)
        (fun h2 => hstep pos hin (hP hin) h2) hzero
    · rw [if_neg hin]

/-- Decidable core: each move keeps one grid coordinate and strictly moves
the other. -/
theorem add_line_core :
    ∀ q ∈ Point.iter_all,
      ((q.add Action.LEFT).inside = true →
        (q.add Action.LEFT).row = q.row ∧ (q.add Action.LEFT).column < q.column) ∧
      ((q.add Action.RIGHT).inside = true →
        (q.add Action.RIGHT).row = q.row ∧ q.column < (q.add Action.RIGHT).column) ∧
      ((q.add Action.UP).inside = true →
        (q.add Action.UP).column = q.column ∧ (q.add Action.UP).row < q.row) ∧
      ((q.add Action.DOWN).inside = true →
        (q.add Action.DOWN).column = q.column ∧ q.row < (q.add Action.DOWN).row) := by
  decide

/-- Inversion of a successful move into the `apply_action` result. -/
theorem action_some_eq (b : Board) (a : Action) (b' : Board) (h : b.action a = some b') :
    (b.pos.add a).inside = true ∧
      b' = (Board.apply_action ⟨b.pos.add a, b.cells⟩ b.pos a).1 := by
  rw [show b.action a = (if (b.pos.add a).inside then
      some (Board.apply_action ⟨b.pos.add a, b.cells⟩ b.pos a).1 else none) from rfl] at h
  split at h
  · rename_i hin
    exact ⟨hin, by simpa using h.symm⟩
  · exact absurd h (by simp)

/-- Unfolding of the effect part of a move. -/
theorem apply_action_eq (pos o : Point) (cells : Nat) (a : Action) :
    Board.apply_action ⟨pos, cells⟩ o a =
      if cellOf cells o > 0 then
        (if (walkLoop (cellOf cells o) a 16 (cells, 0) (o.add a)).2 > 0 then
          ((⟨pos, setCellOf (walkLoop (cellOf cells o) a 16 (cells, 0) (o.add a)).1 o 0⟩ :
              Board),
            (walkLoop (cellOf cells o) a 16 (cells, 0) (o.add a)).2 + 1)
        else ((⟨pos, (walkLoop (cellOf cells o) a 16 (cells, 0) (o.add a)).1⟩ : Board),
          (walkLoop (cellOf cells o) a 16 (cells, 0) (o.add a)).2))
      else (⟨pos, cells⟩, 0) := rfl

/-- A dead cell stays dead through any move. -/
theorem action_dead (b : Board) (p : Point) (a : Action) (b' : Board)
    (hp : p.inside = true) (hopos : b.pos.inside = true)
    (hdead : b.dead_cell p = true) (h : b.action a = some b') :
    b'.dead_cell p = true := by
  obtain ⟨hin, hb'⟩ := action_some_eq b a b' h
  obtain ⟨hcz, hrow, hcol⟩ := (dead_cell_iff b p hp).mp hdead
  by_cases ho : b.cell b.pos = 0
  · have hfz := action_from_zero b a ho hin
    rw [h] at hfz
    have hbe : b' = ⟨b.pos.add a, b.cells⟩ := by
      have h2 : some b' = some (⟨b.pos.add a, b.cells⟩ : Board) := hfz
      simpa using h2
    rw [hbe, dead_cell_iff _ p hp]
    exact ⟨hcz, hrow, hcol⟩
  · have hov : cellOf b.cells b.pos > 0 := Nat.pos_of_ne_zero ho
    have holt : cellOf b.cells b.pos < 256 := cellOf_lt _ _
    have hmz : ∀ q : Point, q.inside = true → (q.row = p.row ∨ q.column = p.column) →
        q ≠ p →
        cellOf (walkLoop (cellOf b.cells b.pos) a 16 (b.cells, 0) (b.pos.add a)).1 q = 0 := by
      intro q hq hline hqp
      apply walkLoop_zero _ a holt
      rcases hline with h1 | h1
      · exact hrow q hq h1 hqp
      · exact hcol q hq h1 hqp
    by_cases hop : b.pos = p
    · have hW : walkLoop (cellOf b.cells b.pos) a 16 (b.cells, 0) (b.pos.add a) =
          (b.cells, 0) := by
        rw [hop]
        cases a with
        | RIGHT =>
          refine walkLoop_inv_zero _ _ (fun q => q.row = p.row ∧ p.column < q.column)
            (fun s hs hPs h2 => ?_) 16 b.cells 0 (p.add .RIGHT) (fun h2 => ?_)
            (fun q hq hPq => ?_)
          · have hc := (add_line_core s ((Point.inside_iff_mem_iter_all s).mp hs)).2.1 h2
            exact ⟨by rw [hc.1]; exact hPs.1, lt_trans hPs.2 hc.2⟩
          · exact (add_line_core p ((Point.inside_iff_mem_iter_all p).mp hp)).2.1 h2
          · refine hrow q hq hPq.1 (fun hc => ?_)
            rw [hc] at hPq
            omega
        | LEFT =>
          refine walkLoop_inv_zero _ _ (fun q => q.row = p.row ∧ q.column < p.column)
            (fun s hs hPs h2 => ?_) 16 b.cells 0 (p.add .LEFT) (fun h2 => ?_)
            (fun q hq hPq => ?_)
          · have hc := (add_line_core s ((Point.inside_iff_mem_iter_all s).mp hs)).1 h2
            exact ⟨by rw [hc.1]; exact hPs.1, lt_trans hc.2 hPs.2⟩
          · exact (add_line_core p ((Point.inside_iff_mem_iter_all p).mp hp)).1 h2
          · refine hrow q hq hPq.1 (fun hc => ?_)
            rw [hc] at hPq
            omega
        | UP =>
          refine walkLoop_inv_zero _ _ (fun q => q.column = p.column ∧ q.row < p.row)
            (fun s hs hPs h2 => ?_) 16 b.cells 0 (p.add .UP) (fun h2 => ?_)
            (fun q hq hPq => ?_)
          · have hc := (add_line_core s ((Point.inside_iff_mem_iter_all s).mp hs)).2.2.1 h2
            exact ⟨by rw [hc.1]; exact hPs.1, lt_trans hc.2 hPs.2⟩
          · exact (add_line_core p ((Point.inside_iff_mem_iter_all p).mp hp)).2.2.1 h2
          · refine hcol q hq hPq.1 (fun hc => ?_)
            rw [hc] at hPq
            omega
        | DOWN =>
          refine walkLoop_inv_zero _ _ (fun q => q.column = p.column ∧ p.row < q.row)
            (fun s hs hPs h2 => ?_) 16 b.cells 0 (p.add .DOWN) (fun h2 => ?_)
            (fun q hq hPq => ?_)
          · have hc := (add_line_core s ((Point.inside_iff_mem_iter_all s).mp hs)).2.2.2 h2
            exact ⟨by rw [hc.1]; exact hPs.1, lt_trans hPs.2 hc.2⟩
          · exact (add_line_core p ((Point.inside_iff_mem_iter_all p).mp hp)).2.2.2 h2
          · refine hcol q hq hPq.1 (fun hc => ?_)
            rw [hc] at hPq
            omega
      rw [hb', apply_action_eq, if_pos hov, hW]
      rw [if_neg (by simp)]
      show (⟨b.pos.add a, b.cells⟩ : Board).dead_cell p = true
      rw [dead_cell_iff _ p hp]
      exact ⟨hcz, hrow, hcol⟩
    · have hone : p.index ≠ b.pos.index := fun hc => hop (point_index_inj _ _ hc).symm
      have hkeep : cellOf
          (walkLoop (cellOf b.cells b.pos) a 16 (b.cells, 0) (b.pos.add a)).1 p =
          cellOf b.cells p := by
        have hbmem := (Point.inside_iff_mem_iter_all b.pos).mp hopos
        cases a with
        | RIGHT =>
          by_cases hrr : b.pos.row = p.row
          · exact absurd (hrow b.pos hopos hrr hop) (Nat.pos_iff_ne_zero.mp hov)
          · refine walkLoop_off_line _ _ holt Point.row b.pos.row (fun s hs h2 =>
              ((add_line_core s ((Point.inside_iff_mem_iter_all s).mp hs)).2.1 h2).1)
              16 b.cells 0 (b.pos.add .RIGHT) p
              (fun h2 => ((add_line_core b.pos hbmem).2.1 h2).1) (fun hc => hrr hc.symm)
        | LEFT =>
          by_cases hrr : b.pos.row = p.row
          · exact absurd (hrow b.pos hopos hrr hop) (Nat.pos_iff_ne_zero.mp hov)
          · refine walkLoop_off_line _ _ holt Point.row b.pos.row (fun s hs h2 =>
              ((add_line_core s ((Point.inside_iff_mem_iter_all s).mp hs)).1 h2).1)
              16 b.cells 0 (b.pos.add .LEFT) p
              (fun h2 => ((add_line_core b.pos hbmem).1 h2).1) (fun hc => hrr hc.symm)
        | UP =>
          by_cases hrr : b.pos.column = p.column
          · exact absurd (hcol b.pos hopos hrr hop) (Nat.pos_iff_ne_zero.mp hov)
          · refine walkLoop_off_line _ _ holt Point.column b.pos.column (fun s hs h2 =>
              ((add_line_core s ((Point.inside_iff_mem_iter_all s).mp hs)).2.2.1 h2).1)
              16 b.cells 0 (b.pos.add .UP) p
              (fun h2 => ((add_line_core b.pos hbmem).2.2.1 h2).1) (fun hc => hrr hc.symm)
        | DOWN =>
          by_cases hrr : b.pos.column = p.column
          · exact absurd (hcol b.pos hopos hrr hop) (Nat.pos_iff_ne_zero.mp hov)
          · refine walkLoop_off_line _ _ holt Point.column b.pos.column (fun s hs h2 =>
              ((add_line_core s ((Point.inside_iff_mem_iter_all s).mp hs)).2.2.2 h2).1)
              16 b.cells 0 (b.pos.add .DOWN) p
              (fun h2 => ((add_line_core b.pos hbmem).2.2.2 h2).1) (fun hc => hrr hc.symm)
      rw [hb', apply_action_eq, if_pos hov]
      split
      · rw [dead_cell_iff _ p hp]
        refine ⟨?_, ?_, ?_⟩
        · show cellOf (setCellOf
            (walkLoop (cellOf b.cells b.pos) a 16 (b.cells, 0) (b.pos.add a)).1 b.pos 0) p ≠ 0
          rw [cellOf_setCellOf _ _ _ _ (by norm_num), if_neg hone, hkeep]
          exact hcz
        · intro q hq hqrow hqp
          show cellOf (setCellOf
            (walkLoop (cellOf b.cells b.pos) a 16 (b.cells, 0) (b.pos.add a)).1 b.pos 0) q = 0
          rw [cellOf_setCellOf _ _ _ _ (by norm_num)]
          by_cases hqi : q.index = b.pos.index
          · rw [if_pos hqi]
          · rw [if_neg hqi]
            exact hmz q hq (Or.inl hqrow) hqp
        · intro q hq hqcol hqp
          show cellOf (setCellOf
            (walkLoop (cellOf b.cells b.pos) a 16 (b.cells, 0) (b.pos.add a)).1 b.pos 0) q = 0
          rw [cellOf_setCellOf _ _ _ _ (by norm_num)]
          by_cases hqi : q.index = b.pos.index
          · rw [if_pos hqi]
          · rw [if_neg hqi]
            exact hmz q hq (Or.inr hqcol) hqp
      · rw [dead_cell_iff _ p hp]
        refine ⟨?_, ?_, ?_⟩
        · show cellOf
            (walkLoop (cellOf b.cells b.pos) a 16 (b.cells, 0) (b.pos.add a)).1 p ≠ 0
          rw [hkeep]
          exact hcz
        · intro q hq hqrow hqp
          exact hmz q hq (Or.inl hqrow) hqp
        · intro q hq hqcol hqp
          exact hmz q hq (Or.inr hqcol) hqp

/-- From a board with a dead cell no move list wins. -/
theorem dead_no_win (p : Point) (hp : p.inside = true) :
    ∀ (l : List Action) (b : Board), b.pos.inside = true → b.dead_cell p = true →
      ¬WinsFrom b l := by
  intro l
  induction l with
  | nil =>
    intro b hpos hdead hwin
    obtain ⟨bw, happ, hwon⟩ := hwin
    have hbe : b = bw := by simpa [applyMoves] using happ
    obtain ⟨hcz, _, _⟩ := (dead_cell_iff b p hp).mp hdead
    have hc0 : bw.cells = 0 := by simpa [Board.is_won] using hwon
    apply hcz
    rw [hbe]
    show cellOf bw.cells p = 0
    rw [hc0]
    simp [cellOf]
  | cons a t ih =>
    intro b hpos hdead hwin
    obtain ⟨bw, happ, hwon⟩ := hwin
    obtain ⟨b1, hact, happ3⟩ := Option.bind_eq_some.mp happ
    have hpos1 : b1.pos.inside = true := by
      obtain ⟨hin2, hbp⟩ := action_pos b a b1 hact
      rw [hbp]
      exact hin2
    exact ih b1 hpos1 (action_dead b p a b1 hp hpos hdead hact) ⟨bw, happ3, hwon⟩

/-- Lost boards never win. -/
theorem lost_no_win (b : Board) (hpos : b.pos.inside = true) (hlost : b.is_lost = true)
    (l : List Action) : ¬WinsFrom b l := by
  obtain ⟨p, hp, hdead⟩ := (is_lost_iff b).mp hlost
  exact dead_no_win p hp l b hpos hdead

/-- Every key of the `ACTION_BOARDS` fold carries the table built for it. -/
theorem cacheFold_tables (n : Nat) :
    ∀ (k : MarkBoard) (v : List (Point × ActionBoard)),
      (k, v) ∈ keysOf ((List.range n).foldl cacheStep ([], [])) → v = buildABM k := by
  induction n with
  | zero =>
    intro k v hpr
    exact absurd hpr (by simp [keysOf])
  | succ n ih =>
    have hsucc : (List.range (n + 1)).foldl cacheStep ([], []) =
        cacheStep ((List.range n).foldl cacheStep ([], [])) n := by
      rw [List.range_succ, List.foldl_append, List.foldl_cons, List.foldl_nil]
    rw [hsucc]
    set st := (List.range n).foldl cacheStep ([], []) with hst
    by_cases hseen : (⟨n⟩ : MarkBoard) ∈ st.2
    · have hcs : cacheStep st n = st := by
        show (if (⟨n⟩ : MarkBoard) ∈ st.2 then st
          else (st.1 ++ [((⟨n⟩ : MarkBoard), buildABM ⟨n⟩)],
            (st.2 ++ [(⟨n⟩ : MarkBoard)]) ++ allSyms.map fun sym =>
              (⟨n⟩ : MarkBoard).symmetryM sym)) = st
        rw [if_pos hseen]
      rw [hcs]
      exact ih
    · have hcs : cacheStep st n = (st.1 ++ [((⟨n⟩ : MarkBoard), buildABM ⟨n⟩)],
          (st.2 ++ [(⟨n⟩ : MarkBoard)]) ++ allSyms.map fun sym =>
            (⟨n⟩ : MarkBoard).symmetryM sym) := by
        show (if (⟨n⟩ : MarkBoard) ∈ st.2 then st
          else (st.1 ++ [((⟨n⟩ : MarkBoard), buildABM ⟨n⟩)],
            (st.2 ++ [(⟨n⟩ : MarkBoard)]) ++ allSyms.map fun sym =>
              (⟨n⟩ : MarkBoard).symmetryM sym)) = _
        rw [if_neg hseen]
      rw [hcs, keysOf_pair]
      intro k v hpr
      rcases List.mem_append.mp hpr with h | h
      · exact ih k v h
      · have hpe : (k, v) = ((⟨n⟩ : MarkBoard), buildABM ⟨n⟩) := by simpa using h
        have hk : k = ⟨n⟩ := congrArg Prod.fst hpe
        have hv : v = buildABM (⟨n⟩ : MarkBoard) := congrArg Prod.snd hpe
        rw [hv, hk]

/-- A successful association-list lookup returns a present pair. -/
theorem lookup_mem_assoc (l : List (MarkBoard × List (Point × ActionBoard)))
    (k : MarkBoard) (v : List (Point × ActionBoard)) (h : l.lookup k = some v) :
    (k, v) ∈ l := by
  induction l with
  | nil => exact absurd h (by simp [List.lookup])
  | cons hd t ih =>
    obtain ⟨k1, v1⟩ := hd
    rw [List.lookup] at h
    by_cases hk : k = k1
    · subst hk
      simp only [beq_self_eq_true] at h
      have hv : v1 = v := by simpa using h
      rw [← hv]
      exact List.mem_cons_self _ _
    · have hbe : (k == k1) = false := beq_eq_false_iff_ne.mpr hk
      simp only [hbe] at h
      exact List.mem_cons_of_mem _ (ih h)

/-- Lookup over a self-keyed map list reads off the mapped value. -/
theorem lookup_map_self (f : Point → ActionBoard) :
    ∀ (l : List Point) (k : Point),
      (l.map fun e => (e, f e)).lookup k = if k ∈ l then some (f k) else none := by
  intro l
  induction l with
  | nil =>
    intro k
    simp [List.lookup]
  | cons e t ih =>
    intro k
    show List.lookup k ((e, f e) :: t.map fun e => (e, f e)) = _
    rw [List.lookup]
    by_cases hk : k = e
    · subst hk
      simp only [beq_self_eq_true]
      rw [if_pos (List.mem_cons_self k t)]
    · have hbe : (k == e) = false := beq_eq_false_iff_ne.mpr hk
      simp only [hbe]
      rw [ih k]
      by_cases hm : k ∈ t
      · rw [if_pos hm, if_pos (List.mem_cons_of_mem e hm)]
      · rw [if_neg hm, if_neg (fun hc => (List.mem_cons.mp hc).elim hk hm)]

/-- Lookup in a built per-pattern table: defined exactly on the eligible
ends, yielding the shortcut board of the end. -/
theorem buildABM_lookup (c : MarkBoard) (k : Point) :
    (buildABM c).lookup k =
      if k ∈ validEnds c then some (ActionBoard.fromM c k) else none := by
  unfold buildABM
  exact lookup_map_self (fun e => ActionBoard.fromM c e) (validEnds c) k

/-- The cache lookup of the canonical image returns the table built for it. -/
theorem cacheLookup (m : MarkBoard) (hm : m.val < 2 ^ 16) (hne : m.val ≠ 65535) :
    actionBoardsList.lookup (canonicalPair m).2 =
      some (buildABM (canonicalPair m).2) := by
  obtain ⟨hkey, hsome⟩ := canonical_key_present m hm hne
  cases hlk : actionBoardsList.lookup (canonicalPair m).2 with
  | none =>
    rw [hlk] at hsome
    exact absurd hsome (by simp)
  | some v =>
    have hmem : ((canonicalPair m).2, v) ∈ actionBoardsList :=
      lookup_mem_assoc actionBoardsList _ v hlk
    have hmem2 : ((canonicalPair m).2, v) ∈
        keysOf ((List.range ((1 <<< 16) - 1)).foldl cacheStep ([], [])) := hmem
    have htb2 := cacheFold_tables ((1 <<< 16) - 1) (canonicalPair m).2 v hmem2
    rw [htb2]

/-- The canonical pair is the chosen symmetry together with its image. -/
theorem canonicalPair_shape (m : MarkBoard) :
    ∃ s ∈ allSyms, canonicalPair m = (s, m.symmetryM s) := by
  rcases foldl_min_mem (fun pr : Sym × MarkBoard => pr.2.val)
      (allSyms.map fun sym => (sym, m.symmetryM sym))
      (Sym.mk .Mirror true, m.symmetryM (Sym.mk .Mirror true)) with h | h
  · exact ⟨Sym.mk .Mirror true, id_mem_allSyms, h⟩
  · obtain ⟨s, hs, he⟩ := List.mem_map.mp h
    exact ⟨s, hs, he.symm⟩

/-- Membership in the eligible-ends filter of the cache construction. -/
theorem mem_validEnds (c : MarkBoard) (e : Point) :
    e ∈ validEnds c ↔ e.inside = true ∧ c.marked e = true ∧
      ∃ a : Action, (e.add a).inside = true ∧ c.marked (e.add a) = false := by
  unfold validEnds
  rw [List.mem_filter]
  constructor
  · rintro ⟨hmem, hcond⟩
    rw [Bool.and_eq_true] at hcond
    obtain ⟨hmk, hany⟩ := hcond
    rw [List.any_eq_true] at hany
    obtain ⟨a, _, ha⟩ := hany
    rw [Bool.and_eq_true] at ha
    refine ⟨(Point.inside_iff_mem_iter_all e).mpr hmem, hmk, a, ha.1, ?_⟩
    have hnb := ha.2
    cases hmm : c.marked (e.add a)
    · rfl
    · rw [hmm] at hnb
      exact absurd hnb (by simp)
  · rintro ⟨hin, hmk, a, hain, hamk⟩
    refine ⟨(Point.inside_iff_mem_iter_all e).mp hin, ?_⟩
    rw [Bool.and_eq_true]
    refine ⟨hmk, ?_⟩
    rw [List.any_eq_true]
    refine ⟨a, mem_ACTIONS a, ?_⟩
    rw [Bool.and_eq_true]
    refine ⟨hain, ?_⟩
    rw [hamk]
    rfl

/-- A pattern with an unmarked in-grid cell is proper. -/
theorem ne_full_of_unmarked (m : MarkBoard) (p : Point)
    (hp : p.inside = true) (hmk : m.marked p = false) : m.val ≠ 65535 := by
  intro hfull
  have hidx : p.index < 16 := by
    simpa [Point.inside, Point.index, N] using hp
  rw [marked_testBit, hfull] at hmk
  rw [show (65535 : Nat) = 2 ^ 16 - 1 from by norm_num,
    Nat.testBit_two_pow_sub_one] at hmk
  simp [hidx] at hmk

/-- A zero-walk ends with a step from some unmarked in-grid cell onto the
end. -/
theorem zeroWalk_last (marks : MarkBoard) (endp : Point) :
    ∀ (l : List Action) (p : Point), isZeroWalk marks endp p l →
      ∃ y a, y.inside = true ∧ marks.marked y = false ∧ y.add a = endp := by
  intro l
  induction l with
  | nil =>
    intro p hw
    exact absurd hw (by simp [isZeroWalk])
  | cons a rest ih =>
    intro p hw
    obtain ⟨h1, h2, hsplit⟩ := (zeroWalk_cons _ _ _ _ _).mp hw
    rcases hsplit with ⟨hnil, harr⟩ | ⟨hne, hrest⟩
    · exact ⟨p, a, h1, h2, harr⟩
    · exact ih (p.add a) hrest

/-- Decidable core: an in-grid step maps forward through a symmetry to the
step by the conjugated move. -/
theorem act_conj_core :
    ∀ p ∈ Point.iter_all, ∀ a ∈ ACTIONS, ∀ s ∈ allSyms,
      (p.add a).inside = true →
        (p.symmetry s).add (a.symAct s) = (p.add a).symmetry s := by
  decide

/-- Decidable core: an in-grid step maps back through a symmetry to the
step by the back-conjugated move. -/
theorem rs_add_core :
    ∀ q ∈ Point.iter_all, ∀ a ∈ ACTIONS, ∀ s ∈ allSyms,
      (q.add a).inside = true →
        (q.reverse_symmetry s).add (a.reverse_symmetry s) =
          (q.add a).reverse_symmetry s := by
  decide

/-- Decidable core: `symmetry` undoes `reverse_symmetry` on the grid. -/
theorem rs_symmetry_core :
    ∀ q ∈ Point.iter_all, ∀ s ∈ allSyms, (q.reverse_symmetry s).symmetry s = q := by
  decide

/-- Decidable core: the two move conjugations are mutually inverse. -/
theorem act_roundtrip_core :
    ∀ a ∈ ACTIONS, ∀ s ∈ allSyms,
      (a.symAct s).reverse_symmetry s = a ∧ (a.reverse_symmetry s).symAct s = a := by
  decide

/-- Forward bit transport of `MarkBoard::symmetry`: the image's bit at the
forward-mapped point is the source bit. -/
theorem symmetryM_marked_fwd (m : MarkBoard) (s : Sym) (hs : s ∈ allSyms) (q : Point)
    (hq : q.inside = true) :
    (m.symmetryM s).marked (q.symmetry s) = m.marked q := by
  have hrt := point_symmetry_roundtrip_core q
    ((Point.inside_iff_mem_iter_all q).mp hq) s hs
  rw [symmetryM_marked _ _ _ hrt.1, hrt.2]

/-- A zero-walk transports forward through a symmetry, move by conjugated
move. -/
theorem zeroWalk_symmetry (m : MarkBoard) (s : Sym) (hs : s ∈ allSyms) (endp : Point)
    (hend : endp.inside = true) :
    ∀ (l : List Action) (p : Point), isZeroWalk m endp p l →
      isZeroWalk (m.symmetryM s) (endp.symmetry s) (p.symmetry s)
        (l.map fun a => a.symAct s) := by
  intro l
  induction l with
  | nil =>
    intro p hw
    exact absurd hw (by simp [isZeroWalk])
  | cons a rest ih =>
    intro p hw
    obtain ⟨h1, h2, hsplit⟩ := (zeroWalk_cons _ _ _ _ _).mp hw
    have hpmem := (Point.inside_iff_mem_iter_all p).mp h1
    rcases hsplit with ⟨hnil, harr⟩ | ⟨hne, hrest⟩
    · subst hnil
      refine ⟨?_, ?_, ?_⟩
      · exact (point_symmetry_roundtrip_core p hpmem s hs).1
      · rw [symmetryM_marked_fwd m s hs p h1]
        exact h2
      · have hconj := act_conj_core p hpmem a (mem_ACTIONS a) s hs
          (by rw [harr]; exact hend)
        rw [hconj, harr]
    · have hstep := ih (p.add a) hrest
      have hin2 : (p.add a).inside = true := (zeroWalk_head _ _ _ _ hrest).1
      have hconj := act_conj_core p hpmem a (mem_ACTIONS a) s hs hin2
      refine zeroWalk_prepend _ _ _ _ _ ?_ ?_ ?_
      · exact (point_symmetry_roundtrip_core p hpmem s hs).1
      · rw [symmetryM_marked_fwd m s hs p h1]
        exact h2
      · rw [hconj]
        exact hstep

/-- The end field of a built table is the construction's end. -/
theorem fromM_endp (c : MarkBoard) (e : Point) : (ActionBoard.fromM c e).endp = e := rfl

/-- A canonical `followsTable` walk maps back, move by back-conjugated
move, to a chain of `move_towards` calls on the real board. -/
theorem followsTable_to_MT (cells : Nat) (e : Point) (s : Sym) (hs : s ∈ allSyms)
    (hein : e.inside = true) (m : MarkBoard)
    (hmb : ∀ pos : Point, MarkBoard.fromBoard ⟨pos, cells⟩ = m)
    (habm : m.action_board_map = (s, buildABM (m.symmetryM s)))
    (helig : e.symmetry s ∈ validEnds (m.symmetryM s))
    (he : m.marked e = true) :
    ∀ (w2 : List Action) (q : Point), q.inside = true → m.marked q = false →
      followsTable (ActionBoard.fromM (m.symmetryM s) (e.symmetry s)) (q.symmetry s) w2 →
      isZeroWalk (m.symmetryM s) (e.symmetry s) (q.symmetry s) w2 →
      followsMT e ⟨q, cells⟩ (w2.map fun a => a.reverse_symmetry s) := by
  have hcellz : ∀ q : Point, q.inside = true → m.marked q = false →
      Board.cell ⟨q, cells⟩ q = 0 := by
    intro q hqin hqmk
    by_contra hc
    have h2 := (fromBoard_marked ⟨q, cells⟩ q hqin).mpr hc
    rw [hmb q] at h2
    rw [h2] at hqmk
    exact absurd hqmk (by simp)
  have htow : ∀ q : Point, m.action_towards q e =
      ((ActionBoard.fromM (m.symmetryM s) (e.symmetry s)).action_by_pos
        (q.symmetry s)).map fun action => action.reverse_symmetry s := by
    intro q
    show (((m.action_board_map).2.lookup (e.symmetry (m.action_board_map).1)).bind
        fun b => b.action_by_pos (q.symmetry (m.action_board_map).1)).map
        (fun action => action.reverse_symmetry (m.action_board_map).1) = _
    simp only [habm]
    rw [buildABM_lookup, if_pos helig]
    rfl
  have hmt : ∀ q : Point, q.inside = true → m.marked q = false → ∀ a2 : Action,
      (q.add a2).inside = true → m.action_towards q e = some a2 →
      Board.move_towards ⟨q, cells⟩ e = some (a2, ⟨q.add a2, cells⟩) := by
    intro q hqin hqmk a2 hin2 ha
    show ((MarkBoard.fromBoard ⟨q, cells⟩).action_towards q e).bind
      (fun action => ((⟨q, cells⟩ : Board).action action).map fun board =>
        (action, board)) = _
    rw [hmb q, ha]
    rw [Option.some_bind]
    rw [action_from_zero ⟨q, cells⟩ a2 (hcellz q hqin hqmk) hin2]
    rfl
  intro w2
  induction w2 with
  | nil =>
    intro q _ _ hfol _
    exact absurd hfol (by simp [followsTable])
  | cons a1 rest ih =>
    intro q hqin hqmk hfol hwalk
    have hqmem := (Point.inside_iff_mem_iter_all q).mp hqin
    have hq1in : (q.symmetry s).inside = true :=
      (point_symmetry_roundtrip_core q hqmem s hs).1
    have hq1mem := (Point.inside_iff_mem_iter_all _).mp hq1in
    have hemem := (Point.inside_iff_mem_iter_all e).mp hein
    cases rest with
    | nil =>
      obtain ⟨habp, harr⟩ := hfol
      have harr2 : (q.symmetry s).add a1 = e.symmetry s := harr
      have h1in : ((q.symmetry s).add a1).inside = true := by
        rw [harr2]
        exact (point_symmetry_roundtrip_core e hemem s hs).1
      have hreal : q.add (a1.reverse_symmetry s) = e := by
        have h2 := rs_add_core (q.symmetry s) hq1mem a1 (mem_ACTIONS a1) s hs h1in
        rw [harr2] at h2
        rw [(point_symmetry_roundtrip_core q hqmem s hs).2] at h2
        rw [(point_symmetry_roundtrip_core e hemem s hs).2] at h2
        exact h2
      have hin2 : (q.add (a1.reverse_symmetry s)).inside = true := by
        rw [hreal]
        exact hein
      have htw : m.action_towards q e = some (a1.reverse_symmetry s) := by
        rw [htow q, habp]
        rfl
      have h3 := hmt q hqin hqmk (a1.reverse_symmetry s) hin2 htw
      rw [hreal] at h3
      rw [List.map_cons, List.map_nil]
      exact h3
    | cons a2 rest2 =>
      obtain ⟨habp, hfolrest⟩ := hfol
      obtain ⟨_, _, hsplit⟩ := (zeroWalk_cons _ _ _ _ _).mp hwalk
      rcases hsplit with ⟨hnil, _⟩ | ⟨_, hwalkrest⟩
      · exact absurd hnil (by simp)
      · have h1in : ((q.symmetry s).add a1).inside = true :=
          (zeroWalk_head _ _ _ _ hwalkrest).1
        have h1mk : (m.symmetryM s).marked ((q.symmetry s).add a1) = false :=
          (zeroWalk_head _ _ _ _ hwalkrest).2
        have h2 := rs_add_core (q.symmetry s) hq1mem a1 (mem_ACTIONS a1) s hs h1in
        rw [(point_symmetry_roundtrip_core q hqmem s hs).2] at h2
        have hq2in : (q.add (a1.reverse_symmetry s)).inside = true := by
          rw [h2]
          exact reverse_symmetry_inside_core _
            ((Point.inside_iff_mem_iter_all _).mp h1in) s hs
        have hq2mk : m.marked (q.add (a1.reverse_symmetry s)) = false := by
          rw [h2, ← symmetryM_marked m s _ h1in]
          exact h1mk
        have hq2sym : (q.add (a1.reverse_symmetry s)).symmetry s =
            (q.symmetry s).add a1 := by
          rw [h2]
          exact rs_symmetry_core _ ((Point.inside_iff_mem_iter_all _).mp h1in) s hs
        have htw : m.action_towards q e = some (a1.reverse_symmetry s) := by
          rw [htow q, habp]
          rfl
        have h3 := hmt q hqin hqmk (a1.reverse_symmetry s) hq2in htw
        have hnee : q.add (a1.reverse_symmetry s) ≠ e := by
          intro hc
          rw [hc] at hq2mk
          rw [he] at hq2mk
          exact absurd hq2mk (by simp)
        have hpt : ((q.add (a1.reverse_symmetry s)) == e) = false :=
          beq_eq_false_iff_ne.mpr hnee
        have hzr : (⟨q.add (a1.reverse_symmetry s), cells⟩ : Board).at_zero = true := by
          rw [at_zero_iff]
          exact hcellz _ hq2in hq2mk
        rw [← hq2sym] at hfolrest hwalkrest
        have hrec := ih (q.add (a1.reverse_symmetry s)) hq2in hq2mk hfolrest hwalkrest
        rw [List.map_cons]
        exact ⟨h3, hpt, hzr, hrec⟩

/-- From the player's zero cell, every zero-walk to a marked end certifies
the end as a solver branch and yields a table-dictated `move_towards` chain
at most as long. -/
theorem table_path_exists (b : Board) (m : MarkBoard)
    (hmdef : MarkBoard.fromBoard b = m) (e : Point) (z : List Action)
    (hz : isZeroWalk m e b.pos z) (he : m.marked e = true) (hein : e.inside = true) :
    e ∈ b.zero_walk_endings ∧ ∃ w, w.length ≤ z.length ∧ followsMT e b w := by
  have hm16 : m.val < 2 ^ 16 := by
    rw [← hmdef]
    exact fromBoard_lt b
  have hph := zeroWalk_head m e b.pos z hz
  have hpos : b.pos.inside = true := hph.1
  have hnef : m.val ≠ 65535 := ne_full_of_unmarked m b.pos hpos hph.2
  obtain ⟨s, hs, hcp⟩ := canonicalPair_shape m
  have hcp1 : (canonicalPair m).1 = s := congrArg Prod.fst hcp
  have hcp2 : (canonicalPair m).2 = m.symmetryM s := congrArg Prod.snd hcp
  have hlk := cacheLookup m hm16 hnef
  rw [hcp2] at hlk
  have habm : m.action_board_map = (s, buildABM (m.symmetryM s)) := by
    show ((canonicalPair m).1, (actionBoardsList.lookup (canonicalPair m).2).getD []) = _
    rw [hcp2, hlk, hcp1]
    rfl
  obtain ⟨y, ay, hyin, hymk, hye⟩ := zeroWalk_last m e z b.pos hz
  have hyadd_in : (y.add ay).inside = true := by
    rw [hye]
    exact hein
  have hyrev : e.add ay.reverse = y := by
    rw [← hye]
    exact add_reverse y ay hyin hyadd_in
  have hemem := (Point.inside_iff_mem_iter_all e).mp hein
  have he1in : (e.symmetry s).inside = true := (point_symmetry_roundtrip_core e hemem s hs).1
  have he1mk : (m.symmetryM s).marked (e.symmetry s) = true := by
    rw [symmetryM_marked_fwd m s hs e hein]
    exact he
  have hconj := act_conj_core e hemem ay.reverse (mem_ACTIONS _) s hs
    (by rw [hyrev]; exact hyin)
  rw [hyrev] at hconj
  have hymem := (Point.inside_iff_mem_iter_all y).mp hyin
  have hy1in : (y.symmetry s).inside = true := (point_symmetry_roundtrip_core y hymem s hs).1
  have hy1mk : (m.symmetryM s).marked (y.symmetry s) = false := by
    rw [symmetryM_marked_fwd m s hs y hyin]
    exact hymk
  have helig : e.symmetry s ∈ validEnds (m.symmetryM s) := by
    rw [mem_validEnds]
    refine ⟨he1in, he1mk, ay.reverse.symAct s, ?_, ?_⟩
    · rw [hconj]
      exact hy1in
    · rw [hconj]
      exact hy1mk
  have hz2 := zeroWalk_symmetry m s hs e hein z b.pos hz
  obtain ⟨j, hj1, hex⟩ := exists_exact_layer _ _ _ _ hz2
  have hgood := fromM_good (m.symmetryM s) (e.symmetry s) (symmetryM_lt m s hm16) he1mk
  have hmk2 : (ActionBoard.fromM (m.symmetryM s) (e.symmetry s)).starts.marked
      (b.pos.symmetry s) = true :=
    (hgood.2.2.2.1 (b.pos.symmetry s)).mpr ⟨j, hj1, hex⟩
  obtain ⟨w2, hw2len, hfolw, hwalkw⟩ :=
    table_follow (m.symmetryM s) (ActionBoard.fromM (m.symmetryM s) (e.symmetry s))
      hgood j (b.pos.symmetry s) hex hj1 hmk2
  have hjlen : j ≤ z.length := by
    by_contra hc
    push_neg at hc
    have hreach : ReachIn (m.symmetryM s) (e.symmetry s) (j - 1) (b.pos.symmetry s) :=
      ⟨z.map fun a => a.symAct s, by rw [List.length_map]; omega, hz2⟩
    exact hex.2 hreach
  constructor
  · show e ∈ (MarkBoard.fromBoard b).find_all_ends_for b.pos
    rw [hmdef]
    have hface : m.find_all_ends_for b.pos =
        (buildABM (m.symmetryM s)).filterMap fun eb =>
          if eb.2.starts.marked (b.pos.symmetry s)
          then some (eb.1.reverse_symmetry s) else none := by
      show (m.action_board_map).2.filterMap (fun eb =>
        if eb.2.starts.marked (b.pos.symmetry (m.action_board_map).1)
        then some (eb.1.reverse_symmetry (m.action_board_map).1) else none) = _
      rw [habm]
    rw [hface]
    refine List.mem_filterMap.mpr
      ⟨(e.symmetry s, ActionBoard.fromM (m.symmetryM s) (e.symmetry s)), ?_, ?_⟩
    · show _ ∈ (validEnds (m.symmetryM s)).map fun e2 =>
        (e2, ActionBoard.fromM (m.symmetryM s) e2)
      exact List.mem_map.mpr ⟨e.symmetry s, helig, rfl⟩
    · show (if (ActionBoard.fromM (m.symmetryM s) (e.symmetry s)).starts.marked
          (b.pos.symmetry s) then some ((e.symmetry s).reverse_symmetry s)
        else none) = some e
      rw [if_pos hmk2, (point_symmetry_roundtrip_core e hemem s hs).2]
  · refine ⟨w2.map fun a => a.reverse_symmetry s, ?_, ?_⟩
    · rw [List.length_map, hw2len]
      exact hjlen
    · have hmb : ∀ pos : Point, MarkBoard.fromBoard ⟨pos, b.cells⟩ = m := by
        intro pos
        rw [fromBoard_pos_irrel pos b.pos b.cells]
        exact hmdef
      exact followsTable_to_MT b.cells e s hs hein m hmb habm helig he
        w2 b.pos hpos hph.2 hfolw hwalkw

/-- Unmarked in-grid cells of the pattern hold zero. -/
theorem cell_zero_of_unmarked (cells : Nat) (m : MarkBoard)
    (hmb : ∀ pos : Point, MarkBoard.fromBoard ⟨pos, cells⟩ = m) (q : Point)
    (hq : q.inside = true) (hmk : m.marked q = false) :
    Board.cell ⟨q, cells⟩ q = 0 := by
  by_contra hc
  have h2 := (fromBoard_marked ⟨q, cells⟩ q hq).mpr hc
  rw [hmb q] at h2
  rw [h2] at hmk
  exact absurd hmk (by simp)

/-- A successful `move_towards` applies its returned move as a real action. -/
theorem move_towards_action (b : Board) (e : Point) (a : Action) (b2 : Board)
    (h : b.move_towards e = some (a, b2)) : b.action a = some b2 := by
  unfold Board.move_towards at h
  obtain ⟨a1, _, h2⟩ := Option.bind_eq_some.mp h
  obtain ⟨b1, hb1, he2⟩ := Option.map_eq_some'.mp h2
  have ha : a1 = a := congrArg Prod.fst he2
  have hb : b1 = b2 := congrArg Prod.snd he2
  rw [← ha, ← hb]
  exact hb1

/-- A good suffix really wins. -/
theorem GoodSuffix_wins :
    ∀ (l : List Action) (s : SolveStep), GoodSuffix s l → WinsFrom s.board l := by
  intro l
  induction l with
  | nil =>
    intro s h
    exact ⟨s.board, rfl, h⟩
  | cons a t ih =>
    intro s h
    obtain ⟨s2, _, hact, _, hg⟩ := h
    obtain ⟨bw, happ, hwon⟩ := ih s2 hg
    refine ⟨bw, ?_, hwon⟩
    show (s.board.action a).bind (fun b2 => applyMoves b2 t) = some bw
    rw [hact, Option.some_bind]
    exact happ

/-- Branch offer on a zero cell with a pending end. -/
theorem next_choices_zero_some (b : Board) (seq : ActionSequence) (e : Point)
    (hz : b.at_zero = true) :
    SolveStep.next_choices ⟨b, seq, some e⟩ = [Choice.ZeroPath e] := by
  unfold SolveStep.next_choices
  rw [if_pos (show (SolveStep.mk b seq (some e)).board.at_zero = true from hz)]

/-- Branch offer on a zero cell without a pending end. -/
theorem next_choices_zero_none (b : Board) (seq : ActionSequence)
    (hz : b.at_zero = true) :
    SolveStep.next_choices ⟨b, seq, none⟩ =
      b.zero_walk_endings.map Choice.ZeroPath := by
  unfold SolveStep.next_choices
  rw [if_pos (show (SolveStep.mk b seq none).board.at_zero = true from hz)]

/-- Branch offer on a nonzero cell. -/
theorem next_choices_free (b : Board) (seq : ActionSequence) (zpe : Option Point)
    (hz : b.at_zero = false) :
    SolveStep.next_choices ⟨b, seq, zpe⟩ = ACTIONS.map Choice.Free := by
  unfold SolveStep.next_choices
  rw [if_neg (by simp [hz])]

/-- Splicing a `move_towards` chain in front of a continuation from the
arrival board gives a good suffix through the `ZeroPath` branches. -/
theorem goodsuffix_walk (e : Point) (cont : List Action) :
    ∀ (w : List Action) (b : Board) (seq : ActionSequence) (zpe : Option Point),
      b.at_zero = true →
      (zpe = some e ∨ (zpe = none ∧ e ∈ b.zero_walk_endings)) →
      followsMT e b w →
      (∀ seq2 : ActionSequence, GoodSuffix ⟨⟨e, b.cells⟩, seq2, none⟩ cont) →
      GoodSuffix ⟨b, seq, zpe⟩ (w ++ cont) := by
  intro w
  induction w with
  | nil =>
    intro b seq zpe _ _ hf _
    exact absurd hf (by simp [followsMT])
  | cons a rest ih =>
    intro b seq zpe hz hzpe hf hcont
    have hchoice : Choice.ZeroPath e ∈ SolveStep.next_choices ⟨b, seq, zpe⟩ := by
      rcases hzpe with hpe | ⟨hpe, hmem⟩
      · rw [hpe, next_choices_zero_some b seq e hz]
        exact List.mem_singleton.mpr rfl
      · rw [hpe, next_choices_zero_none b seq hz]
        exact List.mem_map.mpr ⟨e, hmem, rfl⟩
    cases rest with
    | nil =>
      have hmta := move_towards_action b e a ⟨e, b.cells⟩ hf
      have hs2mem : (⟨⟨e, b.cells⟩, seq.addU a, none⟩ : SolveStep) ∈
          expandStep ⟨b, seq, zpe⟩ := by
        refine List.mem_filterMap.mpr ⟨Choice.ZeroPath e, hchoice, ?_⟩
        show (b.move_towards e).map (fun ab => SolveStep.mk ab.2 (seq.addU ab.1)
          (if ab.2.at_point e then none else some e)) = _
        rw [hf]
        show some (SolveStep.mk ⟨e, b.cells⟩ (seq.addU a)
          (if (⟨e, b.cells⟩ : Board).at_point e then none else some e)) = _
        have hptt : (⟨e, b.cells⟩ : Board).at_point e = true := by
          show (e == e) = true
          exact beq_self_eq_true e
        rw [hptt]
        rfl
      exact ⟨⟨⟨e, b.cells⟩, seq.addU a, none⟩, hs2mem, hmta, rfl, hcont (seq.addU a)⟩
    | cons a2 rest2 =>
      obtain ⟨hmt, hpt, hz2, hfrest⟩ := hf
      have hmta := move_towards_action b e a _ hmt
      have hs2mem : (⟨⟨b.pos.add a, b.cells⟩, seq.addU a, some e⟩ : SolveStep) ∈
          expandStep ⟨b, seq, zpe⟩ := by
        refine List.mem_filterMap.mpr ⟨Choice.ZeroPath e, hchoice, ?_⟩
        show (b.move_towards e).map (fun ab => SolveStep.mk ab.2 (seq.addU ab.1)
          (if ab.2.at_point e then none else some e)) = _
        rw [hmt]
        show some (SolveStep.mk ⟨b.pos.add a, b.cells⟩ (seq.addU a)
          (if (⟨b.pos.add a, b.cells⟩ : Board).at_point e then none else some e)) = _
        rw [hpt]
        rfl
      refine ⟨⟨⟨b.pos.add a, b.cells⟩, seq.addU a, some e⟩, hs2mem, hmta, rfl, ?_⟩
      exact ih ⟨b.pos.add a, b.cells⟩ (seq.addU a) (some e) hz2 (Or.inl rfl) hfrest hcont

/-- A win from a zero cell starts with a zero-walk to the first occupied
cell, leaving the cells untouched. -/
theorem zero_prefix_decomp (cells : Nat) (m : MarkBoard)
    (hmb : ∀ pos : Point, MarkBoard.fromBoard ⟨pos, cells⟩ = m) (hne : cells ≠ 0) :
    ∀ (l : List Action) (p : Point), p.inside = true → m.marked p = false →
      WinsFrom ⟨p, cells⟩ l →
      ∃ (e : Point) (z rest : List Action), l = z ++ rest ∧
        isZeroWalk m e p z ∧ m.marked e = true ∧ e.inside = true ∧
        applyMoves ⟨p, cells⟩ z = some ⟨e, cells⟩ := by
  intro l
  induction l with
  | nil =>
    intro p hin hmk hwin
    obtain ⟨bw, happ, hwon⟩ := hwin
    have hbe : (⟨p, cells⟩ : Board) = bw := by simpa [applyMoves] using happ
    exfalso
    apply hne
    have hc0 : bw.cells = 0 := by simpa [Board.is_won] using hwon
    rw [← hbe] at hc0
    exact hc0
  | cons a t ih =>
    intro p hin hmk hwin
    obtain ⟨bw, happ, hwon⟩ := hwin
    obtain ⟨b1, hact, happ2⟩ := Option.bind_eq_some.mp happ
    have hcz : Board.cell ⟨p, cells⟩ p = 0 := cell_zero_of_unmarked cells m hmb p hin hmk
    have hin1 : (p.add a).inside = true := (action_pos _ a b1 hact).1
    have hb1 : b1 = ⟨p.add a, cells⟩ := by
      have h2 := action_from_zero ⟨p, cells⟩ a hcz hin1
      rw [hact] at h2
      simpa using h2
    subst hb1
    by_cases hmk1 : m.marked (p.add a) = true
    · refine ⟨p.add a, [a], t, rfl, ?_, hmk1, hin1, ?_⟩
      · show p.inside = true ∧ m.marked p = false ∧ p.add a = p.add a
        exact ⟨hin, hmk, rfl⟩
      · show ((⟨p, cells⟩ : Board).action a).bind (fun b2 => applyMoves b2 []) =
          some ⟨p.add a, cells⟩
        rw [hact, Option.some_bind]
        rfl
    · have hmk1f : m.marked (p.add a) = false := Bool.eq_false_iff.mpr hmk1
      obtain ⟨e, z, rest, hsplit, hwalk, hemk, hein, happz⟩ :=
        ih (p.add a) hin1 hmk1f ⟨bw, happ2, hwon⟩
      refine ⟨e, a :: z, rest, by rw [hsplit]; rfl, ?_, hemk, hein, ?_⟩
      · exact zeroWalk_prepend m e p a z hin hmk hwalk
      · show ((⟨p, cells⟩ : Board).action a).bind (fun b2 => applyMoves b2 z) =
          some ⟨e, cells⟩
        rw [hact, Option.some_bind]
        exact happz

/-- From every winning board position the solver's branch offers contain a
winning path that is no longer than the given win. -/
theorem good_suffix_exists :
    ∀ (n : Nat) (b : Board) (l : List Action),
      l.length ≤ n → b.pos.inside = true → WinsFrom b l →
      ∃ g, g.length ≤ l.length ∧
        ∀ seq : ActionSequence, GoodSuffix ⟨b, seq, none⟩ g := by
  intro n
  induction n with
  | zero =>
    intro b l hlen hpos hwin
    have hl : l = [] := List.eq_nil_of_length_eq_zero (by omega)
    subst hl
    obtain ⟨bw, happ, hwon⟩ := hwin
    have hbe : b = bw := by simpa [applyMoves] using happ
    refine ⟨[], by simp, fun seq => ?_⟩
    show b.is_won = true
    rw [hbe]
    exact hwon
  | succ n ih =>
    intro b l hlen hpos hwin
    by_cases hw : b.is_won = true
    · exact ⟨[], by simp, fun seq => hw⟩
    · by_cases hz : b.at_zero = true
      · have hne : b.cells ≠ 0 := fun hc => hw (by simp [Board.is_won, hc])
        have hmb : ∀ pos : Point, MarkBoard.fromBoard ⟨pos, b.cells⟩ =
            MarkBoard.fromBoard b := by
          intro pos
          rw [fromBoard_pos_irrel pos b.pos b.cells]
        have hmk : (MarkBoard.fromBoard b).marked b.pos = false := by
          have hcz := (at_zero_iff b).mp hz
          cases hmkc : (MarkBoard.fromBoard b).marked b.pos
          · rfl
          · exact absurd hcz ((fromBoard_marked b b.pos hpos).mp hmkc)
        obtain ⟨e, z, rest, hsplit, hwalk, hemk, hein, happz⟩ :=
          zero_prefix_decomp b.cells (MarkBoard.fromBoard b) hmb hne l b.pos hpos
            hmk hwin
        obtain ⟨hzwe, w, hwlen, hfMT⟩ :=
          table_path_exists b (MarkBoard.fromBoard b) rfl e z hwalk hemk hein
        have hwrest : WinsFrom ⟨e, b.cells⟩ rest := by
          obtain ⟨bw, happ, hwon⟩ := hwin
          rw [hsplit, applyMoves_append] at happ
          have happz2 : applyMoves b z = some ⟨e, b.cells⟩ := happz
          rw [happz2, Option.some_bind] at happ
          exact ⟨bw, happ, hwon⟩
        have hz1 : 1 ≤ z.length := by
          cases z with
          | nil => exact absurd hwalk (by simp [isZeroWalk])
          | cons zh zt => simp
        have hllen : l.length = z.length + rest.length := by
          rw [hsplit]
          simp
        obtain ⟨g2, hg2len, hg2⟩ := ih ⟨e, b.cells⟩ rest (by omega) hein hwrest
        refine ⟨w ++ g2, ?_, ?_⟩
        · rw [List.length_append]
          omega
        · intro seq
          exact goodsuffix_walk e g2 w b seq none hz (Or.inr ⟨rfl, hzwe⟩) hfMT
            (fun seq2 => hg2 seq2)
      · have hzf : b.at_zero = false := Bool.eq_false_iff.mpr hz
        cases l with
        | nil =>
          exfalso
          obtain ⟨bw, happ, hwon⟩ := hwin
          have hbe : b = bw := by simpa [applyMoves] using happ
          apply hw
          rw [hbe]
          exact hwon
        | cons a t =>
          obtain ⟨bw, happ, hwon⟩ := hwin
          obtain ⟨b1, hact, happ2⟩ := Option.bind_eq_some.mp happ
          have hpos1 : b1.pos.inside = true := by
            obtain ⟨hin2, hbp⟩ := action_pos b a b1 hact
            rw [hbp]
            exact hin2
          have htlen : t.length ≤ n := by
            simp only [List.length_cons] at hlen
            omega
          obtain ⟨g2, hg2len, hg2⟩ := ih b1 t htlen hpos1 ⟨bw, happ2, hwon⟩
          refine ⟨a :: g2, ?_, ?_⟩
          · simp only [List.length_cons]
            omega
          · intro seq
            have hs2mem : (⟨b1, seq.addU a, none⟩ : SolveStep) ∈
                expandStep ⟨b, seq, none⟩ := by
              refine List.mem_filterMap.mpr ⟨Choice.Free a, ?_, ?_⟩
              · rw [next_choices_free b seq none hzf]
                exact List.mem_map.mpr ⟨a, mem_ACTIONS a, rfl⟩
              · show (b.action a).map (fun board =>
                  SolveStep.mk board (seq.addU a) none) = _
                rw [hact]
                rfl
            exact ⟨⟨b1, seq.addU a, none⟩, hs2mem, hact, rfl, hg2 (seq.addU a)⟩

/-- Every winning board has a shortest win. -/
theorem exists_min_win :
    ∀ (n : Nat) (b : Board) (l : List Action), l.length ≤ n → WinsFrom b l →
      ∃ lm, WinsFrom b lm ∧ ∀ l2, WinsFrom b l2 → lm.length ≤ l2.length := by
  intro n
  induction n using Nat.strong_induction_on with
  | _ n ih =>
    intro b l hlen hwin
    by_cases hc : ∃ l2, WinsFrom b l2 ∧ l2.length < l.length
    · obtain ⟨l2, hw2, hlt⟩ := hc
      exact ih l2.length (by omega) b l2 (le_refl _) hw2
    · push_neg at hc
      exact ⟨l, hwin, hc⟩

/-- Completeness of the search loop: when a good path of the minimal win
length runs through the frontier, the loop's result decodes to a win of at
most that length. -/
theorem solveLoop_exact (b0 : Board) (M : Nat)
    (hmin : ∀ l : List Action, WinsFrom b0 l → M ≤ l.length) :
    ∀ (fuel k : Nat) (F : List SolveStep) (V : List Board) (seq : ActionSequence),
      (∀ s ∈ F, StepSoundAt b0 k s) →
      (∀ s ∈ F, s.board.pos.inside = true) →
      (∀ v ∈ V, ∃ lv : List Action, lv.length < k ∧ applyMoves b0 lv = some v) →
      (∃ sg ∈ F, ∃ g, g.length = M - k ∧ GoodSuffix sg g) →
      k < M → M ≤ k + fuel → k + fuel ≤ 29 →
      solveLoop F V fuel = some seq →
      ∃ l, SeqInv seq l ∧ WinsFrom b0 l ∧ l.length ≤ M := by
  intro fuel
  induction fuel with
  | zero =>
    intro k F V seq _ _ _ _ hk hfuel _ _
    omega
  | succ fuel ih =>
    intro k F V seq hsound hposF hV hgood hk hfuel hcap hrun
    have hstep : solveLoop F V (fuel + 1) =
        if F.isEmpty then none
        else match ((F.flatMap expandStep).filter fun step =>
            !V.contains step.board && !step.board.is_lost).find?
            (fun step => step.board.is_won) with
          | some sol => some sol.seq
          | none => solveLoop ((F.flatMap expandStep).filter fun step =>
              !V.contains step.board && !step.board.is_lost)
              (V ++ F.map SolveStep.board) fuel := rfl
    rw [hstep] at hrun
    obtain ⟨sg, hsgF, g, hglen, hgoodg⟩ := hgood
    by_cases hFe : F.isEmpty = true
    · exfalso
      rw [List.isEmpty_iff] at hFe
      rw [hFe] at hsgF
      exact absurd hsgF (by simp)
    · rw [if_neg hFe] at hrun
      have hnext : ∀ s' ∈ (F.flatMap expandStep).filter
          (fun step => !V.contains step.board && !step.board.is_lost),
          StepSoundAt b0 (k + 1) s' := by
        intro s' hs'
        have hs2 := (List.mem_filter.mp hs').1
        obtain ⟨s, hsF, hse⟩ := List.mem_flatMap.mp hs2
        obtain ⟨a, hact, hseq⟩ := expand_member s s' hse
        obtain ⟨l, hlen, happ, hinv⟩ := hsound s hsF
        refine ⟨l ++ [a], by simp [hlen], ?_, ?_⟩
        · rw [applyMoves_append, happ]
          simp [applyMoves, hact]
        · rw [hseq]
          exact SeqInv_addU s.seq a l hinv (by omega)
      have hposN : ∀ s' ∈ (F.flatMap expandStep).filter
          (fun step => !V.contains step.board && !step.board.is_lost),
          s'.board.pos.inside = true := by
        intro s' hs'
        have hs2 := (List.mem_filter.mp hs').1
        obtain ⟨s, hsF, hse⟩ := List.mem_flatMap.mp hs2
        obtain ⟨a, hact, _⟩ := expand_member s s' hse
        obtain ⟨hin2, hbp⟩ := action_pos s.board a s'.board hact
        rw [hbp]
        exact hin2
      cases g with
      | nil =>
        exfalso
        simp only [List.length_nil] at hglen
        omega
      | cons ga g1 =>
        obtain ⟨s2, hs2exp, hact2, hseq2, hgs2⟩ := hgoodg
        have hs2flat : s2 ∈ F.flatMap expandStep :=
          List.mem_flatMap.mpr ⟨sg, hsgF, hs2exp⟩
        simp only [List.length_cons] at hglen
        have hs2win : WinsFrom s2.board g1 := GoodSuffix_wins g1 s2 hgs2
        have hs2pos : s2.board.pos.inside = true := by
          obtain ⟨hin2, hbp⟩ := action_pos sg.board ga s2.board hact2
          rw [hbp]
          exact hin2
        have hnl : s2.board.is_lost = false := by
          cases hcl : s2.board.is_lost
          · rfl
          · exact absurd hs2win (lost_no_win s2.board hs2pos hcl g1)
        have hnv : V.contains s2.board = false := by
          cases hcv : V.contains s2.board
          · rfl
          · exfalso
            have hmemv : s2.board ∈ V := by simpa using hcv
            obtain ⟨lv, hlvlen, happv⟩ := hV s2.board hmemv
            obtain ⟨bw, happw, hwonw⟩ := hs2win
            have hwin0 : WinsFrom b0 (lv ++ g1) := by
              refine ⟨bw, ?_, hwonw⟩
              rw [applyMoves_append, happv, Option.some_bind]
              exact happw
            have hmle := hmin (lv ++ g1) hwin0
            rw [List.length_append] at hmle
            omega
        have hs2NS : s2 ∈ (F.flatMap expandStep).filter
            (fun step => !V.contains step.board && !step.board.is_lost) := by
          refine List.mem_filter.mpr ⟨hs2flat, ?_⟩
          show (!V.contains s2.board && !s2.board.is_lost) = true
          rw [hnv, hnl]
          rfl
        cases hfind : ((F.flatMap expandStep).filter fun step =>
            !V.contains step.board && !step.board.is_lost).find?
            (fun step => step.board.is_won) with
        | some sol =>
          rw [hfind] at hrun
          have hseqe : seq = sol.seq := by
            have h2 : some sol.seq = some seq := hrun
            simpa using h2.symm
          obtain ⟨l, hlen, happ, hinv⟩ := hnext sol (List.mem_of_find?_eq_some hfind)
          have hwon : sol.board.is_won = true := by
            have h3 := List.find?_some hfind
            simpa using h3
          have hwin0 : WinsFrom b0 l := ⟨sol.board, happ, hwon⟩
          have hMle : M ≤ l.length := hmin l hwin0
          rw [hseqe]
          exact ⟨l, hinv, hwin0, by omega⟩
        | none =>
          rw [hfind] at hrun
          rcases Nat.lt_or_ge (k + 1) M with hlt | hge
          · refine ih (k + 1) _ (V ++ F.map SolveStep.board) seq hnext hposN ?_ ?_
              hlt (by omega) (by omega) hrun
            · intro v hv
              rcases List.mem_append.mp hv with h | h
              · obtain ⟨lv, h1, h2⟩ := hV v h
                exact ⟨lv, by omega, h2⟩
              · obtain ⟨s, hsF, hse⟩ := List.mem_map.mp h
                obtain ⟨l, hlen, happ, _⟩ := hsound s hsF
                rw [← hse]
                exact ⟨l, by omega, happ⟩
            · exact ⟨s2, hs2NS, g1, by omega, hgs2⟩
          · have hg1nil : g1 = [] := List.eq_nil_of_length_eq_zero (by omega)
            have hwon2 : s2.board.is_won = true := by
              rw [hg1nil] at hgs2
              exact hgs2
            exact absurd hwon2 (List.find?_eq_none.mp hfind s2 hs2NS)

/-- C1: for every board with an in-grid player position and every budget
`max_moves <= ActionSequence::MAX_LENGTH`, if `solve_board` returns a
sequence then applying its moves in order wins the board, and no strictly
shorter move list wins it: the returned length is minimal over all wins,
hence equal to what an exhaustive breadth-first search without the shortcut
cache would find. -/
theorem C1_solver_optimal (b : Board) (max : Nat) (L : List Action)
    (hpos : b.pos.inside = true) (hmax : max ≤ ActionSequence.MAX_LENGTH)
    (hrun : solve_board b max = some L) :
    WinsFrom b L ∧ ∀ l2 : List Action, WinsFrom b l2 → L.length ≤ l2.length := by
  have hmax29 : max ≤ 29 := by
    unfold ActionSequence.MAX_LENGTH at hmax
    omega
  obtain ⟨hwin, hlen, _⟩ := solve_board_sound b max L hmax29 hrun
  refine ⟨hwin, ?_⟩
  intro l2 hw2
  obtain ⟨lm, hwm, hminall⟩ := exists_min_win L.length b L (le_refl _) hwin
  by_cases hw : b.is_won = true
  · unfold solve_board at hrun
    rw [if_pos hw] at hrun
    have hLnil : L = [] := by simpa using hrun.symm
    rw [hLnil]
    simp
  · unfold solve_board at hrun
    rw [if_neg hw] at hrun
    obtain ⟨seq, hloop, hL⟩ := Option.map_eq_some'.mp hrun
    have hM1 : 1 ≤ lm.length := by
      cases hlmc : lm with
      | nil =>
        exfalso
        obtain ⟨bw, happ, hwon⟩ := hwm
        rw [hlmc] at happ
        have hbe : b = bw := by simpa [applyMoves] using happ
        apply hw
        rw [hbe]
        exact hwon
      | cons x xs =>
        simp
    have hfuel : lm.length ≤ max := by
      have := hminall L hwin
      omega
    obtain ⟨g, hglen0, hg⟩ := good_suffix_exists lm.length b lm (le_refl _) hpos hwm
    have hgwin : WinsFrom b g := GoodSuffix_wins g ⟨b, ActionSequence.new, none⟩
      (hg ActionSequence.new)
    have hgeM : lm.length ≤ g.length := hminall g hgwin
    have hinit : ∀ s ∈ [(⟨b, ActionSequence.new, none⟩ : SolveStep)],
        StepSoundAt b 0 s := by
      intro s hs
      have hse : s = ⟨b, ActionSequence.new, none⟩ := by simpa using hs
      subst hse
      exact ⟨[], rfl, rfl, SeqInv_new⟩
    have hposinit : ∀ s ∈ [(⟨b, ActionSequence.new, none⟩ : SolveStep)],
        s.board.pos.inside = true := by
      intro s hs
      have hse : s = ⟨b, ActionSequence.new, none⟩ := by simpa using hs
      subst hse
      exact hpos
    have hVinit : ∀ v ∈ ([] : List Board),
        ∃ lv : List Action, lv.length < 0 ∧ applyMoves b lv = some v := by
      intro v hv
      exact absurd hv (by simp)
    have hginit : ∃ sg ∈ [(⟨b, ActionSequence.new, none⟩ : SolveStep)],
        ∃ g2, g2.length = lm.length - 0 ∧ GoodSuffix sg g2 := by
      refine ⟨⟨b, ActionSequence.new, none⟩, List.mem_singleton.mpr rfl, g, ?_,
        hg ActionSequence.new⟩
      omega
    obtain ⟨l, hinv, hlwin, hlle⟩ := solveLoop_exact b lm.length hminall max 0
      [⟨b, ActionSequence.new, none⟩] [] seq hinit hposinit hVinit hginit hM1
      (by omega) (by omega) hloop
    have hLl : L = l := by
      rw [← hL]
      exact SeqInv_toList seq l hinv
    have hl2 := hminall l2 hw2
    rw [hLl]
    omega

/-- Witness for C1 at the already-won all-zero board with budget 0. -/
theorem C1_witness :
    ((⟨⟨0⟩, 0⟩ : Board).pos.inside = true) ∧ (0 ≤ ActionSequence.MAX_LENGTH) ∧
    (solve_board ⟨⟨0⟩, 0⟩ 0 = some []) ∧
    (WinsFrom ⟨⟨0⟩, 0⟩ [] ∧
      ∀ l2 : List Action, WinsFrom ⟨⟨0⟩, 0⟩ l2 → ([] : List Action).length ≤ l2.length) :=
  ⟨by decide, by decide, by decide,
    C1_solver_optimal ⟨⟨0⟩, 0⟩ 0 [] (by decide) (by decide) (by decide)⟩

end Zoysii
